import Mathlib

/-!
# satsolve_dmc: a shallow embedding of the diffusion Monte Carlo SAT walker

The C sources (`bitstrings.c`, `sat.c`, `walk.c`, `dmcsat.c`) are embedded as
Lean functions.

* A `uint64_t` word is a natural number; the only word operations the code
  uses (`&`, `|`, `^`, and `1LLU << shift` with `shift <= 63`) never leave
  the range below `2^64`, see `flip_wordsBelow`.
* A C `int` is an `Int`; none of the embedded computations overflows.
* A `double` is a rational number: exact arithmetic, no rounding. The one
  exception is `tern64`, which rounds the sum and the products of `tern` the
  way binary64 operations do (`round64`).
* An access outside an array is undefined behaviour in C; the embedding
  makes it explicit as `Res.fault` or `none`.
* `rand()` reads the next element of an explicit stream of draws.
-/

namespace Satsolve

/-! ## bitstrings.c -/

/-- The array `uint64_t bs[4]`: 256 bits in four words. -/
structure Bits where
  w0 : Nat
  w1 : Nat
  w2 : Nat
  w3 : Nat
deriving DecidableEq

/-- The word `bs[k]` for `k < 4` (and `0` elsewhere, never used by the code). -/
def Bits.word (bs : Bits) (k : Nat) : Nat :=
  match k with
  | 0 => bs.w0
  | 1 => bs.w1
  | 2 => bs.w2
  | 3 => bs.w3
  | _ => 0

/-- The array with `bs[k]` replaced by `v` (unchanged for `k >= 4`). -/
def Bits.setWord (bs : Bits) (k : Nat) (v : Nat) : Bits :=
  match k with
  | 0 => { bs with w0 := v }
  | 1 => { bs with w1 := v }
  | 2 => { bs with w2 := v }
  | 3 => { bs with w3 := v }
  | _ => bs

/-- The memory read `bs[index]`: defined only inside the four words. -/
def Bits.read (bs : Bits) (index : Int) : Option Nat :=
  if 0 ≤ index ∧ index < 4 then some (bs.word index.toNat) else none

/-- The memory write `bs[index] = v`: defined only inside the four words. -/
def Bits.write (bs : Bits) (index : Int) (v : Nat) : Option Bits :=
  if 0 ≤ index ∧ index < 4 then some (bs.setWord index.toNat v) else none

/-- Bit `j` of the 256-bit vector: bit `j % 64` of word `j / 64`. -/
def Bits.testBit (bs : Bits) (j : Nat) : Bool :=
  (bs.word (j / 64)).testBit (j % 64)

/-- All four words are machine words (below `2^64`). -/
def Bits.wordsBelow (bs : Bits) : Prop :=
  bs.w0 < 2 ^ 64 ∧ bs.w1 < 2 ^ 64 ∧ bs.w2 < 2 ^ 64 ∧ bs.w3 < 2 ^ 64

/-- Outcome of a bit-vector primitive.
`ok v`: the normal path returned `v`.
`err v`: the guard `i >= B` fired; the message was printed and `v` returned
before any word of the array was read or written.
`fault`: the code indexed the array outside its four words. -/
inductive Res (α : Type) where
  | ok (v : α)
  | err (v : α)
  | fault
deriving DecidableEq

/-- The value the C caller continues with, if the call did not fault. -/
def Res.val? {α : Type} : Res α → Option α
  | .ok v => some v
  | .err v => some v
  | .fault => none

/-- The word index `i>>6` computed by `extract` and `flip`. -/
def wordIndex (i : Int) : Int := i >>> (6 : Nat)

/-- The shift `i-(index<<6)` computed by `extract` and `flip`. -/
def bitShift (i : Int) : Int := i - ((wordIndex i) <<< (6 : Int))

/-- The function `int extract(uint64_t *bs, int i, int B)`. -/
def extract (bs : Bits) (i B : Int) : Res Int :=
  if i ≥ B then .err 0
  else
    match bs.read (wordIndex i) with
    | none => .fault
    | some w => if w &&& (1 <<< (bitShift i).toNat) ≠ 0 then .ok 1 else .ok 0

/-- The function `void flip(uint64_t *bs, int i, int B)`; returns the array after the call. -/
def flip (bs : Bits) (i B : Int) : Res Bits :=
  if i ≥ B then .err bs
  else
    match bs.read (wordIndex i) with
    | none => .fault
    | some w =>
      match bs.write (wordIndex i) (w ^^^ (1 <<< (bitShift i).toNat)) with
      | none => .fault
      | some bs1 => .ok bs1

/-- The function `copy_bits(src, dest, B)`: the loop `dest[i] = src[i]` for
`i = 0..3`; returns `dest` after the call. -/
def copy_bits (src _dest : Bits) (_B : Int) : Bits :=
  ⟨src.w0, src.w1, src.w2, src.w3⟩

/-- The function `init_bits(bs, B)`: the loop `bs[i] = 0` for `i = 0..3`. -/
def init_bits (_bs : Bits) (_B : Int) : Bits :=
  ⟨0, 0, 0, 0⟩

/-- The loop `for (k = lo; k < lo + n; k++) body`, threading the state and
stopping at the first undefined step. -/
def forLoop {σ : Type} (body : Nat → σ → Option σ) : Nat → Nat → σ → Option σ
  | _, 0, s => some s
  | lo, n + 1, s => (body lo s).bind (forLoop body (lo + 1) n)

/-! ## sat.h, sat.c -/

/-- The struct `clause`. The lists `vars` and `nots` hold the initialised
entries of `int vars[3]` and `int nots[3]` (the first `numvars` ones). -/
structure clause where
  bitmask : Bits
  notmask : Bits
  vars : List Int
  nots : List Int
  numvars : Nat
deriving DecidableEq

/-- The struct `contain`: `list` is the array obtained from `malloc`, `num`
the number of entries written so far. -/
structure contain where
  num : Nat
  list : List Nat
deriving DecidableEq

/-- The struct `instance`. -/
structure Instance where
  clauses : List clause
  numclauses : Nat
  B : Nat
  presence : List contain
deriving DecidableEq

/-- The all-zero bit vector left by the loop that clears both masks. -/
def zeroBits : Bits := ⟨0, 0, 0, 0⟩

/-- The mask loop of `loadsat`: for each literal, `flip` the variable in
`bitmask`, and in `notmask` too when the literal is negated. -/
def maskLoop : List Int → List Int → Bits × Bits → Option (Bits × Bits)
  | v :: vs, n :: ns, (bm, nm) =>
    match (flip bm v 256).val? with
    | none => none
    | some bm1 =>
      match (if n ≠ 0 then (flip nm v 256).val? else some nm) with
      | none => none
      | some nm1 => maskLoop vs ns (bm1, nm1)
  | _, _, acc => some acc

/-- The body of the clause loop of `loadsat` for one clause line, given the
integers `x[0..numread-1]` that `sscanf` read from it (`1 <= numread <= 4`). -/
def loadClause (x : List Int) : Option clause :=
  if x.length < 1 ∨ 4 < x.length then none
  else
    let numvars := x.length - 1
    let vars := (x.take numvars).map (fun xj => |xj| - 1)
    let nots := (x.take numvars).map (fun xj => if xj < 0 then (1 : Int) else 0)
    match maskLoop vars nots (zeroBits, zeroBits) with
    | none => none
    | some (bm, nm) => some ⟨bm, nm, vars, nots, numvars⟩

/-- The clause loop of `loadsat` over all clause lines. -/
def loadClauses : List (List Int) → Option (List clause)
  | [] => some []
  | x :: xs =>
    match loadClause x with
    | none => none
    | some c =>
      match loadClauses xs with
      | none => none
      | some cs => some (c :: cs)

/-- The two statements `presence[a].list[presence[a].num] = i; presence[a].num++`.
The array `presence` has `B` cells and each `list` has room for `numclauses`
entries; an access outside either is undefined. -/
def presenceStep (i : Nat) (pres : List contain) (a : Int) : Option (List contain) :=
  if a < 0 then none
  else
    match pres[a.toNat]? with
    | none => none
    | some c =>
      if c.num < c.list.length then
        some (pres.set a.toNat ⟨c.num + 1, c.list.set c.num i⟩)
      else none

/-- The inner loop over the literals `j < numvars` of clause `i`. -/
def presenceInner (i : Nat) : List Int → List contain → Option (List contain)
  | [], pres => some pres
  | a :: as, pres =>
    match presenceStep i pres a with
    | none => none
    | some p => presenceInner i as p

/-- The outer loop over the clauses `i, i+1, ...`. -/
def presenceOuter : List clause → Nat → List contain → Option (List contain)
  | [], _, pres => some pres
  | c :: cs, i, pres =>
    match presenceInner i (c.vars.take c.numvars) pres with
    | none => none
    | some p => presenceOuter cs (i + 1) p

/-- The presence array after the allocation loop: `B` cells, each with
`num = 0` and a fresh `list` of `numclauses` entries (modelled as zeros). -/
def presenceInit (B numclauses : Nat) : List contain :=
  List.replicate B ⟨0, List.replicate numclauses 0⟩

/-- What a call of `loadsat` leaves behind. -/
inductive Loaded where
  | failed
  | loaded (sat : Instance)
  | fault
deriving DecidableEq

/-- The function `loadsat`, for a file that opens and allocations that
succeed. `header` is the pair `vars, clauses` of the first `p` line (if
any), `lines` the integers scanned from each clause line, in file order.
`failed` is the return value 0, `loaded sat` the return value 1 with the
instance it filled in, `fault` an access outside an allocated array or to a
clause slot that was never written. -/
def loadsat (header : Option (Nat × Nat)) (lines : List (List Int)) : Loaded :=
  match header with
  | none => .failed
  | some (vars, clauses) =>
    if lines.length ≠ clauses then .fault
    else
      match loadClauses lines with
      | none => .fault
      | some cs =>
        match presenceOuter cs 0 (presenceInit vars clauses) with
        | none => .fault
        | some pres => .loaded ⟨cs, clauses, vars, pres⟩

/-- The function `int violated(uint64_t *bs, clause *c)`. -/
def violated (bs : Bits) (c : clause) : Int :=
  let w0 := (c.bitmask.w0 &&& bs.w0) ^^^ c.notmask.w0
  let w1 := (c.bitmask.w1 &&& bs.w1) ^^^ c.notmask.w1
  let w2 := (c.bitmask.w2 &&& bs.w2) ^^^ c.notmask.w2
  let w3 := (c.bitmask.w3 &&& bs.w3) ^^^ c.notmask.w3
  let w4 := w0 ||| w1
  let w5 := w2 ||| w3
  if w4 ||| w5 ≠ 0 then 0 else 1

/-! ## walk.h, walk.c -/

/-- The constant `RAND_MAX` of `stdlib.h` (the value of glibc). -/
def RAND_MAX : Nat := 2147483647

/-- The state of the C random number generator: the stream of values the
successive calls of `rand()` return, and how many have been consumed. -/
structure Rng where
  draws : Nat → Nat
  pos : Nat

/-- The call `rand()`: the next draw, reduced into `[0, RAND_MAX]`. -/
def rand (g : Rng) : Nat × Rng :=
  (g.draws g.pos % (RAND_MAX + 1), { g with pos := g.pos + 1 })

/-- The struct `walker`. -/
structure walker where
  bs : Bits
  unsat : Int
deriving DecidableEq

/-- The function `int randint(int n)`; `rand()%n` is undefined for `n = 0`. -/
def randint (n : Int) (g : Rng) : Option (Int × Rng) :=
  if n > RAND_MAX then some (RAND_MAX, g)
  else if n = 0 then none
  else some (Int.tmod (rand g).1 n, (rand g).2)

/-- The cast `(int)x` of a double: truncation toward zero. -/
def truncToInt (x : ℚ) : Int := if 0 ≤ x then ⌊x⌋ else ⌈x⌉

/-- The function `int bern(double p)`. -/
def bern (p : ℚ) (g : Rng) : Int × Rng :=
  if p < 0 then (1, g)
  else if p > 1 then (0, g)
  else
    let threshold := truncToInt (p * (RAND_MAX : ℚ))
    if ((rand g).1 : Int) < threshold then (1, (rand g).2) else (0, (rand g).2)

/-- The guard of `tern` that reports invalid probabilities. -/
def ternInvalid (p0 p1 : ℚ) : Prop := p0 < 0 ∨ p1 < 0 ∨ p0 + p1 > 1

instance (p0 p1 : ℚ) : Decidable (ternInvalid p0 p1) := by
  unfold ternInvalid; infer_instance

/-- The function `int tern(double p0, double p1)`, in exact arithmetic (the
sum and the products are not rounded; `tern64` rounds them). -/
def tern (p0 p1 : ℚ) (g : Rng) : Int × Rng :=
  if ternInvalid p0 p1 then (0, g)
  else
    let threshold1 := truncToInt (p0 * (RAND_MAX : ℚ))
    let threshold2 := truncToInt ((p0 + p1) * (RAND_MAX : ℚ))
    let r : Int := (rand g).1
    if r < threshold1 then (0, (rand g).2)
    else if r < threshold2 then (1, (rand g).2)
    else (2, (rand g).2)

/-- The entries `list[0..num-1]` that the loop of `hop` reads. -/
def contain.entries (c : contain) : Option (List Nat) :=
  if c.num ≤ c.list.length then some (c.list.take c.num) else none

/-- The loop of `hop` over the presence list of the flipped bit:
`diff += violated(pro->bs, &clauses[index]) - violated(cur->bs, &clauses[index])`. -/
def hopDiff (sat : Instance) (curbs probs : Bits) : List Nat → Int → Option Int
  | [], diff => some diff
  | index :: rest, diff =>
    match sat.clauses[index]? with
    | none => none
    | some c => hopDiff sat curbs probs rest (diff + (violated probs c - violated curbs c))

/-- The function `void hop(walker *cur, walker *pro, instance *sat)`; returns
both walkers after the call. -/
def hop (cur pro : walker) (sat : Instance) (g : Rng) : Option (walker × walker × Rng) :=
  match randint sat.B g with
  | none => none
  | some (bflip, g1) =>
    match (flip (copy_bits cur.bs pro.bs sat.B) bflip sat.B).val? with
    | none => none
    | some probs =>
      if bflip < 0 then none
      else
        match sat.presence[bflip.toNat]? with
        | none => none
        | some pr =>
          match pr.entries with
          | none => none
          | some l =>
            match hopDiff sat cur.bs probs l 0 with
            | none => none
            | some diff => some (cur, { bs := probs, unsat := cur.unsat + diff }, g1)

/-- The function `void teleport(walker *cur, walker *pro, int w, int W, int B)`;
returns both arrays after the call. -/
def teleport (cur pro : List walker) (w : Nat) (W : Int) (B : Int) (g : Rng) :
    Option (List walker × List walker × Rng) :=
  match randint W g with
  | none => none
  | some (destination, g1) =>
    if destination < 0 then none
    else
      match cur[destination.toNat]?, pro[w]? with
      | some d, some pw =>
        some (cur, pro.set w { bs := copy_bits d.bs pw.bs B, unsat := d.unsat }, g1)
      | _, _ => none

/-- The function `void sit(walker *cur, walker *pro, int B)`; returns both
walkers after the call. -/
def sit (cur pro : walker) (B : Int) : walker × walker :=
  (cur, { bs := copy_bits cur.bs pro.bs B, unsat := cur.unsat })

/-- The inner loop of `randomize` over the bits `b` of one walker. -/
def randomizeBits (B : Nat) (b : Nat) (st : Bits × Rng) : Option (Bits × Rng) :=
  let r := bern (1 / 2) st.2
  if r.1 = 1 then
    match (flip st.1 b B).val? with
    | none => none
    | some bs1 => some (bs1, r.2)
  else some (st.1, r.2)

/-- The loop `for (c = 0; c < numclauses; c++) unsat += violated(bs, &clauses[c])`. -/
def countViolated (sat : Instance) (bs : Bits) (c : Nat) (unsat : Int) : Option Int :=
  match sat.clauses[c]? with
  | none => none
  | some cl => some (unsat + violated bs cl)

/-- The body of the outer loop of `randomize` for walker `w`. -/
def randomizeWalker (sat : Instance) (w : Nat) (st : List walker × Rng) :
    Option (List walker × Rng) :=
  match st.1[w]? with
  | none => none
  | some wk =>
    match forLoop (randomizeBits sat.B) 0 sat.B (wk.bs, st.2) with
    | none => none
    | some (bs1, g1) =>
      match forLoop (countViolated sat bs1) 0 sat.numclauses 0 with
      | none => none
      | some u => some (st.1.set w { bs := bs1, unsat := u }, g1)

/-- The function `void randomize(walker *warray, int W, instance *sat)`. -/
def randomize (warray : List walker) (W : Nat) (sat : Instance) (g : Rng) :
    Option (List walker × Rng) :=
  forLoop (randomizeWalker sat) 0 W (warray, g)

/-! ## dmcsat.c -/

/-- One step of the scan `if (cur[w].unsat < umin) umin = ...; if (cur[w].unsat > umax) umax = ...`. -/
def scanStep (cur : List walker) (w : Nat) (mm : Int × Int) : Option (Int × Int) :=
  match cur[w]? with
  | none => none
  | some cw =>
    some (if cw.unsat < mm.1 then cw.unsat else mm.1, if cw.unsat > mm.2 then cw.unsat else mm.2)

/-- The scan of `walk` for `umin` and `umax`, started from `cur[0].unsat`. -/
def scanMinMax (cur : List walker) (W : Nat) : Option (Int × Int) :=
  match cur[0]? with
  | none => none
  | some c0 => forLoop (scanStep cur) 0 W (c0.unsat, c0.unsat)

/-- The denominator `1.0-s+s*vscale*(double)(umax-umin)` of the timestep. -/
def denom (s vscale : ℚ) (umin umax : Int) : ℚ :=
  1 - s + s * vscale * ((umax - umin : Int) : ℚ)

/-- The timestep `dt = 0.99/(1.0-s+s*vscale*(double)(umax-umin))`. -/
def timestep (s vscale : ℚ) (umin umax : Int) : ℚ :=
  (99 / 100) / denom s vscale umin umax

/-- The hop probability `phop = (1.0-s)*dt`. -/
def phop (s dt : ℚ) : ℚ := (1 - s) * dt

/-- The teleport probability `ptel = dt*s*vscale*(double)(cur[w].unsat-umin)`. -/
def ptel (dt s vscale : ℚ) (unsat umin : Int) : ℚ :=
  dt * s * vscale * ((unsat - umin : Int) : ℚ)

/-- The two walker arrays and the generator, as the walker loop threads them. -/
structure Pop where
  cur : List walker
  pro : List walker
  g : Rng

/-- The body of the walker loop of `walk` for walker `w`: draw the action,
then the three `if`s on it in source order (sit, teleport, hop). -/
def walkerStep (sat : Instance) (W : Nat) (s dt vscale : ℚ) (umin : Int) (w : Nat) (P : Pop) :
    Option Pop :=
  match P.cur[w]? with
  | none => none
  | some cw =>
    let a := tern (phop s dt) (ptel dt s vscale cw.unsat umin) P.g
    let action := a.1
    let P0 : Pop := { P with g := a.2 }
    let afterSit : Option Pop :=
      if action = 2 then
        match P0.cur[w]?, P0.pro[w]? with
        | some c, some p =>
          some { P0 with cur := P0.cur.set w (sit c p sat.B).1, pro := P0.pro.set w (sit c p sat.B).2 }
        | _, _ => none
      else some P0
    match afterSit with
    | none => none
    | some P1 =>
      let afterTel : Option Pop :=
        if action = 1 then
          match teleport P1.cur P1.pro w W sat.B P1.g with
          | none => none
          | some (c, p, g1) => some ⟨c, p, g1⟩
        else some P1
      match afterTel with
      | none => none
      | some P2 =>
        if action = 0 then
          match P2.cur[w]?, P2.pro[w]? with
          | some c, some p =>
            match hop c p sat P2.g with
            | none => none
            | some (c1, p1, g1) => some ⟨P2.cur.set w c1, P2.pro.set w p1, g1⟩
          | _, _ => none
        else some P2

/-- The loop `for (w = 0; w < W; w++) if (cur[w].unsat == 0) winners++`. -/
def winnerStep (cur : List walker) (w : Nat) (winners : Int) : Option Int :=
  match cur[w]? with
  | none => none
  | some cw => some (if cw.unsat = 0 then winners + 1 else winners)

/-- The variables of `walk` that live across iterations of its `do` loop
(the statistics counters, which only feed `printf`, are left out). -/
structure WalkState where
  cur : List walker
  pro : List walker
  time : ℚ
  winners : Int
  g : Rng

/-- One pass through the body of the `do` loop of `walk`. -/
def walkIter (sat : Instance) (W : Nat) (duration vscale : ℚ) (st : WalkState) : Option WalkState :=
  let s := st.time / duration
  match scanMinMax st.cur W with
  | none => none
  | some (umin, umax) =>
    let dt := timestep s vscale umin umax
    match forLoop (walkerStep sat W s dt vscale umin) 0 W ⟨st.cur, st.pro, st.g⟩ with
    | none => none
    | some P =>
      -- swap pro with cur
      let cur1 := P.pro
      let pro1 := P.cur
      match forLoop (winnerStep cur1) 0 W st.winners with
      | none => none
      | some winners1 => some ⟨cur1, pro1, st.time + dt, winners1, P.g⟩

/-- The `do ... while (time < duration && winners == 0)` loop of `walk`, run
for at most `fuel` passes; `none` when the fuel runs out or a pass faults. -/
def walkLoop (sat : Instance) (W : Nat) (duration vscale : ℚ) : Nat → WalkState → Option WalkState
  | 0, _ => none
  | fuel + 1, st =>
    match walkIter sat W duration vscale st with
    | none => none
    | some st1 =>
      if st1.time < duration ∧ st1.winners = 0 then walkLoop sat W duration vscale fuel st1
      else some st1

/-- The state at the head of pass `n` of the `do` loop (`n = 0` is the first
pass), if the loop gets that far. -/
def loopHead (sat : Instance) (W : Nat) (duration vscale : ℚ) (st0 : WalkState) :
    Nat → Option WalkState
  | 0 => some st0
  | n + 1 =>
    match loopHead sat W duration vscale st0 n with
    | none => none
    | some st =>
      match walkIter sat W duration vscale st with
      | none => none
      | some st1 => if st1.time < duration ∧ st1.winners = 0 then some st1 else none

/-- The state of `walk` when it enters the `do` loop: both arrays come from
`malloc` (`heap1 k`, `heap2 k` are the unspecified contents of slot `k`),
`init_bits` clears every bit vector, `randomize` fills `cur`. -/
def walkInit (sat : Instance) (W : Nat) (heap1 heap2 : Nat → walker) (g : Rng) : Option WalkState :=
  let walkers1 := (List.range W).map (fun k => { heap1 k with bs := init_bits (heap1 k).bs sat.B })
  let walkers2 := (List.range W).map (fun k => { heap2 k with bs := init_bits (heap2 k).bs sat.B })
  match randomize walkers1 W sat g with
  | none => none
  | some (cur, g1) => some ⟨cur, walkers2, 0, 0, g1⟩

/-- The function `walk` up to the end of its `do` loop, with the global `vscale` passed in. -/
def walk (fuel : Nat) (W : Nat) (duration vscale : ℚ) (sat : Instance)
    (heap1 heap2 : Nat → walker) (g : Rng) : Option WalkState :=
  match walkInit sat W heap1 heap2 g with
  | none => none
  | some st0 => walkLoop sat W duration vscale fuel st0

/-- The bit vectors `walk` prints after the loop: those of the walkers with
`cur[w].unsat == 0`, when `winners > 0`. -/
def printedSolutions (st : WalkState) : List Bits :=
  if st.winners > 0 then (st.cur.filter (fun wk => wk.unsat = 0)).map (fun wk => wk.bs) else []

/-! ## Specification-side definitions -/

/-- The vector with bit `n` toggled: what a `flip` on its normal path returns. -/
def Bits.toggle (bs : Bits) (n : Nat) : Bits :=
  bs.setWord (n / 64) (bs.word (n / 64) ^^^ (1 <<< (n % 64)))

/-- Direct evaluation of one literal on variable `v` with negation flag `n`:
the literal is false when the bit read by `extract` is 0 for a positive
literal and 1 for a negated one. -/
def literalFalse (bs : Bits) (v n : Int) : Bool :=
  decide (extract bs v 256 = .ok (if n ≠ 0 then 1 else 0))

/-- Direct evaluation of a clause from its `vars`/`nots` lists: the clause is
violated when every one of its `numvars` literals is false. -/
def clauseViolated (bs : Bits) (c : clause) : Bool :=
  ((c.vars.zip c.nots).take c.numvars).all (fun l => literalFalse bs l.1 l.2)

/-- The number of clauses of the instance that `violated` reports for `bs`,
recomputed from scratch over all clauses. -/
def violatedCount (sat : Instance) (bs : Bits) : Int :=
  (sat.clauses.map (fun c => violated bs c)).sum

/-- Parity of the number of literals on variable `j` in a `vars` list: the
value the mask loop leaves in bit `j` of `bitmask`. -/
def occParity : List Int → Nat → Bool
  | [], _ => false
  | v :: vs, j => (decide (v = (j : Int)) ^^ occParity vs j)

/-- Parity of the number of negated literals on variable `j`: the value the
mask loop leaves in bit `j` of `notmask`. -/
def negParity : List Int → List Int → Nat → Bool
  | v :: vs, n :: ns, j => ((decide (v = (j : Int)) && decide (n ≠ 0)) ^^ negParity vs ns j)
  | _, _, _ => false

/-- The entries the presence loops write for variable `a` while they run over
the clauses `cs`, numbered from `i`: clause index `k` once for every literal of
clause `k` on `a`, in clause order. -/
def presList (a : Nat) : List clause → Nat → List Nat
  | [], _ => []
  | c :: cs, i =>
    List.replicate ((c.vars.take c.numvars).count (a : Int)) i ++ presList a cs (i + 1)

/-- Every cell of the presence array holds, in its first `num` entries, the
list `f a` and stays inside its allocation. -/
def Tracks (pres : List contain) (f : Nat → List Nat) : Prop :=
  ∀ a c, pres[a]? = some c → c.num ≤ c.list.length ∧ c.list.take c.num = f a

/-- How slot `j` of the new population arises from the current one in one
pass of the walker loop: a copy of some current walker (sit, teleport), or
the result of `hop` on `cur[j]`. -/
def StepOf (sat : Instance) (cur : List walker) (j : Nat) (wk : walker) : Prop :=
  (∃ d cd, d < cur.length ∧ cur[d]? = some cd ∧ wk = cd) ∨
  (∃ cw pw g0 g1, cur[j]? = some cw ∧ hop cw pw sat g0 = some (cw, wk, g1))

/-- The cache invariant of a population: every walker's `unsat` is the number
of clauses `violated` reports for its bit vector. -/
def CacheOk (sat : Instance) (pop : List walker) : Prop :=
  ∀ wk ∈ pop, wk.unsat = violatedCount sat wk.bs

/-! ## Sample data -/

/-- The clause lines of the instance `(x1 or not x2 or x3) and (x2)` over three variables. -/
def sampleLines : List (List Int) := [[1, -2, 3, 0], [2, 0]]

/-- The instance `loadsat` builds from `sampleLines`. -/
def sampleInstance : Instance :=
  { clauses := [⟨⟨7, 0, 0, 0⟩, ⟨2, 0, 0, 0⟩, [0, 1, 2], [0, 1, 0], 3⟩,
                ⟨⟨2, 0, 0, 0⟩, ⟨0, 0, 0, 0⟩, [1], [0], 1⟩],
    numclauses := 2,
    B := 3,
    presence := [⟨1, [0, 0]⟩, ⟨2, [0, 1]⟩, ⟨1, [0, 0]⟩] }

/-- The instance `loadsat` builds from the lines `1 1 1 0`, `2 0`, `2 0` over two variables. -/
def tripleInstance : Instance :=
  { clauses := [⟨⟨1, 0, 0, 0⟩, ⟨0, 0, 0, 0⟩, [0, 0, 0], [0, 0, 0], 3⟩,
                ⟨⟨2, 0, 0, 0⟩, ⟨0, 0, 0, 0⟩, [1], [0], 1⟩,
                ⟨⟨2, 0, 0, 0⟩, ⟨0, 0, 0, 0⟩, [1], [0], 1⟩],
    numclauses := 3,
    B := 2,
    presence := [⟨3, [0, 0, 0]⟩, ⟨2, [1, 2, 0]⟩] }

/-- The instance `loadsat` builds from the lines `1 1 2 0`, `2 0`, `-1 0` over two variables. -/
def doubleInstance : Instance :=
  { clauses := [⟨⟨2, 0, 0, 0⟩, ⟨0, 0, 0, 0⟩, [0, 0, 1], [0, 0, 0], 3⟩,
                ⟨⟨2, 0, 0, 0⟩, ⟨0, 0, 0, 0⟩, [1], [0], 1⟩,
                ⟨⟨1, 0, 0, 0⟩, ⟨1, 0, 0, 0⟩, [0], [1], 1⟩],
    numclauses := 3,
    B := 2,
    presence := [⟨3, [0, 0, 2]⟩, ⟨2, [0, 1, 0]⟩] }

/-- A stream of draws. -/
def sampleRng : Rng := ⟨fun k => 1103515245 * k + 12345, 0⟩

/-- A heap whose slots all hold the same stale walker. -/
def sampleHeap : Nat → walker := fun _ => ⟨⟨9, 9, 9, 9⟩, 77⟩

/-- A state of `walk` on `sampleInstance` with two walkers and a consistent cache. -/
def sampleState : WalkState :=
  ⟨[⟨⟨3, 0, 0, 0⟩, 0⟩, ⟨⟨1, 0, 0, 0⟩, 1⟩], [⟨⟨0, 0, 0, 0⟩, 0⟩, ⟨⟨0, 0, 0, 0⟩, 0⟩], 0, 0, sampleRng⟩



/-! ## Randomness, printing, the verifier and the threaded walk -/

/-- Bits `B..255` of the vector are all zero. -/
def TailZero (B : Nat) (bs : Bits) : Prop :=
  ∀ j, B ≤ j → j < 256 → bs.testBit j = false

/-- The number of raw draws `r` in `[0, RAND_MAX]` for which `randint(n)` returns `k`. -/
def randintHits (n k : Int) : Nat :=
  Nat.count (fun r => (randint n ⟨fun _ => r, 0⟩).map Prod.fst = some k) (RAND_MAX + 1)

/-- The 64-bit complement `~w` of a machine word. -/
def not64 (w : Nat) : Nat := 2 ^ 64 - 1 - w

/-- No variable of the clause carries both a negated and a non-negated literal. -/
def sameSigns (c : clause) : Prop :=
  ∀ p ∈ c.vars.zip c.nots, ∀ q ∈ c.vars.zip c.nots, p.1 = q.1 → (p.2 ≠ 0 ↔ q.2 ≠ 0)

instance (c : clause) : Decidable (sameSigns c) := by
  unfold sameSigns; infer_instance

/-- The walker that one pass of the walker loop writes into slot `w` of the
prospective array, and the generator after the pass, computed from the current
array and the generator alone: the `tern` draw, then `sit` (copy of `cur[w]`),
`teleport` (copy of `cur[randint(W)]`) or `hop` on `cur[w]`. -/
def stepValue (sat : Instance) (W : Nat) (s dt vscale : ℚ) (umin : Int) (w : Nat)
    (cur : List walker) (g : Rng) : Option (walker × Rng) :=
  match cur[w]? with
  | none => none
  | some cw =>
    let a := tern (phop s dt) (ptel dt s vscale cw.unsat umin) g
    if a.1 = 2 then some (cw, a.2)
    else if a.1 = 1 then
      match randint (W : Int) a.2 with
      | none => none
      | some (d, g1) =>
        if d < 0 then none
        else
          match cur[d.toNat]? with
          | none => none
          | some cd => some (cd, g1)
    else
      match hop cw cw sat a.2 with
      | none => none
      | some r => some (r.2.1, r.2.2)


/-! ## threadsat.c -/

/-- The struct `walker` of threadsat.c: the cached fitness is the double
`potential`. -/
structure Threadsat.walker where
  bs : Bits
  potential : ℚ

/-- One step of the scan of threadsat's `walk`:
`if (cur[w].potential < vmin) vmin = ...; if (cur[w].potential > vmax) vmax = ...`. -/
def Threadsat.scanStep (cur : List Threadsat.walker) (w : Nat) (mm : ℚ × ℚ) : Option (ℚ × ℚ) :=
  match cur[w]? with
  | none => none
  | some cw =>
    some (if cw.potential < mm.1 then cw.potential else mm.1,
      if cw.potential > mm.2 then cw.potential else mm.2)

/-- The scan of threadsat's `walk` for `vmin` and `vmax`, started from
`cur[0].potential`. -/
def Threadsat.scanMinMax (cur : List Threadsat.walker) (W : Nat) : Option (ℚ × ℚ) :=
  match cur[0]? with
  | none => none
  | some c0 => forLoop (Threadsat.scanStep cur) 0 W (c0.potential, c0.potential)

/-- The timestep of threadsat: `dt = 0.99/(1.0-s+s*(double)(vmax-vmin))`. -/
def Threadsat.timestep (s vmin vmax : ℚ) : ℚ :=
  (99 / 100) / (1 - s + s * (vmax - vmin))

/-- The hop probability of threadsat: `phop = (1.0-s)*dt`. -/
def Threadsat.phop (s dt : ℚ) : ℚ := (1 - s) * dt

/-- The teleport probability of threadsat: `ptel = dt*s*(cur[w].potential-vmin)`. -/
def Threadsat.ptel (dt s v vmin : ℚ) : ℚ := dt * s * (v - vmin)

/-! ## print_bits (bitstrings.c) -/

/-- The characters that `printf("%i", v)` writes. -/
def printInt (v : Int) : List Char := (toString v).toList

/-- The line that the guard of `extract` prints when it fires. -/
def extractMessage (i B : Int) : List Char :=
  "Extract error: bit index ".toList ++ printInt i ++ " out of range (".toList ++
    printInt (B - 1) ++ ")!\n".toList

/-- The body `printf("%i", extract(bs, i, B))` of the loop of `print_bits`,
appending to the output written so far. -/
def printBitsStep (bs : Bits) (B : Int) (i : Nat) (out : List Char) : Option (List Char) :=
  match extract bs (i : Int) B with
  | .ok v => some (out ++ printInt v)
  | .err v => some (out ++ extractMessage (i : Int) B ++ printInt v)
  | .fault => none

/-- The function `void print_bits(uint64_t *bs, int B)`: the characters it
writes to standard output. -/
def print_bits (bs : Bits) (B : Int) : Option (List Char) :=
  (forLoop (printBitsStep bs B) 0 B.toNat []).map (fun out => out ++ ['\n'])

/-! ## verify.c -/

/-- The struct `clause` of verify.c. -/
structure Verify.clause where
  a : Int
  b : Int
  c : Int
deriving DecidableEq

/-- The struct `instance` of verify.c. -/
structure Verify.Instance where
  clauses : List Verify.clause
  numclauses : Nat
  B : Int

/-- The function `int iabs(int x)`. -/
def Verify.iabs (x : Int) : Int := if x < 0 then -x else x

/-- The function `int violated(int x1, int x2, int x3, int a, int b, int c)`
of verify.c. -/
def Verify.violated (x1 x2 x3 a b c : Int) : Int :=
  if a > 0 ∧ x1 = 1 then 0
  else if a < 0 ∧ x1 = 0 then 0
  else if b > 0 ∧ x2 = 1 then 0
  else if b < 0 ∧ x2 = 0 then 0
  else if c > 0 ∧ x3 = 1 then 0
  else if c < 0 ∧ x3 = 0 then 0
  else 1

/-- The read `bits[i]` of the `int` array that `main` allocated: defined only
inside the array. -/
def Verify.readBit (bits : List Int) (i : Int) : Option Int :=
  if i < 0 then none else bits[i.toNat]?

/-- The body of the loop of `numviolated` for clause `i`. -/
def Verify.numviolatedStep (bits : List Int) (sat : Verify.Instance) (i : Nat)
    (returnval : Int) : Option Int :=
  match sat.clauses[i]? with
  | none => none
  | some cl =>
    match Verify.readBit bits (Verify.iabs cl.a - 1), Verify.readBit bits (Verify.iabs cl.b - 1),
      Verify.readBit bits (Verify.iabs cl.c - 1) with
    | some x, some y, some z => some (returnval + Verify.violated x y z cl.a cl.b cl.c)
    | _, _, _ => none

/-- The function `int numviolated(int *bits, instance *sat)`. -/
def Verify.numviolated (bits : List Int) (sat : Verify.Instance) : Option Int :=
  forLoop (Verify.numviolatedStep bits sat) 0 sat.numclauses 0

/-- The statement `sscanf(line, "%i %i %i", &a, &b, &c)` of `main` on a clause
line holding the integers `x`: a line with fewer than three integers leaves a
field of the clause unwritten. -/
def Verify.scanClause (x : List Int) : Option Verify.clause :=
  match x with
  | a :: b :: c :: _ => some ⟨a, b, c⟩
  | _ => none

/-- The second reading loop of `main` over all clause lines. -/
def Verify.scanClauses : List (List Int) → Option (List Verify.clause)
  | [] => some []
  | x :: xs =>
    match Verify.scanClause x with
    | none => none
    | some c =>
      match Verify.scanClauses xs with
      | none => none
      | some cs => some (c :: cs)

/-- The line that `getline` stores: the characters of the file up to and
including the first newline. -/
def Verify.lineOf : List Char → List Char
  | [] => []
  | ch :: rest => if ch = '\n' then [ch] else ch :: Verify.lineOf rest

/-- The call `getline(&line, &nbytes, bfp)` at the start of the file; at end
of file nothing is stored. -/
def Verify.getline (file : List Char) : Option (List Char) :=
  if file = [] then none else some (Verify.lineOf file)

/-- The body of the loop of `main` that fills `bits` from the line `ln`: a
character other than `0` and `1` ends the program. -/
def Verify.parseStep (ln : List Char) (i : Nat) (bits : List Int) : Option (List Int) :=
  match ln[i]? with
  | none => none
  | some ch =>
    if ch ≠ '0' ∧ ch ≠ '1' then none
    else some (bits ++ [if ch = '0' then 0 else 1])

/-- The bitstring parsing of `main`: `stringlength = strlen(line)-1` and the
array `bits`, when the program gets past the loop. -/
def Verify.parseBits (file : List Char) : Option (Int × List Int) :=
  match Verify.getline file with
  | none => none
  | some line =>
    let stringlength : Int := (line.length : Int) - 1
    (forLoop (Verify.parseStep line) 0 stringlength.toNat []).map
      (fun bits => (stringlength, bits))

/-- The clause lines of the instance
`(x1 or not x2 or x3) and (not x1 or x2 or not x3)` over three variables. -/
def threeSatLines : List (List Int) := [[1, -2, 3, 0], [-1, 2, -3, 0]]

/-! ## The loops of copy_bits and init_bits -/

/-- The body `dest[i] = src[i]` of the loop of `copy_bits`, on the pair of
arrays `(src, dest)`; defined only inside the four words of each. -/
def copyBitsStep (i : Nat) (st : Bits × Bits) : Option (Bits × Bits) :=
  match st.1.read (i : Int) with
  | none => none
  | some v =>
    match st.2.write (i : Int) v with
    | none => none
    | some d => some (st.1, d)

/-- The loop `for(i = 0; i < 4; i++) dest[i] = src[i]` of `copy_bits`. -/
def copyBitsLoop (src dest : Bits) : Option (Bits × Bits) :=
  forLoop copyBitsStep 0 4 (src, dest)

/-- The body `bs[i] = 0` of the loop of `init_bits`. -/
def initBitsStep (i : Nat) (bs : Bits) : Option Bits :=
  bs.write (i : Int) 0

/-- The loop `for(i = 0; i < 4; i++) bs[i] = 0` of `init_bits`. -/
def initBitsLoop (bs : Bits) : Option Bits :=
  forLoop initBitsStep 0 4 bs


/-! ## binary64 arithmetic and `tern` on doubles -/

/-- The finite values of the type `double` (IEEE 754 binary64): the numbers
`m * 2^e` with `|m| < 2^53` and `-1074 <= e <= 971`. -/
def IsDouble (x : ℚ) : Prop :=
  ∃ m e : Int, |m| < 2 ^ 53 ∧ -1074 ≤ e ∧ e ≤ 971 ∧ x = (m : ℚ) * 2 ^ e

/-- The exponent of the spacing of the binary64 values around `x`: 52 below
the binary exponent of `x`, and never below that of the subnormal numbers. -/
def ulpExp (x : ℚ) : Int := max (Int.log 2 |x| - 52) (-1074)

/-- Rounding to the nearest integer, ties to the even one. -/
def roundEven (y : ℚ) : Int :=
  if y - ⌊y⌋ < 1 / 2 then ⌊y⌋
  else if y - ⌊y⌋ > 1 / 2 then ⌊y⌋ + 1
  else if ⌊y⌋ % 2 = 0 then ⌊y⌋ else ⌊y⌋ + 1

/-- The multiple of the spacing nearest to `x` (ties to even): the binary64
result of an operation whose exact result is `x`, before the overflow test. -/
def roundRaw (x : ℚ) : ℚ := (roundEven (x / 2 ^ ulpExp x) : ℚ) * 2 ^ ulpExp x

/-- The binary64 result of an arithmetic operation whose exact result is `x`
(round to nearest, ties to even); `none` stands for an infinite result. -/
def round64 (x : ℚ) : Option ℚ :=
  if |roundRaw x| < 2 ^ 1024 then some (roundRaw x) else none

/-- The cast `(int)x` of a finite double: truncation toward zero, undefined
when the truncated value is not an `int`. -/
def castInt (x : ℚ) : Option Int :=
  if -2147483648 ≤ truncToInt x ∧ truncToInt x ≤ 2147483647 then some (truncToInt x) else none

/-- The function `int tern(double p0, double p1)` of walk.c on finite doubles,
with the sum and the two products rounded as binary64 operations round them
(each operation rounded to `double`, no wider intermediate format). The
result is `none` when a cast to `int` is undefined. -/
def tern64 (p0 p1 : ℚ) (g : Rng) : Option (Int × Rng) :=
  if p0 < 0 then some (0, g)
  else if p1 < 0 then some (0, g)
  else
    match round64 (p0 + p1) with
    | none => some (0, g)
    | some sum =>
      if sum > 1 then some (0, g)
      else
        match (round64 (p0 * (RAND_MAX : ℚ))).bind castInt,
          (round64 (sum * (RAND_MAX : ℚ))).bind castInt with
        | some threshold1, some threshold2 =>
          let r : Int := (rand g).1
          if r < threshold1 then some (0, (rand g).2)
          else if r < threshold2 then some (1, (rand g).2)
          else some (2, (rand g).2)
        | _, _ => none


/-! ## Bit-vector lemmas -/

theorem wordIndex_eq (i : Int) : wordIndex i = i / 64 := by
  unfold wordIndex
  rw [Int.shiftRight_eq_div_pow]
  norm_num

theorem bitShift_eq (i : Int) : bitShift i = i % 64 := by
  unfold bitShift
  rw [wordIndex_eq, show ((6 : Int)) = ((6 : Nat) : Int) from rfl, Int.shiftLeft_eq_mul_pow]
  have h := Int.emod_add_ediv i 64
  push_cast
  omega

theorem wordIndex_natCast (n : Nat) : wordIndex (n : Int) = ((n / 64 : Nat) : Int) := by
  rw [wordIndex_eq]; omega

theorem bitShift_natCast (n : Nat) : bitShift (n : Int) = ((n % 64 : Nat) : Int) := by
  rw [bitShift_eq]; omega

theorem and_two_pow_ne_zero (w k : Nat) : w &&& 2 ^ k ≠ 0 ↔ w.testBit k = true := by
  constructor
  · intro h
    by_contra hb
    apply h
    apply Nat.eq_of_testBit_eq
    intro i
    rw [Nat.testBit_and, Nat.testBit_two_pow, Nat.zero_testBit]
    by_cases hki : k = i
    · subst hki; simp [hb]
    · simp [hki]
  · intro hb h
    have := congrArg (fun x => Nat.testBit x k) h
    simp [Nat.testBit_and, Nat.testBit_two_pow, hb] at this

theorem Bits.read_natCast (bs : Bits) (k : Nat) (hk : k < 4) :
    bs.read (k : Int) = some (bs.word k) := by
  unfold Bits.read
  rw [if_pos ⟨by omega, by omega⟩]
  simp

theorem Bits.write_natCast (bs : Bits) (k v : Nat) (hk : k < 4) :
    bs.write (k : Int) v = some (bs.setWord k v) := by
  unfold Bits.write
  rw [if_pos ⟨by omega, by omega⟩]
  simp

theorem Bits.word_setWord (bs : Bits) (k v j : Nat) (hk : k < 4) :
    (bs.setWord k v).word j = if j = k then v else bs.word j := by
  have : k = 0 ∨ k = 1 ∨ k = 2 ∨ k = 3 := by omega
  rcases this with h | h | h | h <;> subst h <;>
    rcases j with _ | _ | _ | _ | _ | j <;> simp [Bits.setWord, Bits.word]

theorem Bits.setWord_word (bs : Bits) (k : Nat) : bs.setWord k (bs.word k) = bs := by
  match k with
  | 0 => rfl
  | 1 => rfl
  | 2 => rfl
  | 3 => rfl
  | _ + 4 => rfl

theorem Bits.setWord_setWord (bs : Bits) (k a b : Nat) :
    (bs.setWord k a).setWord k b = bs.setWord k b := by
  match k with
  | 0 => rfl
  | 1 => rfl
  | 2 => rfl
  | 3 => rfl
  | _ + 4 => rfl

theorem extract_natCast (bs : Bits) (n : Nat) (B : Int) (hn : n < 256) (hB : (n : Int) < B) :
    extract bs (n : Int) B = .ok (if bs.testBit n then 1 else 0) := by
  unfold extract
  rw [if_neg (by omega), wordIndex_natCast, bitShift_natCast,
    Bits.read_natCast bs (n / 64) (by omega)]
  simp only [Int.toNat_ofNat, Nat.one_shiftLeft]
  by_cases hb : (bs.word (n / 64)).testBit (n % 64) = true
  · rw [if_pos ((and_two_pow_ne_zero _ _).2 hb)]
    simp [Bits.testBit, hb]
  · rw [if_neg (fun h => hb ((and_two_pow_ne_zero _ _).1 h))]
    simp [Bits.testBit, hb]

theorem flip_natCast (bs : Bits) (n : Nat) (B : Int) (hn : n < 256) (hB : (n : Int) < B) :
    flip bs (n : Int) B = .ok (bs.toggle n) := by
  unfold flip
  rw [if_neg (by omega), wordIndex_natCast, bitShift_natCast,
    Bits.read_natCast bs (n / 64) (by omega)]
  simp only [Int.toNat_ofNat]
  rw [Bits.write_natCast _ _ _ (by omega)]
  rfl

theorem Bits.toggle_toggle (bs : Bits) (n : Nat) (hn : n < 256) :
    (bs.toggle n).toggle n = bs := by
  unfold Bits.toggle
  rw [Bits.word_setWord _ _ _ _ (by omega), if_pos rfl, Bits.setWord_setWord,
    Nat.xor_assoc, Nat.xor_self, Nat.xor_zero, Bits.setWord_word]

theorem Bits.testBit_toggle (bs : Bits) (n j : Nat) (hn : n < 256) :
    (bs.toggle n).testBit j = (bs.testBit j ^^ decide (j = n)) := by
  unfold Bits.toggle Bits.testBit
  rw [Bits.word_setWord _ _ _ _ (by omega)]
  by_cases hw : j / 64 = n / 64
  · rw [if_pos hw, Nat.testBit_xor, Nat.one_shiftLeft, Nat.testBit_two_pow, hw]
    congr 1
    by_cases hj : j = n
    · subst hj; simp
    · have : n % 64 ≠ j % 64 := by omega
      simp [hj, this]
  · rw [if_neg hw]
    have : j ≠ n := by rintro rfl; exact hw rfl
    simp [this]



theorem flip_flip_inRange (bs : Bits) (i B : Int) (h0 : 0 ≤ i) (hi : i < B) (hB : B ≤ 256) :
    flip bs i B = .ok (bs.toggle i.toNat) ∧ flip (bs.toggle i.toNat) i B = .ok bs := by
  obtain ⟨n, rfl⟩ := Int.eq_ofNat_of_zero_le h0
  have hn : n < 256 := by omega
  simp only [Int.toNat_ofNat]
  refine ⟨flip_natCast bs n B hn hi, ?_⟩
  rw [flip_natCast _ n B hn hi, Bits.toggle_toggle bs n hn]

/-- C9. Double flip is the identity: for `0 <= i < B <= 256` both calls of
`flip` take the normal path, the vector after the two calls has the same four
words as the original, and `extract` at `i` returns the same value on it. -/
theorem double_flip_identity (bs : Bits) (i B : Int) (h0 : 0 ≤ i) (hi : i < B) (hB : B ≤ 256) :
    ∃ bs1 bs2, flip bs i B = .ok bs1 ∧ flip bs1 i B = .ok bs2 ∧
      extract bs2 i B = extract bs i B ∧
      bs2.w0 = bs.w0 ∧ bs2.w1 = bs.w1 ∧ bs2.w2 = bs.w2 ∧ bs2.w3 = bs.w3 := by
  obtain ⟨h1, h2⟩ := flip_flip_inRange bs i B h0 hi hB
  exact ⟨_, _, h1, h2, rfl, rfl, rfl, rfl, rfl⟩

theorem double_flip_identity_witness :
    ∃ bs1 bs2, flip ⟨5, 0, 7, 1⟩ 130 200 = .ok bs1 ∧ flip bs1 130 200 = .ok bs2 ∧
      extract bs2 130 200 = extract ⟨5, 0, 7, 1⟩ 130 200 ∧
      bs2.w0 = 5 ∧ bs2.w1 = 0 ∧ bs2.w2 = 7 ∧ bs2.w3 = 1 :=
  double_flip_identity ⟨5, 0, 7, 1⟩ 130 200 (by decide) (by decide) (by decide)

/-- C10, as stated, fails: the index `-1` is outside `[0,1)`, yet the guard
`i >= B` does not fire and both `extract` and `flip` index the word array at
`bs[-1]`, outside its four words, instead of returning the default. -/
theorem negative_index_reaches_array :
    ((-1 : Int) < 0) ∧ wordIndex (-1) = -1 ∧
      extract ⟨0, 0, 0, 0⟩ (-1) 1 = Res.fault ∧ flip ⟨0, 0, 0, 0⟩ (-1) 1 = Res.fault := by
  refine ⟨by decide, by decide, by decide, by decide⟩

/-- C10, amended. For every bit vector, every logical size `B` and every index
`i >= B`, `extract` returns the default 0 and `flip` returns with all four words
unchanged, both through the guarded branch, which touches no word of the array. -/
theorem out_of_range_guard (bs : Bits) (i B : Int) (h : i ≥ B) :
    extract bs i B = .err 0 ∧ flip bs i B = .err bs := by
  unfold extract flip
  simp [h]

theorem out_of_range_guard_witness :
    extract ⟨5, 0, 7, 1⟩ 300 256 = .err 0 ∧ flip ⟨5, 0, 7, 1⟩ 300 256 = .err ⟨5, 0, 7, 1⟩ :=
  out_of_range_guard ⟨5, 0, 7, 1⟩ 300 256 (by decide)



/-! ## Masks and the violation test -/

theorem or_eq_zero_iff (a b : Nat) : a ||| b = 0 ↔ a = 0 ∧ b = 0 := by
  constructor
  · intro h
    have hbit : ∀ i, (a.testBit i || b.testBit i) = false := by
      intro i
      rw [← Nat.testBit_or, h, Nat.zero_testBit]
    constructor
    · apply Nat.eq_of_testBit_eq
      intro i
      have := hbit i
      simp only [Bool.or_eq_false_iff] at this
      simp [this.1]
    · apply Nat.eq_of_testBit_eq
      intro i
      have := hbit i
      simp only [Bool.or_eq_false_iff] at this
      simp [this.2]
  · rintro ⟨rfl, rfl⟩
    rfl

theorem word_test_iff (m b n : Nat) :
    (m &&& b) ^^^ n = 0 ↔ ∀ t, (m.testBit t && b.testBit t) = n.testBit t := by
  rw [Nat.xor_eq_zero]
  constructor
  · intro h t
    rw [← Nat.testBit_and, h]
  · intro h
    apply Nat.eq_of_testBit_eq
    intro t
    rw [Nat.testBit_and, h]

theorem testBit_high (m t : Nat) (hm : m < 2 ^ 64) (ht : 64 ≤ t) : m.testBit t = false := by
  apply Nat.testBit_lt_two_pow
  calc m < 2 ^ 64 := hm
    _ ≤ 2 ^ t := Nat.pow_le_pow_right (by decide) ht

theorem Bits.testBit_word (bs : Bits) (k t : Nat) (ht : t < 64) :
    bs.testBit (64 * k + t) = (bs.word k).testBit t := by
  unfold Bits.testBit
  have h1 : (64 * k + t) / 64 = k := by omega
  have h2 : (64 * k + t) % 64 = t := by omega
  rw [h1, h2]

theorem word_test_bits (bm bs nm : Bits) (k : Nat)
    (hbm : bm.word k < 2 ^ 64) (hnm : nm.word k < 2 ^ 64) :
    (bm.word k &&& bs.word k) ^^^ nm.word k = 0 ↔
      ∀ t < 64, (bm.testBit (64 * k + t) && bs.testBit (64 * k + t)) = nm.testBit (64 * k + t) := by
  rw [word_test_iff]
  constructor
  · intro h t ht
    rw [Bits.testBit_word _ _ _ ht, Bits.testBit_word _ _ _ ht, Bits.testBit_word _ _ _ ht]
    exact h t
  · intro h t
    by_cases ht : t < 64
    · have := h t ht
      rwa [Bits.testBit_word _ _ _ ht, Bits.testBit_word _ _ _ ht, Bits.testBit_word _ _ _ ht] at this
    · rw [testBit_high _ _ hbm (by omega), testBit_high _ _ hnm (by omega)]
      rfl

theorem violated_eq_ite (bs : Bits) (c : clause) :
    violated bs c = 0 ∨ violated bs c = 1 := by
  unfold violated
  simp only
  split <;> simp

theorem violated_eq_one_iff (bs : Bits) (c : clause)
    (hbm : c.bitmask.wordsBelow) (hnm : c.notmask.wordsBelow) :
    violated bs c = 1 ↔
      ∀ j < 256, (c.bitmask.testBit j && bs.testBit j) = c.notmask.testBit j := by
  obtain ⟨b0, b1, b2, b3⟩ := hbm
  obtain ⟨n0, n1, n2, n3⟩ := hnm
  have e0 := word_test_bits c.bitmask bs c.notmask 0 b0 n0
  have e1 := word_test_bits c.bitmask bs c.notmask 1 b1 n1
  have e2 := word_test_bits c.bitmask bs c.notmask 2 b2 n2
  have e3 := word_test_bits c.bitmask bs c.notmask 3 b3 n3
  simp only [Bits.word] at e0 e1 e2 e3
  unfold violated
  simp only
  rw [show ((if ((c.bitmask.w0 &&& bs.w0) ^^^ c.notmask.w0 ||| (c.bitmask.w1 &&& bs.w1) ^^^ c.notmask.w1) |||
        ((c.bitmask.w2 &&& bs.w2) ^^^ c.notmask.w2 ||| (c.bitmask.w3 &&& bs.w3) ^^^ c.notmask.w3) ≠ 0
        then (0 : Int) else 1) = 1) ↔
      (((c.bitmask.w0 &&& bs.w0) ^^^ c.notmask.w0 ||| (c.bitmask.w1 &&& bs.w1) ^^^ c.notmask.w1) |||
        ((c.bitmask.w2 &&& bs.w2) ^^^ c.notmask.w2 ||| (c.bitmask.w3 &&& bs.w3) ^^^ c.notmask.w3) = 0)
      from by split <;> simp_all]
  rw [or_eq_zero_iff, or_eq_zero_iff, or_eq_zero_iff, e0, e1, e2, e3]
  constructor
  · rintro ⟨⟨h0, h1⟩, h2, h3⟩ j hj
    have hk : j / 64 = 0 ∨ j / 64 = 1 ∨ j / 64 = 2 ∨ j / 64 = 3 := by omega
    have hj' : j = 64 * (j / 64) + j % 64 := by omega
    have hlt : j % 64 < 64 := by omega
    rcases hk with hk | hk | hk | hk <;> rw [hk] at hj' <;> rw [hj']
    · exact h0 _ hlt
    · exact h1 _ hlt
    · exact h2 _ hlt
    · exact h3 _ hlt
  · intro h
    exact ⟨⟨fun t ht => h _ (by omega), fun t ht => h _ (by omega)⟩,
      fun t ht => h _ (by omega), fun t ht => h _ (by omega)⟩

theorem zeroBits_wordsBelow : zeroBits.wordsBelow := by
  unfold Bits.wordsBelow zeroBits
  decide

theorem zeroBits_testBit (j : Nat) : zeroBits.testBit j = false := by
  unfold Bits.testBit
  have : zeroBits.word (j / 64) = 0 := by
    unfold zeroBits Bits.word
    split <;> rfl
  rw [this, Nat.zero_testBit]

theorem Bits.wordsBelow_iff (bs : Bits) : bs.wordsBelow ↔ ∀ k, bs.word k < 2 ^ 64 := by
  constructor
  · rintro ⟨h0, h1, h2, h3⟩ k
    rcases k with _ | _ | _ | _ | k
    · exact h0
    · exact h1
    · exact h2
    · exact h3
    · show (0 : Nat) < 2 ^ 64
      decide
  · intro h
    exact ⟨h 0, h 1, h 2, h 3⟩

/-- A `flip` on its normal path keeps every word below `2^64`. -/
theorem flip_wordsBelow (bs : Bits) (n : Nat) (hn : n < 256) (h : bs.wordsBelow) :
    (bs.toggle n).wordsBelow := by
  rw [Bits.wordsBelow_iff] at h ⊢
  intro k
  unfold Bits.toggle
  rw [Bits.word_setWord _ _ _ _ (by omega)]
  split
  · apply Nat.xor_lt_two_pow (h _)
    rw [Nat.one_shiftLeft]
    exact Nat.pow_lt_pow_right (by decide) (by omega)
  · exact h k



theorem flip_val_inRange (bs : Bits) (v : Int) (h0 : 0 ≤ v) (h1 : v < 256) :
    (flip bs v 256).val? = some (bs.toggle v.toNat) := by
  obtain ⟨n, rfl⟩ := Int.eq_ofNat_of_zero_le h0
  rw [flip_natCast bs n 256 (by omega) h1]
  rfl

theorem maskLoop_spec : ∀ (vs ns : List Int) (bm nm : Bits),
    (∀ v ∈ vs, 0 ≤ v ∧ v < 256) → vs.length = ns.length → bm.wordsBelow → nm.wordsBelow →
    ∃ bm1 nm1, maskLoop vs ns (bm, nm) = some (bm1, nm1) ∧ bm1.wordsBelow ∧ nm1.wordsBelow ∧
      (∀ j, bm1.testBit j = (bm.testBit j ^^ occParity vs j)) ∧
      (∀ j, nm1.testBit j = (nm.testBit j ^^ negParity vs ns j)) := by
  intro vs
  induction vs with
  | nil =>
    intro ns bm nm _ _ hb hn
    refine ⟨bm, nm, ?_, hb, hn, ?_, ?_⟩
    · cases ns <;> rfl
    · intro j; simp [occParity]
    · intro j; cases ns <;> simp [negParity]
  | cons v vs ih =>
    intro ns bm nm hr hl hb hn
    cases ns with
    | nil => simp at hl
    | cons n ns =>
      have hv := hr v (List.mem_cons_self _ _)
      have hvn : ((v.toNat : Nat) : Int) = v := Int.toNat_of_nonneg hv.1
      have hlt : v.toNat < 256 := by omega
      have hr' : ∀ u ∈ vs, 0 ≤ u ∧ u < 256 := fun u hu => hr u (List.mem_cons_of_mem _ hu)
      have hl' : vs.length = ns.length := by simpa using hl
      have hdec : ∀ j : Nat, decide (v = (j : Int)) = decide (j = v.toNat) := by
        intro j
        by_cases hj : j = v.toNat
        · subst hj; simp [hvn]
        · have : v ≠ (j : Int) := by omega
          simp [hj, this]
      by_cases hneg : n ≠ 0
      · obtain ⟨bm1, nm1, hm, hb1, hn1, hbit, hnbit⟩ :=
          ih ns (bm.toggle v.toNat) (nm.toggle v.toNat) hr' hl'
            (flip_wordsBelow _ _ hlt hb) (flip_wordsBelow _ _ hlt hn)
        refine ⟨bm1, nm1, ?_, hb1, hn1, ?_, ?_⟩
        · simp only [maskLoop, flip_val_inRange bm v hv.1 hv.2, flip_val_inRange nm v hv.1 hv.2,
            if_pos hneg, hm]
        · intro j
          rw [hbit j, Bits.testBit_toggle _ _ _ hlt, occParity, hdec, Bool.xor_assoc]
        · intro j
          rw [hnbit j, Bits.testBit_toggle _ _ _ hlt, negParity, hdec]
          simp [hneg, Bool.xor_assoc]
      · obtain ⟨bm1, nm1, hm, hb1, hn1, hbit, hnbit⟩ :=
          ih ns (bm.toggle v.toNat) nm hr' hl' (flip_wordsBelow _ _ hlt hb) hn
        refine ⟨bm1, nm1, ?_, hb1, hn1, ?_, ?_⟩
        · simp only [maskLoop, flip_val_inRange bm v hv.1 hv.2, if_neg hneg, hm]
        · intro j
          rw [hbit j, Bits.testBit_toggle _ _ _ hlt, occParity, hdec, Bool.xor_assoc]
        · intro j
          rw [hnbit j, negParity]
          simp [hneg]

theorem occParity_of_not_mem (vs : List Int) (j : Nat) (h : (j : Int) ∉ vs) :
    occParity vs j = false := by
  induction vs with
  | nil => rfl
  | cons v vs ih =>
    have h1 : v ≠ (j : Int) := fun e => h (e ▸ List.mem_cons_self _ _)
    have h2 : (j : Int) ∉ vs := fun e => h (List.mem_cons_of_mem _ e)
    simp [occParity, h1, ih h2]

theorem negParity_of_not_mem (vs ns : List Int) (j : Nat) (h : (j : Int) ∉ vs) :
    negParity vs ns j = false := by
  induction vs generalizing ns with
  | nil => cases ns <;> rfl
  | cons v vs ih =>
    cases ns with
    | nil => rfl
    | cons n ns =>
      have h1 : v ≠ (j : Int) := fun e => h (e ▸ List.mem_cons_self _ _)
      have h2 : (j : Int) ∉ vs := fun e => h (List.mem_cons_of_mem _ e)
      simp [negParity, h1, ih ns h2]

theorem literalFalse_inRange (bs : Bits) (v n : Int) (h0 : 0 ≤ v) (h1 : v < 256) :
    literalFalse bs v n = true ↔ bs.testBit v.toNat = decide (n ≠ 0) := by
  obtain ⟨k, rfl⟩ := Int.eq_ofNat_of_zero_le h0
  unfold literalFalse
  rw [extract_natCast bs k 256 (by omega) h1]
  simp only [Int.toNat_ofNat]
  by_cases hb : bs.testBit k = true <;> by_cases hn : n ≠ 0 <;> simp [hb, hn]

/-- With pairwise distinct variables below 256, the per-bit mask condition is
the conjunction of the literal conditions. -/
theorem mask_condition_iff_literals (bs : Bits) : ∀ (vs ns : List Int),
    (∀ v ∈ vs, 0 ≤ v ∧ v < 256) → vs.length = ns.length → vs.Nodup →
    ((∀ j < 256, (occParity vs j && bs.testBit j) = negParity vs ns j) ↔
      (vs.zip ns).all (fun l => literalFalse bs l.1 l.2) = true) := by
  intro vs
  induction vs with
  | nil =>
    intro ns _ _ _
    simp [occParity, negParity]
  | cons v vs ih =>
    intro ns hr hl hd
    cases ns with
    | nil => simp at hl
    | cons n ns =>
      have hv := hr v (List.mem_cons_self _ _)
      have hvn : ((v.toNat : Nat) : Int) = v := Int.toNat_of_nonneg hv.1
      have hlt : v.toNat < 256 := by omega
      have hr' : ∀ u ∈ vs, 0 ≤ u ∧ u < 256 := fun u hu => hr u (List.mem_cons_of_mem _ hu)
      have hl' : vs.length = ns.length := by simpa using hl
      have hnm : ((v.toNat : Nat) : Int) ∉ vs := by
        rw [hvn]; exact (List.nodup_cons.1 hd).1
      have hd' : vs.Nodup := (List.nodup_cons.1 hd).2
      have IH := ih ns hr' hl' hd'
      rw [List.zip_cons_cons, List.all_cons, Bool.and_eq_true, ← IH,
        literalFalse_inRange bs v n hv.1 hv.2]
      constructor
      · intro h
        constructor
        · have := h v.toNat hlt
          simpa [occParity, negParity, hvn, occParity_of_not_mem _ _ hnm,
            negParity_of_not_mem _ _ _ hnm] using this
        · intro j hj
          by_cases hjv : v = (j : Int)
          · have hjm : (j : Int) ∉ vs := hjv ▸ (List.nodup_cons.1 hd).1
            rw [occParity_of_not_mem _ _ hjm, negParity_of_not_mem _ _ _ hjm]
            rfl
          · have := h j hj
            simpa [occParity, negParity, hjv] using this
      · rintro ⟨hhead, htail⟩ j hj
        by_cases hjv : v = (j : Int)
        · have hjm : (j : Int) ∉ vs := hjv ▸ (List.nodup_cons.1 hd).1
          have hj' : j = v.toNat := by omega
          subst hj'
          simp [occParity, negParity, hvn, occParity_of_not_mem _ _ hjm,
            negParity_of_not_mem _ _ _ hjm, hhead]
        · have := htail j hj
          simpa [occParity, negParity, hjv] using this

/-- What `loadClause` returns: the `vars`/`nots` lists of the literals, and
the masks the mask loop builds from them. -/
theorem loadClause_shape (x : List Int) (c : clause) (h : loadClause x = some c) :
    c.vars.length = c.numvars ∧ c.nots.length = c.numvars ∧ c.numvars ≤ 3 ∧
      c.numvars + 1 = x.length ∧
      c.vars = (x.take c.numvars).map (fun xj => |xj| - 1) ∧
      c.nots = (x.take c.numvars).map (fun xj => if xj < 0 then (1 : Int) else 0) ∧
      maskLoop c.vars c.nots (zeroBits, zeroBits) = some (c.bitmask, c.notmask) := by
  unfold loadClause at h
  split at h
  · exact absurd h (by simp)
  · rename_i hlen
    simp only at h
    split at h
    · exact absurd h (by simp)
    · rename_i bm nm hm
      have hc : c = _ := (Option.some.inj h).symm
      subst hc
      simp only [List.length_map, List.length_take]
      refine ⟨by omega, by omega, by omega, by omega, trivial, trivial, hm⟩



/-- The mask test on a loaded clause, bit by bit. -/
theorem violated_loaded_iff (x : List Int) (c : clause) (hload : loadClause x = some c)
    (hrange : ∀ v ∈ c.vars, 0 ≤ v ∧ v < 256) (bs : Bits) :
    c.bitmask.wordsBelow ∧ c.notmask.wordsBelow ∧
    (∀ j, c.bitmask.testBit j = occParity c.vars j) ∧
    (∀ j, c.notmask.testBit j = negParity c.vars c.nots j) ∧
    (violated bs c = 1 ↔
      ∀ j < 256, (occParity c.vars j && bs.testBit j) = negParity c.vars c.nots j) := by
  obtain ⟨hv, hn, _, _, _, _, hm⟩ := loadClause_shape x c hload
  obtain ⟨bm1, nm1, hm1, hb1, hn1, hbit, hnbit⟩ :=
    maskLoop_spec c.vars c.nots zeroBits zeroBits hrange (by omega)
      zeroBits_wordsBelow zeroBits_wordsBelow
  rw [hm] at hm1
  have e := Option.some.inj hm1
  have e1 : c.bitmask = bm1 := congrArg Prod.fst e
  have e2 : c.notmask = nm1 := congrArg Prod.snd e
  have hbit' : ∀ j, c.bitmask.testBit j = occParity c.vars j := by
    intro j; rw [e1, hbit j, zeroBits_testBit]; simp
  have hnbit' : ∀ j, c.notmask.testBit j = negParity c.vars c.nots j := by
    intro j; rw [e2, hnbit j, zeroBits_testBit]; simp
  refine ⟨e1 ▸ hb1, e2 ▸ hn1, hbit', hnbit', ?_⟩
  rw [violated_eq_one_iff bs c (e1 ▸ hb1) (e2 ▸ hn1)]
  constructor
  · intro h j hj
    have := h j hj
    rwa [hbit', hnbit'] at this
  · intro h j hj
    rw [hbit', hnbit']
    exact h j hj

/-- C4 fails through a defect of the code: the line `1 1 0` is a clause of
arity 2 over variable index 0; the two flips cancel in `bitmask`, so
`violated` returns 1 (violated) under the assignment with bit 0 set, although
both literals are true and the clause is satisfied. -/
theorem repeated_variable_breaks_mask_test :
    loadClause [1, 1, 0] = some ⟨⟨0, 0, 0, 0⟩, ⟨0, 0, 0, 0⟩, [0, 0], [0, 0], 2⟩ ∧
      violated ⟨1, 0, 0, 0⟩ ⟨⟨0, 0, 0, 0⟩, ⟨0, 0, 0, 0⟩, [0, 0], [0, 0], 2⟩ = 1 ∧
      clauseViolated ⟨1, 0, 0, 0⟩ ⟨⟨0, 0, 0, 0⟩, ⟨0, 0, 0, 0⟩, [0, 0], [0, 0], 2⟩ = false := by
  refine ⟨by decide, by decide, by decide⟩

/-- On a loaded clause with pairwise distinct variables below 256 the mask
test and the literal-by-literal evaluation agree. -/
theorem violated_literal_lemma (x : List Int) (c : clause)
    (hload : loadClause x = some c) (hrange : ∀ v ∈ c.vars, 0 ≤ v ∧ v < 256)
    (hdistinct : c.vars.Nodup) (bs : Bits) :
    violated bs c = if clauseViolated bs c = true then 1 else 0 := by
  obtain ⟨hv, hn, _, _, _, _, _⟩ := loadClause_shape x c hload
  obtain ⟨_, _, _, _, hiff⟩ := violated_loaded_iff x c hload hrange bs
  rw [mask_condition_iff_literals bs c.vars c.nots hrange (by omega) hdistinct] at hiff
  have htake : (c.vars.zip c.nots).take c.numvars = c.vars.zip c.nots := by
    apply List.take_of_length_le
    simp [List.length_zip, hv, hn]
  have hcv : clauseViolated bs c = (c.vars.zip c.nots).all (fun l => literalFalse bs l.1 l.2) := by
    unfold clauseViolated
    rw [htake]
  rw [hcv]
  by_cases h : (c.vars.zip c.nots).all (fun l => literalFalse bs l.1 l.2) = true
  · rw [if_pos h]
    exact hiff.2 h
  · rw [if_neg h]
    rcases violated_eq_ite bs c with h0 | h1
    · exact h0
    · exact absurd (hiff.1 h1) h

/-- Where the mask test is right: for every clause that the clause loop of `loadsat`
builds from a line whose variables are pairwise distinct and below 256, and for every
assignment, `violated` returns 1 exactly when every literal of the clause is
false under the assignment, and 0 otherwise. -/
theorem violated_eq_literal_evaluation (x : List Int) (c : clause)
    (hload : loadClause x = some c) (hrange : ∀ v ∈ c.vars, 0 ≤ v ∧ v < 256)
    (hdistinct : c.vars.Nodup) (bs : Bits) :
    violated bs c = if clauseViolated bs c = true then 1 else 0 :=
  violated_literal_lemma x c hload hrange hdistinct bs

theorem violated_eq_literal_evaluation_witness :
    violated ⟨5, 0, 0, 0⟩ ⟨⟨7, 0, 0, 0⟩, ⟨2, 0, 0, 0⟩, [0, 1, 2], [0, 1, 0], 3⟩ =
      if clauseViolated ⟨5, 0, 0, 0⟩ ⟨⟨7, 0, 0, 0⟩, ⟨2, 0, 0, 0⟩, [0, 1, 2], [0, 1, 0], 3⟩ = true
      then 1 else 0 :=
  violated_eq_literal_evaluation [1, -2, 3, 0] _ (by decide) (by decide) (by decide) ⟨5, 0, 0, 0⟩



/-! ## The presence index -/

theorem take_set_self {α : Type} (l : List α) (n : Nat) (a : α) :
    (l.set n a).take n = l.take n :=
  List.ext_getElem? fun j => by
    rw [List.getElem?_take, List.getElem?_take]
    split
    · rw [List.getElem?_set_ne (by omega)]
    · rfl

theorem presenceStep_tracks (i : Nat) (pres pres1 : List contain) (a0 : Int) (f : Nat → List Nat)
    (h : presenceStep i pres a0 = some pres1) (hf : Tracks pres f) :
    pres1.length = pres.length ∧ 0 ≤ a0 ∧ a0.toNat < pres.length ∧
      Tracks pres1 (fun a => if a = a0.toNat then f a ++ [i] else f a) := by
  unfold presenceStep at h
  split at h
  · exact absurd h (by simp)
  · rename_i hneg
    split at h
    · exact absurd h (by simp)
    · rename_i c hc
      split at h
      · rename_i hnum
        have e : pres1 = _ := (Option.some.inj h).symm
        subst e
        have hlt : a0.toNat < pres.length := by
          by_contra hge
          rw [List.getElem?_eq_none (by omega)] at hc
          exact absurd hc (by simp)
        refine ⟨by simp, by omega, hlt, ?_⟩
        intro a c1 hc1
        by_cases ha : a = a0.toNat
        · subst ha
          rw [List.getElem?_set_self hlt] at hc1
          have e1 : c1 = _ := (Option.some.inj hc1).symm
          subst e1
          obtain ⟨_, htk⟩ := hf _ _ hc
          simp only [List.length_set, if_true]
          refine ⟨by omega, ?_⟩
          rw [List.take_succ, List.getElem?_set_self hnum, ← htk]
          congr 1
          exact take_set_self _ _ _
        · rw [List.getElem?_set_ne (Ne.symm ha)] at hc1
          simp only [if_neg ha]
          exact hf a c1 hc1
      · exact absurd h (by simp)

theorem presenceInner_tracks (i : Nat) : ∀ (vs : List Int) (pres pres1 : List contain)
    (f : Nat → List Nat), presenceInner i vs pres = some pres1 → Tracks pres f →
    pres1.length = pres.length ∧ (∀ v ∈ vs, 0 ≤ v ∧ v < pres.length) ∧
      Tracks pres1 (fun a => f a ++ List.replicate (vs.count (a : Int)) i) := by
  intro vs
  induction vs with
  | nil =>
    intro pres pres1 f h hf
    have e : pres1 = pres := (Option.some.inj h).symm
    subst e
    refine ⟨rfl, by simp, ?_⟩
    simpa using hf
  | cons v vs ih =>
    intro pres pres1 f h hf
    simp only [presenceInner] at h
    split at h
    · exact absurd h (by simp)
    · rename_i p hp
      obtain ⟨hl, h0, hlt, ht⟩ := presenceStep_tracks i pres p v f hp hf
      obtain ⟨hl1, hr1, ht1⟩ := ih p pres1 _ h ht
      refine ⟨by omega, ?_, ?_⟩
      · intro u hu
        rcases List.mem_cons.1 hu with rfl | hu
        · omega
        · have := hr1 u hu
          omega
      · intro a c hc
        obtain ⟨hn, htk⟩ := ht1 a c hc
        refine ⟨hn, ?_⟩
        rw [htk]
        dsimp only
        rw [List.count_cons]
        by_cases ha : a = v.toNat
        · subst ha
          rw [Int.toNat_of_nonneg h0]
          simp only [if_true, beq_self_eq_true, List.replicate_succ, List.append_assoc,
            List.singleton_append]
        · have : (v == (a : Int)) = false := by
            simp only [beq_eq_false_iff_ne, ne_eq]
            omega
          simp [this, ha]

theorem presenceOuter_tracks : ∀ (cs : List clause) (i : Nat) (pres pres1 : List contain)
    (f : Nat → List Nat), presenceOuter cs i pres = some pres1 → Tracks pres f →
    pres1.length = pres.length ∧
      (∀ c ∈ cs, ∀ v ∈ c.vars.take c.numvars, 0 ≤ v ∧ v < pres.length) ∧
      Tracks pres1 (fun a => f a ++ presList a cs i) := by
  intro cs
  induction cs with
  | nil =>
    intro i pres pres1 f h hf
    have e : pres1 = pres := (Option.some.inj h).symm
    subst e
    refine ⟨rfl, by simp, ?_⟩
    simpa [presList] using hf
  | cons c cs ih =>
    intro i pres pres1 f h hf
    simp only [presenceOuter] at h
    split at h
    · exact absurd h (by simp)
    · rename_i p hp
      obtain ⟨hl, hr, ht⟩ := presenceInner_tracks i _ pres p f hp hf
      obtain ⟨hl1, hr1, ht1⟩ := ih (i + 1) p pres1 _ h ht
      refine ⟨by omega, ?_, ?_⟩
      · intro c1 hc1 v hv
        rcases List.mem_cons.1 hc1 with rfl | hc1
        · exact hr v hv
        · have := hr1 c1 hc1 v hv
          omega
      · intro a c1 hc1
        obtain ⟨hn, htk⟩ := ht1 a c1 hc1
        refine ⟨hn, ?_⟩
        rw [htk]
        dsimp only
        rw [presList, List.append_assoc]

theorem presenceInit_tracks (B n : Nat) : Tracks (presenceInit B n) (fun _ => []) := by
  intro a c hc
  unfold presenceInit at hc
  rw [List.getElem?_replicate] at hc
  split at hc
  · have e : c = _ := (Option.some.inj hc).symm
    subst e
    simp
  · exact absurd hc (by simp)

theorem loadClauses_forall : ∀ (lines : List (List Int)) (cs : List clause),
    loadClauses lines = some cs →
    cs.length = lines.length ∧ ∀ c ∈ cs, ∃ x ∈ lines, loadClause x = some c := by
  intro lines
  induction lines with
  | nil =>
    intro cs h
    have e : cs = [] := (Option.some.inj h).symm
    subst e
    simp
  | cons x xs ih =>
    intro cs h
    simp only [loadClauses] at h
    split at h
    · exact absurd h (by simp)
    · rename_i c hc
      split at h
      · exact absurd h (by simp)
      · rename_i cs1 hcs1
        have e : cs = c :: cs1 := (Option.some.inj h).symm
        subst e
        obtain ⟨hl, hall⟩ := ih cs1 hcs1
        refine ⟨by simp [hl], ?_⟩
        intro c1 hc1
        rcases List.mem_cons.1 hc1 with rfl | hc1
        · exact ⟨x, List.mem_cons_self _ _, hc⟩
        · obtain ⟨y, hy, hyc⟩ := hall c1 hc1
          exact ⟨y, List.mem_cons_of_mem _ hy, hyc⟩

/-- What a successful `loadsat` leaves in the instance. -/
theorem loadsat_loaded (B nc : Nat) (lines : List (List Int)) (sat : Instance)
    (h : loadsat (some (B, nc)) lines = .loaded sat) :
    sat.B = B ∧ sat.numclauses = nc ∧ sat.clauses.length = nc ∧
      sat.presence.length = B ∧
      (∀ c ∈ sat.clauses, ∃ x ∈ lines, loadClause x = some c) ∧
      (∀ c ∈ sat.clauses, ∀ v ∈ c.vars, 0 ≤ v ∧ v < B) ∧
      Tracks sat.presence (fun a => presList a sat.clauses 0) := by
  simp only [loadsat] at h
  split at h
  · exact absurd h (by simp)
  · rename_i hlen
    split at h
    · exact absurd h (by simp)
    · rename_i cs hcs
      split at h
      · exact absurd h (by simp)
      · rename_i pres hpres
        have e : sat = _ := (Loaded.loaded.inj h).symm
        subst e
        obtain ⟨hl, hall⟩ := loadClauses_forall lines cs hcs
        obtain ⟨hpl, hr, ht⟩ :=
          presenceOuter_tracks cs 0 _ pres _ hpres (presenceInit_tracks B nc)
        have hil : (presenceInit B nc).length = B := by simp [presenceInit]
        simp only [not_not] at hlen
        refine ⟨rfl, rfl, by simp only; omega, by simp only; omega, hall, ?_, ?_⟩
        · intro c hc v hv
          obtain ⟨x, _, hx⟩ := hall c hc
          obtain ⟨hvl, _, _, _, _, _, _⟩ := loadClause_shape x c hx
          have := hr c hc v (by rw [List.take_of_length_le (by omega)]; exact hv)
          omega
        · simpa using ht



theorem sample_loaded : loadsat (some (3, 2)) sampleLines = .loaded sampleInstance := by
  decide

/-- A clause that repeats a variable can overrun a presence list: for the
single line `1 1 0` the list of variable 0 has room for `numclauses = 1`
entry and the loop writes two. -/
theorem presence_overrun_on_repeat : loadsat (some (1, 1)) [[1, 1, 0]] = .fault := by
  decide

theorem and_xor_two_pow_of_clear (m w t : Nat) (h : m.testBit t = false) :
    m &&& (w ^^^ 2 ^ t) = m &&& w := by
  apply Nat.eq_of_testBit_eq
  intro i
  rw [Nat.testBit_and, Nat.testBit_and, Nat.testBit_xor, Nat.testBit_two_pow]
  by_cases hi : t = i
  · subst hi; simp [h]
  · simp [hi]

theorem and_word_toggle (bm bs : Bits) (b k : Nat) (hb : b < 256) (h : bm.testBit b = false) :
    bm.word k &&& (bs.toggle b).word k = bm.word k &&& bs.word k := by
  unfold Bits.toggle
  rw [Bits.word_setWord _ _ _ _ (by omega)]
  split
  · rename_i hk
    subst hk
    rw [Nat.one_shiftLeft]
    exact and_xor_two_pow_of_clear _ _ _ h
  · rfl

/-- Flipping a bit that is clear in `bitmask` does not change the verdict of `violated`. -/
theorem violated_toggle_of_clear (bs : Bits) (c : clause) (b : Nat) (hb : b < 256)
    (h : c.bitmask.testBit b = false) : violated (bs.toggle b) c = violated bs c := by
  have h0 := and_word_toggle c.bitmask bs b 0 hb h
  have h1 := and_word_toggle c.bitmask bs b 1 hb h
  have h2 := and_word_toggle c.bitmask bs b 2 hb h
  have h3 := and_word_toggle c.bitmask bs b 3 hb h
  simp only [Bits.word] at h0 h1 h2 h3
  unfold violated
  simp only [h0, h1, h2, h3]

theorem occParity_eq_count (vs : List Int) (j : Nat) :
    occParity vs j = decide (vs.count (j : Int) % 2 = 1) := by
  induction vs with
  | nil => simp [occParity]
  | cons v vs ih =>
    rw [occParity, ih, List.count_cons]
    by_cases hv : v = (j : Int)
    · subst hv
      by_cases hc : List.count (j : Int) vs % 2 = 1
      · have : ¬ (List.count (j : Int) vs + 1) % 2 = 1 := by omega
        simp [hc, this]
      · have : (List.count (j : Int) vs + 1) % 2 = 1 := by omega
        simp [hc, this]
    · simp [hv]

theorem hopDiff_replicate (sat : Instance) (cb pb : Bits) (i : Nat) (c : clause)
    (hc : sat.clauses[i]? = some c) (rest : List Nat) : ∀ (n : Nat) (d : Int),
    hopDiff sat cb pb (List.replicate n i ++ rest) d =
      hopDiff sat cb pb rest (d + (n : Int) * (violated pb c - violated cb c)) := by
  intro n
  induction n with
  | zero => intro d; simp
  | succ n ih =>
    intro d
    rw [List.replicate_succ, List.cons_append, hopDiff, hc]
    simp only
    rw [ih]
    congr 1
    push_cast
    ring

/-- The sum the loop of `hop` accumulates over the presence list of variable `a`. -/
theorem hopDiff_presList (sat : Instance) (cb pb : Bits) (a : Nat) :
    ∀ (cs : List clause) (i : Nat) (d : Int), (∀ t, t < cs.length → cs[t]? = sat.clauses[i + t]?) →
    hopDiff sat cb pb (presList a cs i) d =
      some (d + (cs.map (fun c => ((c.vars.take c.numvars).count (a : Int) : Int) *
        (violated pb c - violated cb c))).sum) := by
  intro cs
  induction cs with
  | nil => intro i d _; simp [presList, hopDiff]
  | cons c cs ih =>
    intro i d h
    have hc : sat.clauses[i]? = some c := by
      have := h 0 (by simp)
      simpa using this.symm
    rw [presList, hopDiff_replicate sat cb pb i c hc, ih]
    · simp only [List.map_cons, List.sum_cons]
      congr 1
      ring
    · intro t ht
      have := h (t + 1) (by simp; omega)
      rw [List.getElem?_cons_succ] at this
      rw [this]
      congr 1
      omega

theorem sum_map_sub (cs : List clause) (f g : clause → Int) :
    (cs.map (fun c => f c - g c)).sum = (cs.map f).sum - (cs.map g).sum := by
  induction cs with
  | nil => simp
  | cons c cs ih =>
    simp only [List.map_cons, List.sum_cons, ih]
    ring

theorem sum_map_congr (cs : List clause) (f g : clause → Int) (h : ∀ c ∈ cs, f c = g c) :
    (cs.map f).sum = (cs.map g).sum := by
  induction cs with
  | nil => simp
  | cons c cs ih =>
    simp only [List.map_cons, List.sum_cons]
    rw [h c (List.mem_cons_self _ _), ih (fun c1 hc1 => h c1 (List.mem_cons_of_mem _ hc1))]

theorem copy_bits_eq (src dest : Bits) (B : Int) : copy_bits src dest B = src := rfl

theorem RAND_MAX_ge : (256 : Int) ≤ (RAND_MAX : Int) := by
  unfold RAND_MAX
  decide

/-- The call `randint(n)` for `1 <= n <= RAND_MAX` consumes one draw and
returns it reduced modulo `n`. -/
theorem randint_inRange (n : Nat) (g : Rng) (h1 : 1 ≤ n) (h2 : (n : Int) ≤ (RAND_MAX : Int)) :
    randint (n : Int) g = some ((((rand g).1 % n : Nat) : Int), (rand g).2) := by
  unfold randint
  rw [if_neg (by omega), if_neg (by omega)]
  congr 2



/-- The result of `hop` on a loaded instance with `1 <= B <= 256`: the bit
`b = rand() % B` is toggled and `unsat` moves by the sum over the presence
list of `b`. -/
theorem hop_loaded (B nc : Nat) (lines : List (List Int)) (sat : Instance)
    (h : loadsat (some (B, nc)) lines = .loaded sat) (hB1 : 1 ≤ B) (hB2 : B ≤ 256)
    (cur pro : walker) (g : Rng) :
    hop cur pro sat g = some (cur,
      { bs := cur.bs.toggle ((rand g).1 % B),
        unsat := cur.unsat + (sat.clauses.map (fun c =>
          ((c.vars.take c.numvars).count ((((rand g).1 % B : Nat)) : Int) : Int) *
            (violated (cur.bs.toggle ((rand g).1 % B)) c - violated cur.bs c))).sum },
      (rand g).2) := by
  obtain ⟨hB, _, _, hpl, _, _, ht⟩ := loadsat_loaded B nc lines sat h
  have hb : (rand g).1 % B < B := Nat.mod_lt _ (by omega)
  have hlt : (rand g).1 % B < sat.presence.length := by omega
  obtain ⟨hn, htk⟩ := ht _ _ (List.getElem?_eq_getElem hlt)
  have e1 : randint (sat.B : Int) g = some ((((rand g).1 % B : Nat) : Int), (rand g).2) := by
    rw [hB]
    exact randint_inRange B g hB1 (by have := RAND_MAX_ge; omega)
  have e2 : (flip (copy_bits cur.bs pro.bs sat.B) (((rand g).1 % B : Nat) : Int) sat.B).val? =
      some (cur.bs.toggle ((rand g).1 % B)) := by
    rw [copy_bits_eq, hB, flip_natCast _ _ _ (by omega) (by omega)]
    rfl
  have e3 : sat.presence[((((rand g).1 % B : Nat)) : Int).toNat]? =
      some sat.presence[(rand g).1 % B] := by
    rw [Int.toNat_ofNat]
    exact List.getElem?_eq_getElem hlt
  have e4 : (sat.presence[(rand g).1 % B]).entries =
      some (presList ((rand g).1 % B) sat.clauses 0) := by
    unfold contain.entries
    rw [if_pos hn, htk]
  have e5 := hopDiff_presList sat cur.bs (cur.bs.toggle ((rand g).1 % B)) ((rand g).1 % B)
    sat.clauses 0 0 (by intro t _; simp)
  have e6 : ¬ ((((rand g).1 % B : Nat)) : Int) < 0 := by omega
  unfold hop
  simp only [e1, e2, e3, e4, e5, if_neg e6, zero_add]

/-- On a clause that has at most two literals on `b`, the contribution the
loop of `hop` adds for the clause is the change of its verdict. -/
theorem hop_term (x : List Int) (c : clause) (hload : loadClause x = some c)
    (hrange : ∀ v ∈ c.vars, 0 ≤ v ∧ v < 256) (b : Nat) (hb : b < 256)
    (hcount : c.vars.count (b : Int) ≤ 2) (bs : Bits) :
    ((c.vars.take c.numvars).count (b : Int) : Int) * (violated (bs.toggle b) c - violated bs c)
      = violated (bs.toggle b) c - violated bs c := by
  obtain ⟨hv, _, _, _, _, _, _⟩ := loadClause_shape x c hload
  obtain ⟨_, _, hbit, _, _⟩ := violated_loaded_iff x c hload hrange bs
  rw [List.take_of_length_le (by omega)]
  by_cases h1 : c.vars.count (b : Int) = 1
  · rw [h1]; simp
  · have hclear : c.bitmask.testBit b = false := by
      rw [hbit, occParity_eq_count]
      simp only [decide_eq_false_iff_not]
      omega
    rw [violated_toggle_of_clear bs c b hb hclear]
    simp

/-- Hop consistency on a loaded instance in which no clause has three
literals on one variable. -/
theorem hop_keeps_count (B nc : Nat) (lines : List (List Int)) (sat : Instance)
    (h : loadsat (some (B, nc)) lines = .loaded sat) (hB1 : 1 ≤ B) (hB2 : B ≤ 256)
    (hrep : ∀ c ∈ sat.clauses, ∀ v : Int, c.vars.count v ≤ 2)
    (cur pro : walker) (g : Rng) (hcur : cur.unsat = violatedCount sat cur.bs) :
    ∃ pro1, hop cur pro sat g = some (cur, pro1, (rand g).2) ∧
      pro1.bs = cur.bs.toggle ((rand g).1 % B) ∧
      pro1.unsat = violatedCount sat pro1.bs := by
  obtain ⟨hB, _, _, _, hall, hr, _⟩ := loadsat_loaded B nc lines sat h
  have hb : (rand g).1 % B < B := Nat.mod_lt _ (by omega)
  refine ⟨_, hop_loaded B nc lines sat h hB1 hB2 cur pro g, rfl, ?_⟩
  simp only
  rw [sum_map_congr sat.clauses _
    (fun c => violated (cur.bs.toggle ((rand g).1 % B)) c - violated cur.bs c)]
  · rw [sum_map_sub, hcur]
    unfold violatedCount
    ring
  · intro c hc
    obtain ⟨x, _, hx⟩ := hall c hc
    apply hop_term x c hx _ _ (by omega) (hrep c hc _)
    intro v hv
    have := hr c hc v hv
    omega



/-! ## Loops -/

/-- Invariant rule for `forLoop`: a body that is defined on, and preserves, the
invariant makes the whole loop defined, and the invariant holds at the end. -/
theorem forLoop_inv {σ : Type} (body : Nat → σ → Option σ) (I : Nat → σ → Prop) :
    ∀ (n lo : Nat) (s : σ), I lo s →
    (∀ k s1, lo ≤ k → k < lo + n → I k s1 → ∃ s2, body k s1 = some s2 ∧ I (k + 1) s2) →
    ∃ s2, forLoop body lo n s = some s2 ∧ I (lo + n) s2 := by
  intro n
  induction n with
  | zero =>
    intro lo s h0 _
    exact ⟨s, rfl, h0⟩
  | succ n ih =>
    intro lo s h0 hstep
    obtain ⟨s1, hs1, hI1⟩ := hstep lo s (Nat.le_refl _) (by omega) h0
    obtain ⟨s2, hs2, hI2⟩ := ih (lo + 1) s1 hI1
      (fun k s3 hk1 hk2 hI => hstep k s3 (by omega) (by omega) hI)
    refine ⟨s2, ?_, ?_⟩
    · rw [forLoop, hs1]
      exact hs2
    · rw [show lo + (n + 1) = lo + 1 + n by omega]
      exact hI2

/-! ## The walker step -/

theorem tern_cases (p0 p1 : ℚ) (g : Rng) :
    (tern p0 p1 g).1 = 0 ∨ (tern p0 p1 g).1 = 1 ∨ (tern p0 p1 g).1 = 2 := by
  unfold tern
  split
  · left; rfl
  · simp only
    split
    · left; rfl
    · split
      · right; left; rfl
      · right; right; rfl

/-- The call `randint(W)` for `W >= 1` returns an index below `W`. -/
theorem randint_lt (W : Nat) (g : Rng) (hW : 1 ≤ W) :
    ∃ d g1, randint (W : Int) g = some (((d : Nat) : Int), g1) ∧ d < W := by
  by_cases h : (W : Int) > (RAND_MAX : Int)
  · refine ⟨RAND_MAX, g, ?_, by omega⟩
    unfold randint
    rw [if_pos h]
  · refine ⟨(rand g).1 % W, (rand g).2, randint_inRange W g hW (by omega), Nat.mod_lt _ (by omega)⟩

theorem set_getElem_same {α : Type} (l : List α) (w : Nat) (h : w < l.length) :
    l.set w l[w] = l := by
  apply List.ext_getElem?
  intro j
  rw [List.getElem?_set]
  split
  · rename_i hj
    subst hj
    simp [h]
  · rfl

theorem teleport_spec (cur pro : List walker) (w W : Nat) (B : Int) (g : Rng)
    (hc : cur.length = W) (hp : pro.length = W) (hw : w < W) :
    ∃ d cd g1, d < W ∧ cur[d]? = some cd ∧
      teleport cur pro w (W : Int) B g = some (cur, pro.set w cd, g1) := by
  obtain ⟨d, g1, hr, hd⟩ := randint_lt W g (by omega)
  have hcd : cur[d]? = some cur[d] := List.getElem?_eq_getElem (by omega)
  have hpw : pro[w]? = some pro[w] := List.getElem?_eq_getElem (by omega)
  refine ⟨d, cur[d], g1, hd, hcd, ?_⟩
  unfold teleport
  rw [hr]
  simp only
  rw [if_neg (by omega), Int.toNat_ofNat, hcd, hpw]
  rfl

/-- What one pass of the walker loop writes: `cur` is untouched and slot `w`
of `pro` receives either a copy of some current walker (sit, teleport) or the
result of `hop` on `cur[w]`. -/
theorem walkerStep_spec (sat : Instance) (W : Nat) (s dt vscale : ℚ) (umin : Int) (w : Nat)
    (P : Pop) (hc : P.cur.length = W) (hp : P.pro.length = W) (hw : w < W)
    (hhop : ∀ (c p : walker) (g : Rng), ∃ p1 g1, hop c p sat g = some (c, p1, g1)) :
    ∃ wk g1, walkerStep sat W s dt vscale umin w P = some ⟨P.cur, P.pro.set w wk, g1⟩ ∧
      ((∃ d cd, d < W ∧ P.cur[d]? = some cd ∧ wk = cd) ∨
       (∃ cw pw g0, P.cur[w]? = some cw ∧ hop cw pw sat g0 = some (cw, wk, g1))) := by
  have hcw : P.cur[w]? = some P.cur[w] := List.getElem?_eq_getElem (by omega)
  have hpw : P.pro[w]? = some P.pro[w] := List.getElem?_eq_getElem (by omega)
  have hset : P.cur.set w P.cur[w] = P.cur := set_getElem_same _ _ _
  rcases tern_cases (phop s dt) (ptel dt s vscale (P.cur[w]).unsat umin) P.g with ha | ha | ha
  · -- hop
    obtain ⟨p1, g1, hh⟩ := hhop P.cur[w] P.pro[w]
      (tern (phop s dt) (ptel dt s vscale (P.cur[w]).unsat umin) P.g).2
    refine ⟨p1, g1, ?_, Or.inr ⟨P.cur[w], P.pro[w], _, hcw, hh⟩⟩
    unfold walkerStep
    simp only [ha, hcw, hpw, hh, if_true, if_false, show ¬ ((0 : Int) = 2) by decide,
      show ¬ ((0 : Int) = 1) by decide, hset]
  · -- teleport
    obtain ⟨d, cd, g1, hd, hcd, ht⟩ := teleport_spec P.cur P.pro w W sat.B
      (tern (phop s dt) (ptel dt s vscale (P.cur[w]).unsat umin) P.g).2 hc hp hw
    refine ⟨cd, g1, ?_, Or.inl ⟨d, cd, hd, hcd, rfl⟩⟩
    unfold walkerStep
    simp only [ha, hcw, ht, if_true, if_false, show ¬ ((1 : Int) = 2) by decide,
      show ¬ ((1 : Int) = 0) by decide]
  · -- sit
    refine ⟨P.cur[w], (tern (phop s dt) (ptel dt s vscale (P.cur[w]).unsat umin) P.g).2, ?_,
      Or.inl ⟨w, P.cur[w], hw, hcw, rfl⟩⟩
    unfold walkerStep
    simp only [ha, hcw, hpw, if_true, if_false, show ¬ ((2 : Int) = 1) by decide,
      show ¬ ((2 : Int) = 0) by decide, sit, copy_bits_eq, hset]



/-! ## One pass of the `do` loop -/

theorem scanMinMax_spec (cur : List walker) (W : Nat) (hc : cur.length = W) (hW : 1 ≤ W) :
    ∃ umin umax, scanMinMax cur W = some (umin, umax) ∧ umin ≤ umax ∧
      (∀ wk ∈ cur, umin ≤ wk.unsat ∧ wk.unsat ≤ umax) ∧
      (∃ wk ∈ cur, wk.unsat = umin) ∧ (∃ wk ∈ cur, wk.unsat = umax) := by
  have h0 : cur[0]? = some cur[0] := List.getElem?_eq_getElem (by omega)
  have hmem0 : cur[0] ∈ cur := List.getElem_mem _
  obtain ⟨mm, hmm, hle, hall, hmin, hmax⟩ := forLoop_inv (scanStep cur)
    (fun k mm => mm.1 ≤ mm.2 ∧
      (∀ j, j < k → ∀ wk, cur[j]? = some wk → mm.1 ≤ wk.unsat ∧ wk.unsat ≤ mm.2) ∧
      (∃ wk ∈ cur, wk.unsat = mm.1) ∧ (∃ wk ∈ cur, wk.unsat = mm.2))
    W 0 ((cur[0]).unsat, (cur[0]).unsat)
    ⟨le_refl _, by intro j hj; omega, ⟨_, hmem0, rfl⟩, ⟨_, hmem0, rfl⟩⟩
    (by
      rintro k ⟨mn, mx⟩ _ hk ⟨hle, hall, hmin, hmax⟩
      have hk' : cur[k]? = some cur[k] := List.getElem?_eq_getElem (by omega)
      have hmemk : cur[k] ∈ cur := List.getElem_mem _
      refine ⟨_, by rw [scanStep, hk'], ?_, ?_, ?_, ?_⟩
      · simp only
        split <;> split <;> omega
      · intro j hj wk hwk
        simp only
        by_cases hjk : j = k
        · subst hjk
          rw [hk'] at hwk
          have e : wk = cur[j] := (Option.some.inj hwk).symm
          subst e
          split <;> split <;> omega
        · have := hall j (by omega) wk hwk
          simp only at this
          split <;> split <;> omega
      · simp only
        split
        · exact ⟨_, hmemk, rfl⟩
        · exact hmin
      · simp only
        split
        · exact ⟨_, hmemk, rfl⟩
        · exact hmax)
  obtain ⟨mn, mx⟩ := mm
  refine ⟨mn, mx, ?_, hle, ?_, hmin, hmax⟩
  · unfold scanMinMax
    rw [h0]
    exact hmm
  · intro wk hwk
    obtain ⟨j, hj, hjw⟩ := List.getElem_of_mem hwk
    exact hall j (by omega) wk (by rw [List.getElem?_eq_getElem hj, hjw])

theorem walkerLoop_spec (sat : Instance) (W : Nat) (s dt vscale : ℚ) (umin : Int)
    (cur pro : List walker) (g : Rng) (hc : cur.length = W) (hp : pro.length = W)
    (hhop : ∀ (c p : walker) (g : Rng), ∃ p1 g1, hop c p sat g = some (c, p1, g1)) :
    ∃ P, forLoop (walkerStep sat W s dt vscale umin) 0 W ⟨cur, pro, g⟩ = some P ∧
      P.cur = cur ∧ P.pro.length = W ∧
      ∀ j, j < W → ∃ wk, P.pro[j]? = some wk ∧ StepOf sat cur j wk := by
  obtain ⟨P, hP, hcur, hlen, hall⟩ := forLoop_inv (walkerStep sat W s dt vscale umin)
    (fun k P => P.cur = cur ∧ P.pro.length = W ∧
      ∀ j, j < k → ∃ wk, P.pro[j]? = some wk ∧ StepOf sat cur j wk)
    W 0 ⟨cur, pro, g⟩ ⟨rfl, hp, by intro j hj; omega⟩
    (by
      rintro k P _ hk ⟨hcur, hlen, hall⟩
      obtain ⟨wk, g1, hstep, hq⟩ :=
        walkerStep_spec sat W s dt vscale umin k P (by rw [hcur]; exact hc) hlen (by omega) hhop
      refine ⟨_, hstep, hcur, by simp [hlen], ?_⟩
      intro j hj
      by_cases hjk : j = k
      · subst hjk
        refine ⟨wk, by simp only; rw [List.getElem?_set_self (by omega)], ?_⟩
        rw [hcur] at hq
        rcases hq with ⟨d, cd, hd, hcd, e⟩ | ⟨cw, pw, g0, hcw, hh⟩
        · exact Or.inl ⟨d, cd, by omega, hcd, e⟩
        · exact Or.inr ⟨cw, pw, g0, g1, hcw, hh⟩
      · obtain ⟨wk1, hwk1, hq1⟩ := hall j (by omega)
        exact ⟨wk1, by simp only; rw [List.getElem?_set_ne (Ne.symm hjk)]; exact hwk1, hq1⟩)
  exact ⟨P, hP, hcur, hlen, by simpa using hall⟩

theorem winnerLoop_spec (cur : List walker) (W : Nat) (winners : Int) (hc : cur.length = W) :
    forLoop (winnerStep cur) 0 W winners =
      some (winners + ((cur.filter (fun wk => wk.unsat = 0)).length : Int)) := by
  obtain ⟨x, hx, hI⟩ := forLoop_inv (winnerStep cur)
    (fun k x => x = winners + ((((cur.take k).filter (fun wk => wk.unsat = 0)).length : Nat) : Int))
    W 0 winners (by simp)
    (by
      intro k x _ hk hI
      have hk' : cur[k]? = some cur[k] := List.getElem?_eq_getElem (by omega)
      refine ⟨_, by rw [winnerStep, hk'], ?_⟩
      simp only
      rw [List.take_succ, hk', List.filter_append, List.length_append, hI]
      by_cases hz : (cur[k]).unsat = 0
      · simp [hz, List.filter_cons]
        ring
      · simp [hz, List.filter_cons])
  rw [hx, hI]
  simp only [zero_add]
  rw [← hc, List.take_length]

/-- One pass of the `do` loop on well-sized arrays: it is defined, the new
current array arises slot by slot from the old one, the old current array
becomes the prospective one, and time advances by the timestep. -/
theorem walkIter_spec (sat : Instance) (W : Nat) (duration vscale : ℚ) (st : WalkState)
    (hc : st.cur.length = W) (hp : st.pro.length = W) (hW : 1 ≤ W)
    (hhop : ∀ (c p : walker) (g : Rng), ∃ p1 g1, hop c p sat g = some (c, p1, g1)) :
    ∃ st1 umin umax, walkIter sat W duration vscale st = some st1 ∧
      scanMinMax st.cur W = some (umin, umax) ∧
      st1.cur.length = W ∧ st1.pro = st.cur ∧
      (∀ j, j < W → ∃ wk, st1.cur[j]? = some wk ∧ StepOf sat st.cur j wk) ∧
      st1.time = st.time + timestep (st.time / duration) vscale umin umax ∧
      st1.winners = st.winners + ((st1.cur.filter (fun wk => wk.unsat = 0)).length : Int) := by
  obtain ⟨umin, umax, hscan, _⟩ := scanMinMax_spec st.cur W hc hW
  obtain ⟨P, hP, hPc, hPl, hPall⟩ := walkerLoop_spec sat W (st.time / duration)
    (timestep (st.time / duration) vscale umin umax) vscale umin st.cur st.pro st.g hc hp hhop
  have hwin := winnerLoop_spec P.pro W st.winners hPl
  refine ⟨⟨P.pro, P.cur, st.time + timestep (st.time / duration) vscale umin umax,
    st.winners + ((P.pro.filter (fun wk => wk.unsat = 0)).length : Int), P.g⟩, umin, umax,
    ?_, hscan, hPl, hPc, hPall, rfl, rfl⟩
  unfold walkIter
  simp only [hscan, hP, hwin]



/-! ## The cache invariant -/

theorem hop_total (B nc : Nat) (lines : List (List Int)) (sat : Instance)
    (h : loadsat (some (B, nc)) lines = .loaded sat) (hB1 : 1 ≤ B) (hB2 : B ≤ 256)
    (c p : walker) (g : Rng) : ∃ p1 g1, hop c p sat g = some (c, p1, g1) :=
  ⟨_, _, hop_loaded B nc lines sat h hB1 hB2 c p g⟩

theorem stepOf_cache (B nc : Nat) (lines : List (List Int)) (sat : Instance)
    (h : loadsat (some (B, nc)) lines = .loaded sat) (hB1 : 1 ≤ B) (hB2 : B ≤ 256)
    (hrep : ∀ c ∈ sat.clauses, ∀ v : Int, c.vars.count v ≤ 2)
    (cur : List walker) (hinv : CacheOk sat cur) (j : Nat) (wk : walker)
    (hq : StepOf sat cur j wk) : wk.unsat = violatedCount sat wk.bs := by
  rcases hq with ⟨d, cd, _, hcd, rfl⟩ | ⟨cw, pw, g0, g1, hcw, hh⟩
  · exact hinv _ (List.getElem?_mem hcd)
  · obtain ⟨pro1, hp1, _, hu⟩ := hop_keeps_count B nc lines sat h hB1 hB2 hrep cw pw g0
      (hinv _ (List.getElem?_mem hcw))
    rw [hp1] at hh
    have e : pro1 = wk := congrArg (fun r => r.2.1) (Option.some.inj hh)
    rw [← e]
    exact hu

theorem walkIter_cache (B nc : Nat) (lines : List (List Int)) (sat : Instance)
    (h : loadsat (some (B, nc)) lines = .loaded sat) (hB1 : 1 ≤ B) (hB2 : B ≤ 256)
    (hrep : ∀ c ∈ sat.clauses, ∀ v : Int, c.vars.count v ≤ 2)
    (W : Nat) (hW : 1 ≤ W) (duration vscale : ℚ) (st : WalkState)
    (hc : st.cur.length = W) (hp : st.pro.length = W) (hinv : CacheOk sat st.cur) :
    ∃ st1, walkIter sat W duration vscale st = some st1 ∧
      st1.cur.length = W ∧ st1.pro.length = W ∧ CacheOk sat st1.cur := by
  obtain ⟨st1, umin, umax, hst1, _, hl, hpro, hall, _, _⟩ :=
    walkIter_spec sat W duration vscale st hc hp hW (hop_total B nc lines sat h hB1 hB2)
  refine ⟨st1, hst1, hl, by rw [hpro]; exact hc, ?_⟩
  intro wk hwk
  obtain ⟨j, hj, hjw⟩ := List.getElem_of_mem hwk
  obtain ⟨wk1, hwk1, hq⟩ := hall j (by omega)
  rw [List.getElem?_eq_getElem hj, hjw] at hwk1
  have e : wk = wk1 := Option.some.inj hwk1
  subst e
  exact stepOf_cache B nc lines sat h hB1 hB2 hrep st.cur hinv j wk hq

theorem count_le_two_of_nodup (sat : Instance) (hd : ∀ c ∈ sat.clauses, c.vars.Nodup) :
    ∀ c ∈ sat.clauses, ∀ v : Int, c.vars.count v ≤ 2 := by
  intro c hc v
  have := List.nodup_iff_count_le_one.1 (hd c hc) v
  omega

/-- C2. Cache invariant of one walk iteration: on an instance built by
`loadsat` with `1 <= B <= 256` whose clauses each mention pairwise distinct
variables, if every walker of the current population has `unsat` equal to the
number of clauses violated by its bit vector, then one iteration (for every
state of the random generator) is defined and every walker of the new current
population again has `unsat` equal to the number of clauses violated by its
bit vector. -/
theorem cache_invariant_iteration (B nc : Nat) (lines : List (List Int)) (sat : Instance)
    (h : loadsat (some (B, nc)) lines = .loaded sat) (hB1 : 1 ≤ B) (hB2 : B ≤ 256)
    (hdistinct : ∀ c ∈ sat.clauses, c.vars.Nodup)
    (W : Nat) (hW : 1 ≤ W) (duration vscale : ℚ) (st : WalkState)
    (hc : st.cur.length = W) (hp : st.pro.length = W) (hinv : CacheOk sat st.cur) :
    ∃ st1, walkIter sat W duration vscale st = some st1 ∧
      st1.cur.length = W ∧ st1.pro.length = W ∧ CacheOk sat st1.cur :=
  walkIter_cache B nc lines sat h hB1 hB2 (count_le_two_of_nodup sat hdistinct)
    W hW duration vscale st hc hp hinv

/-- Where the hop is consistent: for every clause set loaded by `loadsat`
with `1 <= B <= 256` in which no clause has all three literals on one variable
(a variable may occur twice), every current walker whose `unsat` equals the
number of violated clauses of its assignment and every draw, `hop` flips the
bit `b = rand() % B` and stores in `pro->unsat` the number of clauses violated
by `pro->bs` recomputed from scratch over all clauses. -/
theorem hop_consistency (B nc : Nat) (lines : List (List Int)) (sat : Instance)
    (h : loadsat (some (B, nc)) lines = .loaded sat) (hB1 : 1 ≤ B) (hB2 : B ≤ 256)
    (hrep : ∀ c ∈ sat.clauses, ∀ v ∈ c.vars, c.vars.count v ≤ 2)
    (cur pro : walker) (g : Rng) (hcur : cur.unsat = violatedCount sat cur.bs) :
    ∃ pro1, hop cur pro sat g = some (cur, pro1, (rand g).2) ∧
      pro1.bs = cur.bs.toggle ((rand g).1 % B) ∧
      pro1.unsat = violatedCount sat pro1.bs :=
  hop_keeps_count B nc lines sat h hB1 hB2
    (fun c hc v => by
      by_cases hv : v ∈ c.vars
      · exact hrep c hc v hv
      · rw [List.count_eq_zero_of_not_mem hv]
        omega)
    cur pro g hcur



/-! ## Initialisation and the whole walk -/

theorem countLoop_spec (sat : Instance) (bs : Bits) (hn : sat.numclauses = sat.clauses.length) :
    forLoop (countViolated sat bs) 0 sat.numclauses 0 = some (violatedCount sat bs) := by
  obtain ⟨x, hx, hI⟩ := forLoop_inv (countViolated sat bs)
    (fun k x => x = ((sat.clauses.take k).map (fun c => violated bs c)).sum)
    sat.numclauses 0 0 (by simp)
    (by
      intro k x _ hk hI
      have hk' : sat.clauses[k]? = some sat.clauses[k] := List.getElem?_eq_getElem (by omega)
      refine ⟨_, by rw [countViolated, hk'], ?_⟩
      show x + violated bs sat.clauses[k] =
        ((sat.clauses.take (k + 1)).map (fun c => violated bs c)).sum
      rw [List.take_succ, hk', hI, List.map_append, List.sum_append]
      simp)
  rw [hx, hI]
  simp only [zero_add]
  rw [hn, List.take_length]
  rfl

theorem randomizeBits_total (B : Nat) (hB : B ≤ 256) (bs : Bits) (g : Rng) :
    ∃ r, forLoop (randomizeBits B) 0 B (bs, g) = some r := by
  obtain ⟨r, hr, _⟩ := forLoop_inv (randomizeBits B) (fun _ _ => True) B 0 (bs, g) trivial
    (by
      intro k st _ hk _
      unfold randomizeBits
      simp only
      split
      · rw [flip_natCast _ _ _ (by omega) (by omega)]
        exact ⟨_, rfl, trivial⟩
      · exact ⟨_, rfl, trivial⟩)
  exact ⟨r, hr⟩

theorem randomize_spec (B nc : Nat) (lines : List (List Int)) (sat : Instance)
    (h : loadsat (some (B, nc)) lines = .loaded sat) (hB2 : B ≤ 256)
    (warray : List walker) (W : Nat) (hl : warray.length = W) (g : Rng) :
    ∃ cur g1, randomize warray W sat g = some (cur, g1) ∧ cur.length = W ∧ CacheOk sat cur := by
  obtain ⟨hB, hnc, hcl, _, _, _, _⟩ := loadsat_loaded B nc lines sat h
  obtain ⟨r, hr, hlen, hall⟩ := forLoop_inv (randomizeWalker sat)
    (fun k st => st.1.length = W ∧
      ∀ j, j < k → ∀ wk, st.1[j]? = some wk → wk.unsat = violatedCount sat wk.bs)
    W 0 (warray, g) ⟨hl, by intro j hj; omega⟩
    (by
      rintro k ⟨arr, g0⟩ _ hk ⟨hlen, hall⟩
      simp only at hlen hall
      have hk' : arr[k]? = some arr[k] := List.getElem?_eq_getElem (by omega)
      obtain ⟨⟨bs1, g1⟩, hbits⟩ := randomizeBits_total sat.B (by omega) (arr[k]).bs g0
      have hcount := countLoop_spec sat bs1 (by omega)
      refine ⟨(arr.set k { bs := bs1, unsat := violatedCount sat bs1 }, g1), ?_, ?_, ?_⟩
      · unfold randomizeWalker
        simp only [hk', hbits, hcount]
      · simp [hlen]
      · intro j hj wk hwk
        simp only at hwk
        by_cases hjk : j = k
        · subst hjk
          rw [List.getElem?_set_self (by omega)] at hwk
          have e : wk = _ := (Option.some.inj hwk).symm
          subst e
          rfl
        · rw [List.getElem?_set_ne (Ne.symm hjk)] at hwk
          exact hall j (by omega) wk hwk)
  obtain ⟨cur, g1⟩ := r
  refine ⟨cur, g1, hr, hlen, ?_⟩
  intro wk hwk
  obtain ⟨j, hj, hjw⟩ := List.getElem_of_mem hwk
  simp only at hlen
  exact hall j (by omega) wk (by simp only; rw [List.getElem?_eq_getElem hj, hjw])

theorem walkInit_spec (B nc : Nat) (lines : List (List Int)) (sat : Instance)
    (h : loadsat (some (B, nc)) lines = .loaded sat) (hB2 : B ≤ 256)
    (W : Nat) (heap1 heap2 : Nat → walker) (g : Rng) :
    ∃ st0, walkInit sat W heap1 heap2 g = some st0 ∧ st0.cur.length = W ∧
      st0.pro.length = W ∧ CacheOk sat st0.cur ∧ st0.time = 0 ∧ st0.winners = 0 := by
  obtain ⟨cur, g1, hr, hl, hinv⟩ := randomize_spec B nc lines sat h hB2
    ((List.range W).map (fun k => { heap1 k with bs := init_bits (heap1 k).bs sat.B })) W
    (by simp) g
  refine ⟨⟨cur, (List.range W).map (fun k => { heap2 k with bs := init_bits (heap2 k).bs sat.B }),
    0, 0, g1⟩, ?_, hl, by simp, hinv, rfl, rfl⟩
  unfold walkInit
  simp only [hr]

theorem walkLoop_cache (B nc : Nat) (lines : List (List Int)) (sat : Instance)
    (h : loadsat (some (B, nc)) lines = .loaded sat) (hB1 : 1 ≤ B) (hB2 : B ≤ 256)
    (hrep : ∀ c ∈ sat.clauses, ∀ v : Int, c.vars.count v ≤ 2)
    (W : Nat) (hW : 1 ≤ W) (duration vscale : ℚ) :
    ∀ (fuel : Nat) (st st1 : WalkState), st.cur.length = W → st.pro.length = W →
      CacheOk sat st.cur → walkLoop sat W duration vscale fuel st = some st1 →
      st1.cur.length = W ∧ CacheOk sat st1.cur := by
  intro fuel
  induction fuel with
  | zero =>
    intro st st1 _ _ _ hrun
    exact absurd hrun (by simp [walkLoop])
  | succ fuel ih =>
    intro st st1 hc hp hinv hrun
    obtain ⟨st2, hst2, hc2, hp2, hinv2⟩ :=
      walkIter_cache B nc lines sat h hB1 hB2 hrep W hW duration vscale st hc hp hinv
    rw [walkLoop, hst2] at hrun
    simp only at hrun
    split at hrun
    · exact ih st2 st1 hc2 hp2 hinv2 hrun
    · have e : st2 = st1 := Option.some.inj hrun
      subst e
      exact ⟨hc2, hinv2⟩

theorem violated_nonneg (bs : Bits) (c : clause) : 0 ≤ violated bs c := by
  rcases violated_eq_ite bs c with h | h <;> omega

theorem violated_le_one (bs : Bits) (c : clause) : violated bs c ≤ 1 := by
  rcases violated_eq_ite bs c with h | h <;> omega

theorem sum_violated_bounds (bs : Bits) (cs : List clause) :
    0 ≤ (cs.map (fun c => violated bs c)).sum ∧
      (cs.map (fun c => violated bs c)).sum ≤ (cs.length : Int) ∧
      ((cs.map (fun c => violated bs c)).sum = 0 → ∀ c ∈ cs, violated bs c = 0) := by
  induction cs with
  | nil => simp
  | cons c cs ih =>
    obtain ⟨h0, h1, h2⟩ := ih
    have hn := violated_nonneg bs c
    have hl := violated_le_one bs c
    simp only [List.map_cons, List.sum_cons, List.length_cons]
    refine ⟨by omega, by push_cast; omega, ?_⟩
    intro hs c1 hc1
    rcases List.mem_cons.1 hc1 with rfl | hc1
    · omega
    · exact h2 (by omega) c1 hc1



/-! ## The timestep and the probabilities -/

theorem denom_pos (s vscale : ℚ) (umin umax : Int) (hs0 : 0 ≤ s) (hs1 : s < 1)
    (hv : 0 ≤ vscale) (hmm : umin ≤ umax) : 0 < denom s vscale umin umax := by
  unfold denom
  have h1 : (0 : ℚ) ≤ ((umax - umin : Int) : ℚ) := by
    have : (0 : Int) ≤ umax - umin := by omega
    exact_mod_cast this
  have h2 : 0 ≤ s * vscale * ((umax - umin : Int) : ℚ) :=
    mul_nonneg (mul_nonneg hs0 hv) h1
  linarith

theorem timestep_pos (s vscale : ℚ) (umin umax : Int) (hs0 : 0 ≤ s) (hs1 : s < 1)
    (hv : 0 ≤ vscale) (hmm : umin ≤ umax) : 0 < timestep s vscale umin umax := by
  unfold timestep
  exact div_pos (by norm_num) (denom_pos s vscale umin umax hs0 hs1 hv hmm)

theorem prob_bounds (s vscale : ℚ) (umin umax u : Int) (hs0 : 0 ≤ s) (hs1 : s < 1)
    (hv : 0 ≤ vscale) (hlo : umin ≤ u) (hhi : u ≤ umax) :
    0 ≤ phop s (timestep s vscale umin umax) ∧
      0 ≤ ptel (timestep s vscale umin umax) s vscale u umin ∧
      phop s (timestep s vscale umin umax) + ptel (timestep s vscale umin umax) s vscale u umin
        ≤ 99 / 100 := by
  have hD := denom_pos s vscale umin umax hs0 hs1 hv (by omega)
  have hdt := timestep_pos s vscale umin umax hs0 hs1 hv (by omega)
  have hu : (0 : ℚ) ≤ ((u - umin : Int) : ℚ) := by
    have : (0 : Int) ≤ u - umin := by omega
    exact_mod_cast this
  have hle : ((u - umin : Int) : ℚ) ≤ ((umax - umin : Int) : ℚ) := by
    have : u - umin ≤ umax - umin := by omega
    exact_mod_cast this
  have hprod : timestep s vscale umin umax * denom s vscale umin umax = 99 / 100 := by
    unfold timestep
    exact div_mul_cancel₀ _ (ne_of_gt hD)
  refine ⟨?_, ?_, ?_⟩
  · unfold phop
    exact mul_nonneg (by linarith) (le_of_lt hdt)
  · unfold ptel
    exact mul_nonneg (mul_nonneg (mul_nonneg (le_of_lt hdt) hs0) hv) hu
  · have hsv : 0 ≤ s * vscale := mul_nonneg hs0 hv
    have h1 : s * vscale * ((u - umin : Int) : ℚ) ≤ s * vscale * ((umax - umin : Int) : ℚ) :=
      mul_le_mul_of_nonneg_left hle hsv
    have h2 : phop s (timestep s vscale umin umax) +
        ptel (timestep s vscale umin umax) s vscale u umin =
        timestep s vscale umin umax * (1 - s + s * vscale * ((u - umin : Int) : ℚ)) := by
      unfold phop ptel
      ring
    rw [h2, ← hprod]
    apply mul_le_mul_of_nonneg_left _ (le_of_lt hdt)
    unfold denom
    linarith

/-- The timestep is at least `0.99 / max(1, vscale * numclauses)` when the
spread of the population is at most `numclauses`. -/
theorem timestep_lower (s vscale : ℚ) (umin umax : Int) (nc : Nat) (hs0 : 0 ≤ s) (hs1 : s < 1)
    (hv : 0 ≤ vscale) (hmm : umin ≤ umax) (hspread : umax - umin ≤ (nc : Int)) :
    (99 / 100) / max 1 (vscale * (nc : ℚ)) ≤ timestep s vscale umin umax := by
  have hD := denom_pos s vscale umin umax hs0 hs1 hv hmm
  have hM1 : (1 : ℚ) ≤ max 1 (vscale * (nc : ℚ)) := le_max_left _ _
  have hM2 : vscale * (nc : ℚ) ≤ max 1 (vscale * (nc : ℚ)) := le_max_right _ _
  have hle : ((umax - umin : Int) : ℚ) ≤ (nc : ℚ) := by exact_mod_cast hspread
  have h1 : vscale * ((umax - umin : Int) : ℚ) ≤ vscale * (nc : ℚ) :=
    mul_le_mul_of_nonneg_left hle hv
  have h2 : s * (vscale * ((umax - umin : Int) : ℚ)) ≤ s * max 1 (vscale * (nc : ℚ)) :=
    mul_le_mul_of_nonneg_left (le_trans h1 hM2) hs0
  have h3 : (1 - s) * 1 ≤ (1 - s) * max 1 (vscale * (nc : ℚ)) :=
    mul_le_mul_of_nonneg_left hM1 (by linarith)
  have hDM : denom s vscale umin umax ≤ max 1 (vscale * (nc : ℚ)) := by
    unfold denom
    nlinarith
  unfold timestep
  exact div_le_div_of_nonneg_left (by norm_num) hD hDM

/-! ## Loops that are known to have finished -/

theorem forLoop_finished {σ : Type} (body : Nat → σ → Option σ) (I : Nat → σ → Prop) :
    ∀ (n lo : Nat) (s s2 : σ), forLoop body lo n s = some s2 → I lo s →
    (∀ k s1 s3, lo ≤ k → k < lo + n → I k s1 → body k s1 = some s3 → I (k + 1) s3) →
    I (lo + n) s2 := by
  intro n
  induction n with
  | zero =>
    intro lo s s2 h h0 _
    have e : s = s2 := Option.some.inj h
    subst e
    exact h0
  | succ n ih =>
    intro lo s s2 h h0 hstep
    rw [forLoop] at h
    cases hb : body lo s with
    | none => rw [hb] at h; exact absurd h (by simp)
    | some s1 =>
      rw [hb] at h
      have := ih (lo + 1) s1 s2 h (hstep lo s s1 (Nat.le_refl _) (by omega) h0 hb)
        (fun k s3 s4 hk1 hk2 hI hb3 => hstep k s3 s4 (by omega) (by omega) hI hb3)
      rw [show lo + (n + 1) = lo + 1 + n by omega]
      exact this

theorem scanMinMax_finished (cur : List walker) (W : Nat) (umin umax : Int)
    (h : scanMinMax cur W = some (umin, umax)) :
    umin ≤ umax ∧ ∀ j, j < W → ∀ wk, cur[j]? = some wk → umin ≤ wk.unsat ∧ wk.unsat ≤ umax := by
  unfold scanMinMax at h
  split at h
  · exact absurd h (by simp)
  · rename_i c0 _
    have := forLoop_finished (scanStep cur)
      (fun k mm => mm.1 ≤ mm.2 ∧
        ∀ j, j < k → ∀ wk, cur[j]? = some wk → mm.1 ≤ wk.unsat ∧ wk.unsat ≤ mm.2)
      W 0 (c0.unsat, c0.unsat) (umin, umax) h ⟨le_refl _, by intro j hj; omega⟩
      (by
        rintro k ⟨mn, mx⟩ s3 _ _ ⟨hle, hall⟩ hb
        unfold scanStep at hb
        split at hb
        · exact absurd hb (by simp)
        · rename_i cw hcw
          have e : s3 = _ := (Option.some.inj hb).symm
          subst e
          simp only at hle hall ⊢
          refine ⟨by split <;> split <;> omega, ?_⟩
          intro j hj wk hwk
          by_cases hjk : j = k
          · subst hjk
            rw [hcw] at hwk
            have e : wk = cw := (Option.some.inj hwk).symm
            subst e
            split <;> split <;> omega
          · have := hall j (by omega) wk hwk
            split <;> split <;> omega)
    simpa using this

theorem walkIter_time (sat : Instance) (W : Nat) (duration vscale : ℚ) (st st1 : WalkState)
    (h : walkIter sat W duration vscale st = some st1) :
    ∃ umin umax, scanMinMax st.cur W = some (umin, umax) ∧
      st1.time = st.time + timestep (st.time / duration) vscale umin umax := by
  unfold walkIter at h
  simp only at h
  split at h
  · exact absurd h (by simp)
  · rename_i umin umax hscan
    split at h
    · exact absurd h (by simp)
    · split at h
      · exact absurd h (by simp)
      · have e : st1 = _ := (Option.some.inj h).symm
        subst e
        exact ⟨umin, umax, hscan, rfl⟩

theorem walkInit_time (sat : Instance) (W : Nat) (heap1 heap2 : Nat → walker) (g : Rng)
    (st0 : WalkState) (h : walkInit sat W heap1 heap2 g = some st0) :
    st0.time = 0 ∧ st0.winners = 0 := by
  unfold walkInit at h
  simp only at h
  split at h
  · exact absurd h (by simp)
  · have e : st0 = _ := (Option.some.inj h).symm
    subst e
    exact ⟨rfl, rfl⟩

/-- At the head of every pass of the `do` loop, `0 <= time < duration`. -/
theorem loopHead_time (sat : Instance) (W : Nat) (duration vscale : ℚ) (hd : 0 < duration)
    (hv : 0 ≤ vscale) (st0 : WalkState) (h0 : st0.time = 0) :
    ∀ (n : Nat) (st : WalkState), loopHead sat W duration vscale st0 n = some st →
      0 ≤ st.time ∧ st.time < duration := by
  intro n
  induction n with
  | zero =>
    intro st h
    have e : st0 = st := Option.some.inj h
    subst e
    rw [h0]
    exact ⟨le_refl _, hd⟩
  | succ n ih =>
    intro st1 h
    rw [loopHead] at h
    split at h
    · exact absurd h (by simp)
    · rename_i st hst
      split at h
      · exact absurd h (by simp)
      · rename_i st2 hst2
        split at h
        · rename_i hcond
          have e : st2 = st1 := Option.some.inj h
          subst e
          obtain ⟨ht0, ht1⟩ := ih st hst
          obtain ⟨umin, umax, hscan, htime⟩ := walkIter_time sat W duration vscale st st2 hst2
          obtain ⟨hmm, _⟩ := scanMinMax_finished st.cur W umin umax hscan
          have hs0 : 0 ≤ st.time / duration := div_nonneg ht0 (le_of_lt hd)
          have hs1 : st.time / duration < 1 := (div_lt_one hd).2 ht1
          have := timestep_pos (st.time / duration) vscale umin umax hs0 hs1 hv hmm
          exact ⟨by rw [htime]; linarith, hcond.1⟩
        · exact absurd h (by simp)



/-! ## Termination of the `do` loop -/

theorem violatedCount_bounds (sat : Instance) (bs : Bits) :
    0 ≤ violatedCount sat bs ∧ violatedCount sat bs ≤ (sat.clauses.length : Int) := by
  obtain ⟨h0, h1, _⟩ := sum_violated_bounds bs sat.clauses
  exact ⟨h0, h1⟩

/-- One pass of the `do` loop on a loaded instance with a consistent cache:
everything `walkIter_spec` and `walkIter_cache` give, and the bounds on the
population extremes. -/
theorem walkIter_full (B nc : Nat) (lines : List (List Int)) (sat : Instance)
    (h : loadsat (some (B, nc)) lines = .loaded sat) (hB1 : 1 ≤ B) (hB2 : B ≤ 256)
    (hrep : ∀ c ∈ sat.clauses, ∀ v : Int, c.vars.count v ≤ 2)
    (W : Nat) (hW : 1 ≤ W) (duration vscale : ℚ) (st : WalkState)
    (hc : st.cur.length = W) (hp : st.pro.length = W) (hinv : CacheOk sat st.cur) :
    ∃ st1 umin umax, walkIter sat W duration vscale st = some st1 ∧
      st1.cur.length = W ∧ st1.pro.length = W ∧ CacheOk sat st1.cur ∧
      st1.time = st.time + timestep (st.time / duration) vscale umin umax ∧
      umin ≤ umax ∧ umax - umin ≤ (nc : Int) := by
  obtain ⟨st1, hst1, hc1, hp1, hinv1⟩ :=
    walkIter_cache B nc lines sat h hB1 hB2 hrep W hW duration vscale st hc hp hinv
  obtain ⟨umin, umax, hscan, htime⟩ := walkIter_time sat W duration vscale st st1 hst1
  obtain ⟨umin1, umax1, hscan1, hmm, _, ⟨wmin, hwmin, hemin⟩, ⟨wmax, hwmax, hemax⟩⟩ :=
    scanMinMax_spec st.cur W hc hW
  rw [hscan] at hscan1
  have e := Option.some.inj hscan1
  have e1 : umin = umin1 := congrArg Prod.fst e
  have e2 : umax = umax1 := congrArg Prod.snd e
  subst e1
  subst e2
  obtain ⟨_, _, hcl, _, _, _, _⟩ := loadsat_loaded B nc lines sat h
  have b1 := violatedCount_bounds sat wmin.bs
  have b2 := violatedCount_bounds sat wmax.bs
  have i1 := hinv wmin hwmin
  have i2 := hinv wmax hwmax
  refine ⟨st1, umin, umax, hst1, hc1, hp1, hinv1, htime, hmm, ?_⟩
  rw [hcl] at b1 b2
  omega

theorem walkLoop_terminates (B nc : Nat) (lines : List (List Int)) (sat : Instance)
    (h : loadsat (some (B, nc)) lines = .loaded sat) (hB1 : 1 ≤ B) (hB2 : B ≤ 256)
    (hrep : ∀ c ∈ sat.clauses, ∀ v : Int, c.vars.count v ≤ 2)
    (W : Nat) (hW : 1 ≤ W) (duration vscale : ℚ) (hd : 0 < duration) (hv : 0 ≤ vscale) :
    ∀ (fuel : Nat) (st : WalkState), st.cur.length = W → st.pro.length = W →
      CacheOk sat st.cur → 0 ≤ st.time → st.time < duration →
      duration - st.time ≤ (fuel : ℚ) * ((99 / 100) / max 1 (vscale * (nc : ℚ))) →
      ∃ st1, walkLoop sat W duration vscale fuel st = some st1 := by
  intro fuel
  induction fuel with
  | zero =>
    intro st _ _ _ _ ht1 hfuel
    simp only [Nat.cast_zero, zero_mul] at hfuel
    linarith
  | succ fuel ih =>
    intro st hc hp hinv ht0 ht1 hfuel
    obtain ⟨st1, umin, umax, hst1, hc1, hp1, hinv1, htime, hmm, hspread⟩ :=
      walkIter_full B nc lines sat h hB1 hB2 hrep W hW duration vscale st hc hp hinv
    have hs0 : 0 ≤ st.time / duration := div_nonneg ht0 (le_of_lt hd)
    have hs1 : st.time / duration < 1 := (div_lt_one hd).2 ht1
    have hlow := timestep_lower (st.time / duration) vscale umin umax nc hs0 hs1 hv hmm hspread
    have hpos := timestep_pos (st.time / duration) vscale umin umax hs0 hs1 hv hmm
    rw [walkLoop, hst1]
    simp only
    split
    · rename_i hcond
      apply ih st1 hc1 hp1 hinv1 (by rw [htime]; linarith) hcond.1
      rw [htime]
      push_cast at hfuel
      linarith
    · exact ⟨st1, rfl⟩

theorem walk_terminates (B nc : Nat) (lines : List (List Int)) (sat : Instance)
    (h : loadsat (some (B, nc)) lines = .loaded sat) (hB1 : 1 ≤ B) (hB2 : B ≤ 256)
    (hrep : ∀ c ∈ sat.clauses, ∀ v : Int, c.vars.count v ≤ 2)
    (W : Nat) (hW : 1 ≤ W) (duration vscale : ℚ) (hd : 0 < duration) (hv : 0 ≤ vscale)
    (heap1 heap2 : Nat → walker) (g : Rng) :
    ∃ st, walk ⌈duration / ((99 / 100) / max 1 (vscale * (nc : ℚ)))⌉₊ W duration vscale sat
      heap1 heap2 g = some st := by
  obtain ⟨st0, hst0, hc0, hp0, hinv0, ht0, _⟩ := walkInit_spec B nc lines sat h hB2 W heap1 heap2 g
  have hM : (0 : ℚ) < max 1 (vscale * (nc : ℚ)) := lt_of_lt_of_le one_pos (le_max_left _ _)
  have hδ : (0 : ℚ) < (99 / 100) / max 1 (vscale * (nc : ℚ)) := div_pos (by norm_num) hM
  have hceil := Nat.le_ceil (duration / ((99 / 100) / max 1 (vscale * (nc : ℚ))))
  rw [div_le_iff₀ hδ] at hceil
  unfold walk
  rw [hst0]
  exact walkLoop_terminates B nc lines sat h hB1 hB2 hrep W hW duration vscale hd hv _ st0
    hc0 hp0 hinv0 (by rw [ht0]) (by rw [ht0]; exact hd) (by rw [ht0]; linarith)

theorem walk_cache (B nc : Nat) (lines : List (List Int)) (sat : Instance)
    (h : loadsat (some (B, nc)) lines = .loaded sat) (hB1 : 1 ≤ B) (hB2 : B ≤ 256)
    (hrep : ∀ c ∈ sat.clauses, ∀ v : Int, c.vars.count v ≤ 2)
    (W : Nat) (hW : 1 ≤ W) (duration vscale : ℚ)
    (heap1 heap2 : Nat → walker) (g : Rng) (fuel : Nat) (st : WalkState)
    (hrun : walk fuel W duration vscale sat heap1 heap2 g = some st) :
    st.cur.length = W ∧ CacheOk sat st.cur := by
  obtain ⟨st0, hst0, hc0, hp0, hinv0, _, _⟩ := walkInit_spec B nc lines sat h hB2 W heap1 heap2 g
  unfold walk at hrun
  rw [hst0] at hrun
  exact walkLoop_cache B nc lines sat h hB1 hB2 hrep W hW duration vscale fuel st0 st
    hc0 hp0 hinv0 hrun

theorem mem_printedSolutions (st : WalkState) (bs : Bits) (h : bs ∈ printedSolutions st) :
    ∃ wk ∈ st.cur, wk.unsat = 0 ∧ wk.bs = bs := by
  unfold printedSolutions at h
  split at h
  · rw [List.mem_map] at h
    obtain ⟨wk, hwk, e⟩ := h
    rw [List.mem_filter] at hwk
    exact ⟨wk, hwk.1, by simpa using hwk.2, e⟩
  · exact absurd h (by simp)

/-- C1. Soundness of a reported solution: on an instance built by `loadsat`
with `1 <= B <= 256` whose clauses each mention pairwise distinct variables,
for every `W >= 1`, `duration > 0`, `vscale >= 0`, every initial heap content
and every stream of random draws, `walk` leaves its loop (with enough fuel),
and every bit vector it prints as a solution violates no clause of the
instance under direct literal evaluation. -/
theorem walk_solutions_sound (B nc : Nat) (lines : List (List Int)) (sat : Instance)
    (h : loadsat (some (B, nc)) lines = .loaded sat) (hB1 : 1 ≤ B) (hB2 : B ≤ 256)
    (hdistinct : ∀ c ∈ sat.clauses, c.vars.Nodup)
    (W : Nat) (hW : 1 ≤ W) (duration vscale : ℚ) (hd : 0 < duration) (hv : 0 ≤ vscale)
    (heap1 heap2 : Nat → walker) (g : Rng) :
    (∃ fuel st, walk fuel W duration vscale sat heap1 heap2 g = some st) ∧
    ∀ fuel st, walk fuel W duration vscale sat heap1 heap2 g = some st →
      ∀ bs ∈ printedSolutions st, ∀ c ∈ sat.clauses, clauseViolated bs c = false := by
  have hrep := count_le_two_of_nodup sat hdistinct
  refine ⟨⟨_, walk_terminates B nc lines sat h hB1 hB2 hrep W hW duration vscale hd hv
    heap1 heap2 g⟩, ?_⟩
  intro fuel st hrun bs hbs c hc
  obtain ⟨_, hinv⟩ := walk_cache B nc lines sat h hB1 hB2 hrep W hW duration vscale
    heap1 heap2 g fuel st hrun
  obtain ⟨wk, hwk, hz, rfl⟩ := mem_printedSolutions st bs hbs
  have hcount : violatedCount sat wk.bs = 0 := by rw [← hinv wk hwk, hz]
  obtain ⟨_, _, hzero⟩ := sum_violated_bounds wk.bs sat.clauses
  have hv0 : violated wk.bs c = 0 := hzero hcount c hc
  obtain ⟨_, _, _, _, hall, hr, _⟩ := loadsat_loaded B nc lines sat h
  obtain ⟨x, _, hx⟩ := hall c hc
  have hlit := violated_literal_lemma x c hx
    (fun v hv1 => by have := hr c hc v hv1; omega) (hdistinct c hc) wk.bs
  rw [hv0] at hlit
  by_contra hne
  rw [if_pos (by simpa using hne)] at hlit
  exact absurd hlit (by decide)



/-! ## Loop heads and the loop -/

theorem loopHead_shift (sat : Instance) (W : Nat) (duration vscale : ℚ) (st0 st1 : WalkState)
    (hiter : walkIter sat W duration vscale st0 = some st1)
    (hcond : st1.time < duration ∧ st1.winners = 0) :
    ∀ n, loopHead sat W duration vscale st0 (n + 1) = loopHead sat W duration vscale st1 n := by
  intro n
  induction n with
  | zero =>
    simp only [loopHead, hiter, if_pos hcond]
  | succ n ih =>
    rw [loopHead, ih]
    rfl

/-- Every run of the `do` loop that ends does so in a pass that starts at one of the loop heads. -/
theorem walkLoop_heads (sat : Instance) (W : Nat) (duration vscale : ℚ) :
    ∀ (fuel : Nat) (st0 st2 : WalkState), walkLoop sat W duration vscale fuel st0 = some st2 →
      ∃ n st, n < fuel ∧ loopHead sat W duration vscale st0 n = some st ∧
        walkIter sat W duration vscale st = some st2 ∧
        ¬ (st2.time < duration ∧ st2.winners = 0) := by
  intro fuel
  induction fuel with
  | zero =>
    intro st0 st2 h
    exact absurd h (by simp [walkLoop])
  | succ fuel ih =>
    intro st0 st2 h
    rw [walkLoop] at h
    split at h
    · exact absurd h (by simp)
    · rename_i st1 hst1
      split at h
      · rename_i hcond
        obtain ⟨n, st, hn, hhead, hiter, hstop⟩ := ih st1 st2 h
        refine ⟨n + 1, st, by omega, ?_, hiter, hstop⟩
        rw [loopHead_shift sat W duration vscale st0 st1 hst1 hcond]
        exact hhead
      · rename_i hcond
        have e : st1 = st2 := Option.some.inj h
        subst e
        exact ⟨0, st0, by omega, rfl, hst1, hcond⟩

/-! ## Claims on the timestep, `tern` and `teleport` -/

/-- C5. Probability bound: for every `s` in `[0,1)`, every `vscale >= 0` and
every non-empty population, the scan finds `umin` and `umax` (the least and the
greatest `unsat`), and with `dt = 0.99/(1 - s + s*vscale*(umax-umin))` every
walker satisfies `phop + ptel <= 0.99`. -/
theorem probability_bound (s vscale : ℚ) (hs0 : 0 ≤ s) (hs1 : s < 1) (hv : 0 ≤ vscale)
    (cur : List walker) (W : Nat) (hW : 1 ≤ W) (hc : cur.length = W) :
    ∃ umin umax, scanMinMax cur W = some (umin, umax) ∧
      (∀ wk ∈ cur, umin ≤ wk.unsat ∧ wk.unsat ≤ umax) ∧
      (∃ wk ∈ cur, wk.unsat = umin) ∧ (∃ wk ∈ cur, wk.unsat = umax) ∧
      ∀ wk ∈ cur,
        phop s (timestep s vscale umin umax) +
          ptel (timestep s vscale umin umax) s vscale wk.unsat umin ≤ 99 / 100 := by
  obtain ⟨umin, umax, hscan, _, hall, hmin, hmax⟩ := scanMinMax_spec cur W hc hW
  refine ⟨umin, umax, hscan, hall, hmin, hmax, ?_⟩
  intro wk hwk
  obtain ⟨hlo, hhi⟩ := hall wk hwk
  exact (prob_bounds s vscale umin umax wk.unsat hs0 hs1 hv hlo hhi).2.2

theorem probability_bound_witness :
    ∃ umin umax, scanMinMax sampleState.cur 2 = some (umin, umax) ∧
      (∀ wk ∈ sampleState.cur, umin ≤ wk.unsat ∧ wk.unsat ≤ umax) ∧
      (∃ wk ∈ sampleState.cur, wk.unsat = umin) ∧ (∃ wk ∈ sampleState.cur, wk.unsat = umax) ∧
      ∀ wk ∈ sampleState.cur,
        phop (1 / 2) (timestep (1 / 2) 25 umin umax) +
          ptel (timestep (1 / 2) 25 umin umax) (1 / 2) 25 wk.unsat umin ≤ 99 / 100 :=
  probability_bound (1 / 2) 25 (by norm_num) (by norm_num) (by norm_num) sampleState.cur 2
    (by decide) (by decide)

/-- C6. The invalid-probability branch of `tern` is unreachable from `walk`:
at the head of every pass of the `do` loop of a walk started with
`duration > 0`, `vscale >= 0` and `W >= 1`, the adiabatic parameter satisfies
`0 <= s < 1`; the denominator computed from the scanned extremes is strictly
positive; and for every walker the arguments passed to `tern` satisfy
`phop >= 0`, `ptel >= 0`, `phop + ptel <= 1`, so the guard of `tern` is false. -/
theorem tern_invalid_unreachable (sat : Instance) (W : Nat) (duration vscale : ℚ)
    (hd : 0 < duration) (hv : 0 ≤ vscale) (hW : 1 ≤ W)
    (heap1 heap2 : Nat → walker) (g : Rng) (st0 : WalkState)
    (hinit : walkInit sat W heap1 heap2 g = some st0) (n : Nat) (st : WalkState)
    (hhead : loopHead sat W duration vscale st0 n = some st) :
    0 ≤ st.time / duration ∧ st.time / duration < 1 ∧
    ∀ umin umax, scanMinMax st.cur W = some (umin, umax) →
      0 < denom (st.time / duration) vscale umin umax ∧
      ∀ w wk, w < W → st.cur[w]? = some wk →
        0 ≤ phop (st.time / duration) (timestep (st.time / duration) vscale umin umax) ∧
        0 ≤ ptel (timestep (st.time / duration) vscale umin umax) (st.time / duration) vscale
          wk.unsat umin ∧
        phop (st.time / duration) (timestep (st.time / duration) vscale umin umax) +
          ptel (timestep (st.time / duration) vscale umin umax) (st.time / duration) vscale
            wk.unsat umin ≤ 1 ∧
        ¬ ternInvalid (phop (st.time / duration) (timestep (st.time / duration) vscale umin umax))
          (ptel (timestep (st.time / duration) vscale umin umax) (st.time / duration) vscale
            wk.unsat umin) := by
  have _hW := hW
  obtain ⟨h0, _⟩ := walkInit_time sat W heap1 heap2 g st0 hinit
  obtain ⟨ht0, ht1⟩ := loopHead_time sat W duration vscale hd hv st0 h0 n st hhead
  have hs0 : 0 ≤ st.time / duration := div_nonneg ht0 (le_of_lt hd)
  have hs1 : st.time / duration < 1 := (div_lt_one hd).2 ht1
  refine ⟨hs0, hs1, ?_⟩
  intro umin umax hscan
  obtain ⟨hmm, hall⟩ := scanMinMax_finished st.cur W umin umax hscan
  refine ⟨denom_pos _ vscale umin umax hs0 hs1 hv hmm, ?_⟩
  intro w wk hw hwk
  obtain ⟨hlo, hhi⟩ := hall w hw wk hwk
  obtain ⟨p1, p2, p3⟩ := prob_bounds (st.time / duration) vscale umin umax wk.unsat hs0 hs1 hv hlo hhi
  refine ⟨p1, p2, by linarith, ?_⟩
  unfold ternInvalid
  push_neg
  exact ⟨p1, p2, by linarith⟩

/-- C7. Teleport: for walker arrays `cur` and `pro` of length `W >= 1`, every
`w < W` and every draw, `teleport` is defined and there is an index `d < W`
such that afterwards `pro[w]` has the four words and the `unsat` of the
pre-call `cur[d]`; `cur` is unchanged and so is every `pro[j]` with `j != w`. -/
theorem teleport_frame (cur pro : List walker) (W : Nat) (hW : 1 ≤ W)
    (hc : cur.length = W) (hp : pro.length = W) (w : Nat) (hw : w < W) (B : Int) (g : Rng) :
    ∃ cur1 pro1 g1 d cd pw1, teleport cur pro w (W : Int) B g = some (cur1, pro1, g1) ∧
      d < W ∧ cur[d]? = some cd ∧ pro1[w]? = some pw1 ∧
      pw1.bs.w0 = cd.bs.w0 ∧ pw1.bs.w1 = cd.bs.w1 ∧ pw1.bs.w2 = cd.bs.w2 ∧
      pw1.bs.w3 = cd.bs.w3 ∧ pw1.unsat = cd.unsat ∧
      cur1 = cur ∧ pro1.length = W ∧ ∀ j, j ≠ w → pro1[j]? = pro[j]? := by
  have _hW := hW
  obtain ⟨d, cd, g1, hd, hcd, ht⟩ := teleport_spec cur pro w W B g hc hp hw
  refine ⟨cur, pro.set w cd, g1, d, cd, cd, ht, hd, hcd, ?_, rfl, rfl, rfl, rfl, rfl, rfl,
    by simp [hp], ?_⟩
  · rw [List.getElem?_set_self (by omega)]
  · intro j hj
    rw [List.getElem?_set_ne (Ne.symm hj)]

theorem teleport_frame_witness :
    ∃ cur1 pro1 g1 d cd pw1,
      teleport sampleState.cur sampleState.pro 1 ((2 : Nat) : Int) 3 sampleRng
        = some (cur1, pro1, g1) ∧
      d < 2 ∧ sampleState.cur[d]? = some cd ∧ pro1[1]? = some pw1 ∧
      pw1.bs.w0 = cd.bs.w0 ∧ pw1.bs.w1 = cd.bs.w1 ∧ pw1.bs.w2 = cd.bs.w2 ∧
      pw1.bs.w3 = cd.bs.w3 ∧ pw1.unsat = cd.unsat ∧
      cur1 = sampleState.cur ∧ pro1.length = 2 ∧ ∀ j, j ≠ 1 → pro1[j]? = sampleState.pro[j]? :=
  teleport_frame sampleState.cur sampleState.pro 2 (by decide) (by decide) (by decide) 1
    (by decide) 3 sampleRng



/-! ## Instances of the claims on the sample data -/

theorem walk_solutions_sound_witness :
    (∃ fuel st, walk fuel 2 20 25 sampleInstance sampleHeap sampleHeap sampleRng = some st) ∧
    ∀ fuel st, walk fuel 2 20 25 sampleInstance sampleHeap sampleHeap sampleRng = some st →
      ∀ bs ∈ printedSolutions st, ∀ c ∈ sampleInstance.clauses, clauseViolated bs c = false :=
  walk_solutions_sound 3 2 sampleLines sampleInstance (by decide) (by decide) (by decide)
    (by decide) 2 (by decide) 20 25 (by norm_num) (by norm_num) sampleHeap sampleHeap sampleRng

theorem cache_invariant_iteration_witness :
    ∃ st1, walkIter sampleInstance 2 20 25 sampleState = some st1 ∧
      st1.cur.length = 2 ∧ st1.pro.length = 2 ∧ CacheOk sampleInstance st1.cur :=
  cache_invariant_iteration 3 2 sampleLines sampleInstance (by decide) (by decide) (by decide)
    (by decide) 2 (by decide) 20 25 sampleState (by decide) (by decide)
    (by unfold CacheOk; decide)

/-- C3 fails through a defect of the code: the lines `1 1 1 0`, `2 0`, `2 0`
load without fault; the all-zero walker violates all three clauses and carries
`unsat = 3`; `hop` flips bit 0 and walks the presence list of variable 0,
which names clause 0 three times, so it stores `unsat = 3 - 3 = 0`, while the
new assignment still violates the two clauses on `x2`. -/
theorem triple_literal_breaks_hop :
    loadsat (some (2, 3)) [[1, 1, 1, 0], [2, 0], [2, 0]] = .loaded tripleInstance ∧
      (3 : Int) = violatedCount tripleInstance ⟨0, 0, 0, 0⟩ ∧
      (hop ⟨⟨0, 0, 0, 0⟩, 3⟩ ⟨⟨0, 0, 0, 0⟩, 0⟩ tripleInstance ⟨fun _ => 0, 0⟩).map
        (fun r => r.2.1) = some ⟨⟨1, 0, 0, 0⟩, 0⟩ ∧
      violatedCount tripleInstance ⟨1, 0, 0, 0⟩ = 2 := by
  refine ⟨by decide, by decide, by decide, by decide⟩

theorem hop_consistency_witness :
    ∃ pro1, hop ⟨⟨0, 0, 0, 0⟩, 2⟩ ⟨⟨0, 0, 0, 0⟩, 0⟩ doubleInstance ⟨fun _ => 0, 0⟩
        = some (⟨⟨0, 0, 0, 0⟩, 2⟩, pro1, (rand ⟨fun _ => 0, 0⟩).2) ∧
      pro1.bs = (⟨0, 0, 0, 0⟩ : Bits).toggle ((rand ⟨fun _ => 0, 0⟩).1 % 2) ∧
      pro1.unsat = violatedCount doubleInstance pro1.bs :=
  hop_consistency 2 3 [[1, 1, 2, 0], [2, 0], [-1, 0]] doubleInstance (by decide) (by decide)
    (by decide) (by decide) ⟨⟨0, 0, 0, 0⟩, 2⟩ ⟨⟨0, 0, 0, 0⟩, 0⟩ ⟨fun _ => 0, 0⟩ (by decide)

theorem tern_invalid_unreachable_witness :
    ∃ st0, walkInit sampleInstance 2 sampleHeap sampleHeap sampleRng = some st0 ∧
      (0 ≤ st0.time / 20 ∧ st0.time / 20 < 1 ∧
      ∀ umin umax, scanMinMax st0.cur 2 = some (umin, umax) →
        0 < denom (st0.time / 20) 25 umin umax ∧
        ∀ w wk, w < 2 → st0.cur[w]? = some wk →
          0 ≤ phop (st0.time / 20) (timestep (st0.time / 20) 25 umin umax) ∧
          0 ≤ ptel (timestep (st0.time / 20) 25 umin umax) (st0.time / 20) 25 wk.unsat umin ∧
          phop (st0.time / 20) (timestep (st0.time / 20) 25 umin umax) +
            ptel (timestep (st0.time / 20) 25 umin umax) (st0.time / 20) 25 wk.unsat umin ≤ 1 ∧
          ¬ ternInvalid (phop (st0.time / 20) (timestep (st0.time / 20) 25 umin umax))
            (ptel (timestep (st0.time / 20) 25 umin umax) (st0.time / 20) 25 wk.unsat umin)) := by
  obtain ⟨st0, h0, _⟩ := walkInit_spec 3 2 sampleLines sampleInstance sample_loaded (by decide)
    2 sampleHeap sampleHeap sampleRng
  exact ⟨st0, h0, tern_invalid_unreachable sampleInstance 2 20 25 (by norm_num) (by norm_num)
    (by decide) sampleHeap sampleHeap sampleRng st0 h0 0 st0 rfl⟩


/-! ## Loading a well-formed file succeeds -/

theorem flip_val_total (bs : Bits) (v : Int) (h0 : 0 ≤ v) : ∃ b, (flip bs v 256).val? = some b := by
  by_cases h : v < 256
  · exact ⟨_, flip_val_inRange bs v h0 h⟩
  · refine ⟨bs, ?_⟩
    unfold flip
    rw [if_pos (by omega)]
    rfl

theorem maskLoop_total : ∀ (vs ns : List Int) (acc : Bits × Bits), (∀ v ∈ vs, 0 ≤ v) →
    ∃ r, maskLoop vs ns acc = some r := by
  intro vs
  induction vs with
  | nil =>
    intro ns acc _
    exact ⟨acc, by cases ns <;> rfl⟩
  | cons v vs ih =>
    intro ns acc hr
    cases ns with
    | nil => exact ⟨acc, rfl⟩
    | cons n ns =>
      obtain ⟨bm, nm⟩ := acc
      have hv := hr v (List.mem_cons_self _ _)
      obtain ⟨bm1, hbm1⟩ := flip_val_total bm v hv
      obtain ⟨nm1, hnm1⟩ : ∃ nm1, (if n ≠ 0 then (flip nm v 256).val? else some nm) = some nm1 := by
        split
        · exact flip_val_total nm v hv
        · exact ⟨nm, rfl⟩
      obtain ⟨r, hr1⟩ := ih ns (bm1, nm1) (fun u hu => hr u (List.mem_cons_of_mem _ hu))
      refine ⟨r, ?_⟩
      simp only [maskLoop, hbm1, hnm1, hr1]

theorem loadClause_total (x : List Int) (hlen : 1 ≤ x.length ∧ x.length ≤ 4)
    (hlit : ∀ l ∈ x.take (x.length - 1), l ≠ 0) : ∃ c, loadClause x = some c := by
  obtain ⟨⟨bm, nm⟩, hm⟩ := maskLoop_total
    ((x.take (x.length - 1)).map (fun xj => |xj| - 1))
    ((x.take (x.length - 1)).map (fun xj => if xj < 0 then (1 : Int) else 0))
    (zeroBits, zeroBits)
    (by
      intro v hv
      rw [List.mem_map] at hv
      obtain ⟨l, hl, rfl⟩ := hv
      have := abs_pos.2 (hlit l hl)
      omega)
  unfold loadClause
  rw [if_neg (by omega)]
  simp only [hm]
  exact ⟨_, rfl⟩

theorem loadClauses_total : ∀ (lines : List (List Int)),
    (∀ x ∈ lines, 1 ≤ x.length ∧ x.length ≤ 4) →
    (∀ x ∈ lines, ∀ l ∈ x.take (x.length - 1), l ≠ 0) →
    ∃ cs, loadClauses lines = some cs := by
  intro lines
  induction lines with
  | nil => intro _ _; exact ⟨[], rfl⟩
  | cons x xs ih =>
    intro hs hl
    obtain ⟨c, hc⟩ := loadClause_total x (hs x (List.mem_cons_self _ _))
      (hl x (List.mem_cons_self _ _))
    obtain ⟨cs, hcs⟩ := ih (fun y hy => hs y (List.mem_cons_of_mem _ hy))
      (fun y hy => hl y (List.mem_cons_of_mem _ hy))
    exact ⟨c :: cs, by simp only [loadClauses, hc, hcs]⟩

theorem presenceInner_total (i : Nat) : ∀ (vs : List Int) (pres : List contain) (nc bound : Nat),
    vs.Nodup → (∀ v ∈ vs, 0 ≤ v ∧ v < (pres.length : Int)) → bound < nc →
    (∀ (a : Nat) (c : contain), pres[a]? = some c → c.list.length = nc ∧ (((a : Nat) : Int) ∈ vs → c.num ≤ bound) ∧
      c.num ≤ bound + 1) →
    ∃ pres1, presenceInner i vs pres = some pres1 ∧ pres1.length = pres.length ∧
      ∀ (a : Nat) (c : contain), pres1[a]? = some c → c.list.length = nc ∧ c.num ≤ bound + 1 := by
  intro vs
  induction vs with
  | nil =>
    intro pres nc bound _ _ _ h
    exact ⟨pres, rfl, rfl, fun a c hc => ⟨(h a c hc).1, (h a c hc).2.2⟩⟩
  | cons v vs ih =>
    intro pres nc bound hd hr hb h
    have hv := hr v (List.mem_cons_self _ _)
    have hlt : v.toNat < pres.length := by omega
    have hcell : pres[v.toNat]? = some pres[v.toNat] := List.getElem?_eq_getElem hlt
    obtain ⟨hlen, hnum, _⟩ := h _ _ hcell
    have hnum1 : (pres[v.toNat]).num ≤ bound :=
      hnum (by rw [Int.toNat_of_nonneg hv.1]; exact List.mem_cons_self _ _)
    have hstep : presenceStep i pres v = some (pres.set v.toNat
        ⟨(pres[v.toNat]).num + 1, (pres[v.toNat]).list.set (pres[v.toNat]).num i⟩) := by
      unfold presenceStep
      rw [if_neg (by omega), hcell]
      simp only
      rw [if_pos (by omega)]
    obtain ⟨pres1, hp1, hl1, hall1⟩ := ih (pres.set v.toNat
        ⟨(pres[v.toNat]).num + 1, (pres[v.toNat]).list.set (pres[v.toNat]).num i⟩) nc bound
      (List.nodup_cons.1 hd).2
      (by
        intro u hu
        have := hr u (List.mem_cons_of_mem _ hu)
        simp only [List.length_set]
        exact this)
      hb
      (by
        intro a c hc
        by_cases ha : a = v.toNat
        · subst ha
          rw [List.getElem?_set_self hlt] at hc
          have e : c = _ := (Option.some.inj hc).symm
          subst e
          refine ⟨by simp [hlen], ?_, by simp only; omega⟩
          intro hmem
          rw [Int.toNat_of_nonneg hv.1] at hmem
          exact absurd hmem (List.nodup_cons.1 hd).1
        · rw [List.getElem?_set_ne (Ne.symm ha)] at hc
          obtain ⟨h1, h2, h3⟩ := h a c hc
          exact ⟨h1, fun hm => h2 (List.mem_cons_of_mem _ hm), h3⟩)
    refine ⟨pres1, ?_, by rw [hl1]; simp, hall1⟩
    simp only [presenceInner, hstep, hp1]

theorem presenceOuter_total (nc : Nat) : ∀ (cs : List clause) (i : Nat) (pres : List contain),
    i + cs.length ≤ nc →
    (∀ c ∈ cs, (c.vars.take c.numvars).Nodup ∧
      ∀ v ∈ c.vars.take c.numvars, 0 ≤ v ∧ v < (pres.length : Int)) →
    (∀ (a : Nat) (c : contain), pres[a]? = some c → c.list.length = nc ∧ c.num ≤ i) →
    ∃ pres1, presenceOuter cs i pres = some pres1 := by
  intro cs
  induction cs with
  | nil => intro i pres _ _ _; exact ⟨pres, rfl⟩
  | cons c cs ih =>
    intro i pres hi hc h
    obtain ⟨hd, hr⟩ := hc c (List.mem_cons_self _ _)
    have hlen : i + 1 + cs.length ≤ nc := by
      simp only [List.length_cons] at hi
      omega
    obtain ⟨p, hp, hpl, hall⟩ := presenceInner_total i _ pres nc i hd hr (by omega)
      (fun a c1 hc1 => ⟨(h a c1 hc1).1, fun _ => (h a c1 hc1).2, by have := (h a c1 hc1).2; omega⟩)
    obtain ⟨pres1, hp1⟩ := ih (i + 1) p hlen
      (fun c1 hc1 => by
        rw [hpl]
        exact hc c1 (List.mem_cons_of_mem _ hc1))
      hall
    exact ⟨pres1, by simp only [presenceOuter, hp, hp1]⟩

/-- `loadsat` succeeds on every file whose header counts the clause lines,
whose lines hold one to three non-zero literals over variables `1..B`
followed by one more integer, and whose lines each mention pairwise distinct
variables. -/
theorem loadsat_total (B nc : Nat) (lines : List (List Int)) (hn : lines.length = nc)
    (hshape : ∀ x ∈ lines, 1 ≤ x.length ∧ x.length ≤ 4)
    (hlits : ∀ x ∈ lines, ∀ l ∈ x.take (x.length - 1), 1 ≤ |l| ∧ |l| ≤ (B : Int))
    (hdist : ∀ x ∈ lines, ((x.take (x.length - 1)).map (fun xj => |xj| - 1)).Nodup) :
    ∃ sat, loadsat (some (B, nc)) lines = .loaded sat := by
  obtain ⟨cs, hcs⟩ := loadClauses_total lines hshape
    (fun x hx l hl => by
      have := (hlits x hx l hl).1
      intro h0
      rw [h0] at this
      simp at this)
  obtain ⟨hcl, hall⟩ := loadClauses_forall lines cs hcs
  obtain ⟨pres, hpres⟩ := presenceOuter_total nc cs 0 (presenceInit B nc) (by omega)
    (by
      intro c hc
      obtain ⟨x, hx, hxc⟩ := hall c hc
      obtain ⟨hvl, _, _, hnv, hvars, _, _⟩ := loadClause_shape x c hxc
      have hnv1 : c.numvars = x.length - 1 := by omega
      rw [List.take_of_length_le (by omega), hvars, hnv1]
      refine ⟨hdist x hx, ?_⟩
      intro v hv
      rw [List.mem_map] at hv
      obtain ⟨l, hl, rfl⟩ := hv
      have := hlits x hx l hl
      simp only [presenceInit, List.length_replicate]
      omega)
    (by
      intro a c hc
      unfold presenceInit at hc
      rw [List.getElem?_replicate] at hc
      split at hc
      · have e : c = _ := (Option.some.inj hc).symm
        subst e
        simp
      · exact absurd hc (by simp))
  refine ⟨⟨cs, nc, B, pres⟩, ?_⟩
  unfold loadsat
  simp only [hn, hcs, hpres, ne_eq, not_true_eq_false, if_false]

/-! ## The random primitives -/

/-- C20. Range and saturation of `randint`: for every `n > RAND_MAX` the call
returns `RAND_MAX` and leaves the generator as it was; for every
`1 <= n <= RAND_MAX` it consumes one draw and returns a value in `[0,n)`. -/
theorem randint_range_and_saturation :
    (∀ (n : Int) (g : Rng), n > (RAND_MAX : Int) → randint n g = some ((RAND_MAX : Int), g)) ∧
    (∀ (n : Int) (g : Rng), 1 ≤ n → n ≤ (RAND_MAX : Int) →
      ∃ v, randint n g = some (v, (rand g).2) ∧ 0 ≤ v ∧ v < n ∧
        (rand g).2.pos = g.pos + 1) := by
  constructor
  · intro n g h
    unfold randint
    rw [if_pos h]
  · intro n g h1 h2
    obtain ⟨m, rfl⟩ := Int.eq_ofNat_of_zero_le (by omega : 0 ≤ n)
    refine ⟨_, randint_inRange m g (by omega) h2, by omega, ?_, rfl⟩
    have := Nat.mod_lt (rand g).1 (by omega : 0 < m)
    omega

theorem randint_range_and_saturation_witness :
    randint ((RAND_MAX : Int) + 5) sampleRng = some ((RAND_MAX : Int), sampleRng) ∧
    ∃ v, randint 3 sampleRng = some (v, (rand sampleRng).2) ∧ 0 ≤ v ∧ v < 3 ∧
      (rand sampleRng).2.pos = sampleRng.pos + 1 :=
  ⟨randint_range_and_saturation.1 _ sampleRng (by omega),
   randint_range_and_saturation.2 3 sampleRng (by decide) (by decide)⟩

theorem rand_const (r : Nat) (hr : r < RAND_MAX + 1) : (rand ⟨fun _ => r, 0⟩).1 = r := by
  unfold rand
  exact Nat.mod_eq_of_lt hr

theorem count_congr_below (p q : Nat → Prop) [DecidablePred p] [DecidablePred q] :
    ∀ N : Nat, (∀ r, r < N → (p r ↔ q r)) → Nat.count p N = Nat.count q N := by
  intro N
  induction N with
  | zero => intro _; simp
  | succ N ih =>
    intro h
    rw [Nat.count_succ, Nat.count_succ, ih (fun r hr => h r (by omega))]
    by_cases hp : p N
    · have hq : q N := (h N (by omega)).1 hp
      simp [hp, hq]
    · have hq : ¬ q N := fun hq => hp ((h N (by omega)).2 hq)
      simp [hp, hq]

/-- The number of raw draws that `randint(n)` maps to `k`, for `1 <= n <= RAND_MAX` and `k < n`. -/
theorem randintHits_eq (n k : Nat) (h1 : 1 ≤ n) (h2 : (n : Int) ≤ (RAND_MAX : Int)) (hk : k < n) :
    randintHits (n : Int) (k : Int) =
      (RAND_MAX + 1) / n + if k < (RAND_MAX + 1) % n then 1 else 0 := by
  have hcount := Nat.count_modEq_card (RAND_MAX + 1) (by omega : 0 < n) k
  rw [Nat.mod_eq_of_lt hk] at hcount
  rw [← hcount]
  unfold randintHits
  apply count_congr_below
  intro r hr
  rw [randint_inRange n _ h1 h2, rand_const r hr]
  simp only [Option.map_some', Option.some.injEq]
  unfold Nat.ModEq
  rw [Nat.mod_eq_of_lt hk]
  constructor
  · intro h; exact_mod_cast h
  · intro h; exact_mod_cast h

/-- C19 at `n = 3`: of the `RAND_MAX + 1 = 2^31` raw draws, `randint(3)` maps
715827883 to the value 0 and only 715827882 to the value 2. -/
theorem randint_three_is_biased :
    randintHits 3 0 = 715827883 ∧ randintHits 3 2 = 715827882 := by
  have h0 := randintHits_eq 3 0 (by decide) (by decide) (by decide)
  have h2 := randintHits_eq 3 2 (by decide) (by decide) (by decide)
  refine ⟨?_, ?_⟩
  · rw [show ((3 : Int)) = ((3 : Nat) : Int) from rfl, show ((0 : Int)) = ((0 : Nat) : Int) from rfl,
      h0]
    decide
  · rw [show ((3 : Int)) = ((3 : Nat) : Int) from rfl, show ((2 : Int)) = ((2 : Nat) : Int) from rfl,
      h2]
    decide

/-- For every `1 <= n <= RAND_MAX`, two values below `n` are hit by numbers of
raw draws that differ by at most one, and by the same number when `n` divides `RAND_MAX + 1`. -/
theorem randintHits_near_uniform (n k1 k2 : Nat) (h1 : 1 ≤ n) (h2 : (n : Int) ≤ (RAND_MAX : Int))
    (hk1 : k1 < n) (hk2 : k2 < n) :
    randintHits (n : Int) (k1 : Int) ≤ randintHits (n : Int) (k2 : Int) + 1 ∧
    ((RAND_MAX + 1) % n = 0 → randintHits (n : Int) (k1 : Int) = randintHits (n : Int) (k2 : Int)) := by
  rw [randintHits_eq n k1 h1 h2 hk1, randintHits_eq n k2 h1 h2 hk2]
  constructor
  · split <;> split <;> omega
  · intro h0
    rw [h0]
    simp

/-! ## The mask subset property -/

theorem and_not64_eq_zero_iff (nm bm : Nat) (hbm : bm < 2 ^ 64) :
    nm &&& not64 bm = 0 ↔ ∀ t, t < 64 → nm.testBit t = true → bm.testBit t = true := by
  have hnot : ∀ t, (not64 bm).testBit t = (decide (t < 64) && !bm.testBit t) := by
    intro t
    unfold not64
    rw [show 2 ^ 64 - 1 - bm = 2 ^ 64 - (bm + 1) by omega]
    exact Nat.testBit_two_pow_sub_succ hbm t
  constructor
  · intro h t ht hn
    have := congrArg (fun x => Nat.testBit x t) h
    simp only [Nat.testBit_and, hnot, Nat.zero_testBit, hn, ht, decide_True, Bool.true_and] at this
    simpa using this
  · intro h
    apply Nat.eq_of_testBit_eq
    intro t
    rw [Nat.testBit_and, hnot, Nat.zero_testBit]
    by_cases ht : t < 64
    · by_cases hn : nm.testBit t = true
      · simp [h t ht hn]
      · simp [hn]
    · simp [ht]

theorem negParity_eq_occParity_of_all_neg : ∀ (vs ns : List Int) (j : Nat),
    vs.length = ns.length →
    (∀ p ∈ vs.zip ns, p.1 = (j : Int) → p.2 ≠ 0) → negParity vs ns j = occParity vs j := by
  intro vs
  induction vs with
  | nil => intro ns j _ _; cases ns <;> rfl
  | cons v vs ih =>
    intro ns j hl h
    cases ns with
    | nil => simp at hl
    | cons n ns =>
      rw [negParity, occParity, ih ns j (by simpa using hl)
        (fun p hp => h p (List.mem_cons_of_mem _ hp))]
      by_cases hv : v = (j : Int)
      · have hn0 : n ≠ 0 := h (v, n) (List.mem_cons_self _ _) hv
        simp [hv, hn0]
      · simp [hv]

theorem negParity_eq_false_of_none_neg : ∀ (vs ns : List Int) (j : Nat),
    (∀ p ∈ vs.zip ns, p.1 = (j : Int) → p.2 = 0) → negParity vs ns j = false := by
  intro vs
  induction vs with
  | nil => intro ns j _; cases ns <;> rfl
  | cons v vs ih =>
    intro ns j h
    cases ns with
    | nil => rfl
    | cons n ns =>
      rw [negParity, ih ns j (fun p hp => h p (List.mem_cons_of_mem _ hp))]
      by_cases hv : v = (j : Int)
      · have hn0 : n = 0 := h (v, n) (List.mem_cons_self _ _) hv
        simp [hn0]
      · simp [hv]

theorem mask_bits_subset (x : List Int) (c : clause) (hload : loadClause x = some c)
    (hrange : ∀ v ∈ c.vars, 0 ≤ v ∧ v < 256) (hsigns : sameSigns c) (j : Nat)
    (hn : c.notmask.testBit j = true) : c.bitmask.testBit j = true := by
  obtain ⟨hv, hnl, _, _, _, _, _⟩ := loadClause_shape x c hload
  obtain ⟨_, _, hbit, hnbit, _⟩ := violated_loaded_iff x c hload hrange ⟨0, 0, 0, 0⟩
  rw [hnbit] at hn
  rw [hbit]
  by_cases hex : ∃ p ∈ c.vars.zip c.nots, p.1 = (j : Int) ∧ p.2 ≠ 0
  · obtain ⟨p, hp, hp1, hp2⟩ := hex
    rw [← negParity_eq_occParity_of_all_neg c.vars c.nots j (by omega)
      (fun q hq hq1 => (hsigns p hp q hq (by rw [hp1, hq1])).1 hp2)]
    exact hn
  · rw [negParity_eq_false_of_none_neg c.vars c.nots j
      (fun p hp hp1 => by
        by_contra hne
        exact hex ⟨p, hp, hp1, hne⟩)] at hn
    exact absurd hn (by simp)

/-- C12, as stated, fails: the line `1 -1 0` has two literals over variable
index 0; the two flips cancel in `bitmask` while `notmask` keeps bit 0, so
`notmask & ~bitmask` is 1 in word 0. -/
theorem complementary_literals_break_subset :
    loadClause [1, -1, 0] = some ⟨⟨0, 0, 0, 0⟩, ⟨1, 0, 0, 0⟩, [0, 0], [0, 1], 2⟩ ∧
      (1 : Nat) &&& not64 0 = 1 := by
  refine ⟨by decide, by decide⟩

/-- C12, amended. Mask subset invariant: for every clause that `loadsat`
builds from a line over variable indices below 256 in which no variable
carries both a negated and a non-negated literal, every bit set in `notmask`
is also set in `bitmask`: `notmask & ~bitmask == 0` in all four words. -/
theorem mask_subset (x : List Int) (c : clause) (hload : loadClause x = some c)
    (hrange : ∀ v ∈ c.vars, 0 ≤ v ∧ v < 256) (hsigns : sameSigns c) :
    c.notmask.w0 &&& not64 c.bitmask.w0 = 0 ∧ c.notmask.w1 &&& not64 c.bitmask.w1 = 0 ∧
      c.notmask.w2 &&& not64 c.bitmask.w2 = 0 ∧ c.notmask.w3 &&& not64 c.bitmask.w3 = 0 := by
  obtain ⟨⟨b0, b1, b2, b3⟩, _, _, _, _⟩ :=
    violated_loaded_iff x c hload hrange ⟨0, 0, 0, 0⟩
  have key : ∀ k t, t < 64 → (c.notmask.word k).testBit t = true →
      (c.bitmask.word k).testBit t = true := by
    intro k t ht hn
    rw [← Bits.testBit_word _ _ _ ht] at hn ⊢
    exact mask_bits_subset x c hload hrange hsigns _ hn
  refine ⟨?_, ?_, ?_, ?_⟩
  · exact (and_not64_eq_zero_iff _ _ b0).2 (key 0)
  · exact (and_not64_eq_zero_iff _ _ b1).2 (key 1)
  · exact (and_not64_eq_zero_iff _ _ b2).2 (key 2)
  · exact (and_not64_eq_zero_iff _ _ b3).2 (key 3)

theorem mask_subset_witness :
    (2 : Nat) &&& not64 7 = 0 ∧ (0 : Nat) &&& not64 0 = 0 ∧
      (0 : Nat) &&& not64 0 = 0 ∧ (0 : Nat) &&& not64 0 = 0 :=
  mask_subset [1, -2, 3, 0] ⟨⟨7, 0, 0, 0⟩, ⟨2, 0, 0, 0⟩, [0, 1, 2], [0, 1, 0], 3⟩
    (by decide) (by decide) (by decide)

/-! ## The walker step as a value written into one slot -/

theorem hop_pro_irrelevant (cur pro pro1 : walker) (sat : Instance) (g : Rng) :
    hop cur pro sat g = hop cur pro1 sat g := rfl

theorem hop_fst (cur pro : walker) (sat : Instance) (g : Rng) (r : walker × walker × Rng)
    (h : hop cur pro sat g = some r) : r.1 = cur := by
  unfold hop at h
  repeat' split at h
  all_goals first
    | (have e := Option.some.inj h; rw [← e])
    | exact Option.noConfusion h

/-- One pass of the walker loop writes exactly slot `w` of the prospective
array, with the value `stepValue` computes from the current array and the
generator, and leaves the current array as it was. -/
theorem walkerStep_eq (sat : Instance) (W : Nat) (s dt vscale : ℚ) (umin : Int) (w : Nat)
    (P : Pop) (hw : w < P.pro.length) :
    walkerStep sat W s dt vscale umin w P =
      (stepValue sat W s dt vscale umin w P.cur P.g).map
        (fun r => ⟨P.cur, P.pro.set w r.1, r.2⟩) := by
  have hpw : P.pro[w]? = some P.pro[w] := List.getElem?_eq_getElem hw
  unfold walkerStep stepValue
  cases hcw : P.cur[w]? with
  | none => rfl
  | some cw =>
    have hlt : w < P.cur.length := by
      by_contra hge
      rw [List.getElem?_eq_none (by omega)] at hcw
      exact absurd hcw (by simp)
    have hcwe : cw = P.cur[w] := by
      rw [List.getElem?_eq_getElem hlt] at hcw
      exact (Option.some.inj hcw).symm
    have hset : P.cur.set w cw = P.cur := by rw [hcwe]; exact set_getElem_same _ _ _
    simp only
    rcases tern_cases (phop s dt) (ptel dt s vscale cw.unsat umin) P.g with ha | ha | ha
    · -- hop
      simp only [ha, hcw, hpw, if_true, if_false, show ¬ ((0 : Int) = 2) by decide,
        show ¬ ((0 : Int) = 1) by decide]
      rw [hop_pro_irrelevant cw P.pro[w] cw]
      cases hh : hop cw cw sat (tern (phop s dt) (ptel dt s vscale cw.unsat umin) P.g).2 with
      | none => rfl
      | some r =>
        have := hop_fst _ _ _ _ r hh
        obtain ⟨r1, r2, r3⟩ := r
        simp only at this
        subst this
        simp only [Option.map_some', hset]
    · -- teleport
      simp only [ha, if_true, if_false, show ¬ ((1 : Int) = 2) by decide,
        show ¬ ((1 : Int) = 0) by decide]
      unfold teleport
      cases hr : randint (W : Int) (tern (phop s dt) (ptel dt s vscale cw.unsat umin) P.g).2 with
      | none => rfl
      | some r =>
        obtain ⟨d, g1⟩ := r
        simp only
        by_cases hd : d < 0
        · simp only [if_pos hd, Option.map_none']
        · simp only [if_neg hd, hpw]
          cases hcd : P.cur[d.toNat]? with
          | none => rfl
          | some cd => simp only [Option.map_some', copy_bits_eq]
    · -- sit
      simp only [ha, hcw, hpw, if_true, if_false, show ¬ ((2 : Int) = 1) by decide,
        show ¬ ((2 : Int) = 0) by decide, sit, copy_bits_eq, hset, Option.map_some']

theorem walkerStep_none_of_short (sat : Instance) (W : Nat) (s dt vscale : ℚ) (umin : Int)
    (w : Nat) (P : Pop) (hw : ¬ w < P.pro.length) :
    walkerStep sat W s dt vscale umin w P = none := by
  have hpw : P.pro[w]? = none := List.getElem?_eq_none (by omega)
  unfold walkerStep
  cases hcw : P.cur[w]? with
  | none => rfl
  | some cw =>
    simp only
    rcases tern_cases (phop s dt) (ptel dt s vscale cw.unsat umin) P.g with ha | ha | ha
    · simp only [ha, hcw, hpw, if_true, if_false, show ¬ ((0 : Int) = 2) by decide,
        show ¬ ((0 : Int) = 1) by decide]
    · simp only [ha, if_true, if_false, show ¬ ((1 : Int) = 2) by decide,
        show ¬ ((1 : Int) = 0) by decide]
      unfold teleport
      cases hr : randint (W : Int) (tern (phop s dt) (ptel dt s vscale cw.unsat umin) P.g).2 with
      | none => rfl
      | some r =>
        obtain ⟨d, g1⟩ := r
        simp only
        by_cases hd : d < 0
        · simp only [if_pos hd]
        · simp only [if_neg hd, hpw]
          cases P.cur[d.toNat]? <;> rfl
    · simp only [ha, hcw, hpw, if_true, if_false]

/-! ## What a finished pass has done -/

theorem walkerStep_finished (sat : Instance) (W : Nat) (s dt vscale : ℚ) (umin : Int) (w : Nat)
    (P P1 : Pop) (h : walkerStep sat W s dt vscale umin w P = some P1) :
    w < P.pro.length ∧ P1.cur = P.cur ∧
      ∃ wk, stepValue sat W s dt vscale umin w P.cur P.g = some (wk, P1.g) ∧
        P1.pro = P.pro.set w wk := by
  by_cases hw : w < P.pro.length
  · rw [walkerStep_eq sat W s dt vscale umin w P hw] at h
    cases hv : stepValue sat W s dt vscale umin w P.cur P.g with
    | none => rw [hv] at h; exact absurd h (by simp)
    | some r =>
      rw [hv] at h
      have e : P1 = _ := (Option.some.inj h).symm
      subst e
      exact ⟨hw, rfl, r.1, rfl, rfl⟩
  · rw [walkerStep_none_of_short sat W s dt vscale umin w P hw] at h
    exact absurd h (by simp)

theorem stepValue_stepOf (sat : Instance) (W : Nat) (s dt vscale : ℚ) (umin : Int) (w : Nat)
    (cur : List walker) (g g1 : Rng) (wk : walker)
    (h : stepValue sat W s dt vscale umin w cur g = some (wk, g1)) : StepOf sat cur w wk := by
  have hlen : ∀ (d : Nat) (cd : walker), cur[d]? = some cd → d < cur.length := by
    intro d cd hd
    by_contra hge
    rw [List.getElem?_eq_none (by omega)] at hd
    exact absurd hd (by simp)
  unfold stepValue at h
  split at h
  · exact absurd h (by simp)
  · rename_i cw hcw
    simp only at h
    split at h
    · have e := Option.some.inj h
      have e1 : cw = wk := congrArg Prod.fst e
      exact Or.inl ⟨w, cw, hlen w cw hcw, hcw, e1.symm⟩
    · split at h
      · split at h
        · exact absurd h (by simp)
        · rename_i d g2 _
          split at h
          · exact absurd h (by simp)
          · split at h
            · exact absurd h (by simp)
            · rename_i cd hcd
              have e := Option.some.inj h
              have e1 : cd = wk := congrArg Prod.fst e
              exact Or.inl ⟨d.toNat, cd, hlen _ cd hcd, hcd, e1.symm⟩
      · split at h
        · exact absurd h (by simp)
        · rename_i r hr
          have e := Option.some.inj h
          have e1 : r.2.1 = wk := congrArg Prod.fst e
          have e2 : r.2.2 = g1 := congrArg Prod.snd e
          have e0 := hop_fst _ _ _ _ r hr
          refine Or.inr ⟨cw, cw, (tern (phop s dt) (ptel dt s vscale cw.unsat umin) g).2, g1,
            hcw, ?_⟩
          rw [hr, ← e0, ← e1, ← e2]

theorem walkerLoop_finished (sat : Instance) (W : Nat) (s dt vscale : ℚ) (umin : Int)
    (cur pro : List walker) (g : Rng) (P : Pop)
    (h : forLoop (walkerStep sat W s dt vscale umin) 0 W ⟨cur, pro, g⟩ = some P) :
    P.cur = cur ∧ P.pro.length = pro.length ∧ W ≤ pro.length ∧
      (∀ j, W ≤ j → P.pro[j]? = pro[j]?) ∧
      ∀ j, j < W → ∃ wk, P.pro[j]? = some wk ∧ StepOf sat cur j wk := by
  have := forLoop_finished (walkerStep sat W s dt vscale umin)
    (fun k P => P.cur = cur ∧ P.pro.length = pro.length ∧ k ≤ pro.length ∧
      (∀ j, k ≤ j → P.pro[j]? = pro[j]?) ∧
      ∀ j, j < k → ∃ wk, P.pro[j]? = some wk ∧ StepOf sat cur j wk)
    W 0 ⟨cur, pro, g⟩ P h
    ⟨rfl, rfl, Nat.zero_le _, fun _ _ => rfl, by intro j hj; omega⟩
    (by
      rintro k P0 P1 _ _ ⟨hcur, hlen, _, hrest, hdone⟩ hstep
      obtain ⟨hw, hc1, wk, hval, hpro⟩ := walkerStep_finished sat W s dt vscale umin k P0 P1 hstep
      have hq := stepValue_stepOf sat W s dt vscale umin k P0.cur P0.g P1.g wk hval
      rw [hcur] at hq
      refine ⟨by rw [hc1, hcur], by rw [hpro]; simp [hlen], by omega, ?_, ?_⟩
      · intro j hj
        rw [hpro, List.getElem?_set_ne (by omega)]
        exact hrest j (by omega)
      · intro j hj
        by_cases hjk : j = k
        · subst hjk
          exact ⟨wk, by rw [hpro, List.getElem?_set_self hw], hq⟩
        · obtain ⟨wk1, hwk1, hq1⟩ := hdone j (by omega)
          exact ⟨wk1, by rw [hpro, List.getElem?_set_ne (Ne.symm hjk)]; exact hwk1, hq1⟩)
  simpa using this

/-- What a pass of the `do` loop that did not fault has done, on any instance. -/
theorem walkIter_finished (sat : Instance) (W : Nat) (duration vscale : ℚ) (st st1 : WalkState)
    (h : walkIter sat W duration vscale st = some st1) :
    st1.pro = st.cur ∧ st1.cur.length = st.pro.length ∧ W ≤ st.pro.length ∧
      (∀ j, W ≤ j → st1.cur[j]? = st.pro[j]?) ∧
      ∀ j, j < W → ∃ wk, st1.cur[j]? = some wk ∧ StepOf sat st.cur j wk := by
  unfold walkIter at h
  simp only at h
  split at h
  · exact absurd h (by simp)
  · rename_i umin umax hscan
    split at h
    · exact absurd h (by simp)
    · rename_i P hP
      split at h
      · exact absurd h (by simp)
      · have e : st1 = _ := (Option.some.inj h).symm
        subst e
        obtain ⟨h1, h2, h3, h4, h5⟩ := walkerLoop_finished sat W _ _ vscale umin _ _ _ P hP
        exact ⟨h1, h2, h3, h4, h5⟩

/-! ## Zero tail bits -/

theorem hop_bits (cur pro : walker) (sat : Instance) (g : Rng) (r : walker × walker × Rng)
    (h : hop cur pro sat g = some r) (hB1 : 1 ≤ sat.B) (hB2 : sat.B ≤ 256) :
    r.2.1.bs = cur.bs.toggle ((rand g).1 % sat.B) ∧ r.2.2 = (rand g).2 := by
  have hb : (rand g).1 % sat.B < sat.B := Nat.mod_lt _ (by omega)
  have e1 := randint_inRange sat.B g hB1 (by have := RAND_MAX_ge; omega)
  have e2 : (flip (copy_bits cur.bs pro.bs sat.B) (((rand g).1 % sat.B : Nat) : Int) sat.B).val? =
      some (cur.bs.toggle ((rand g).1 % sat.B)) := by
    rw [copy_bits_eq, flip_natCast _ _ _ (by omega) (by omega)]
    rfl
  unfold hop at h
  rw [e1] at h
  simp only [e2] at h
  repeat' split at h
  all_goals first
    | (have e := Option.some.inj h; rw [← e]; exact ⟨rfl, rfl⟩)
    | exact Option.noConfusion h

theorem toggle_tailZero (B b : Nat) (bs : Bits) (hb : b < B)
    (h : TailZero B bs) : TailZero B (bs.toggle b) := by
  intro j hj1 hj2
  rw [Bits.testBit_toggle bs b j (by omega), h j hj1 hj2]
  have : j ≠ b := by omega
  simp [this]

theorem stepOf_tailZero (sat : Instance) (hB1 : 1 ≤ sat.B) (hB2 : sat.B ≤ 256)
    (cur : List walker) (hcur : ∀ wk ∈ cur, TailZero sat.B wk.bs) (j : Nat) (wk : walker)
    (hq : StepOf sat cur j wk) : TailZero sat.B wk.bs := by
  rcases hq with ⟨d, cd, _, hcd, rfl⟩ | ⟨cw, pw, g0, g1, hcw, hh⟩
  · exact hcur _ (List.getElem?_mem hcd)
  · obtain ⟨hbs, _⟩ := hop_bits cw pw sat g0 _ hh hB1 hB2
    simp only at hbs
    rw [hbs]
    exact toggle_tailZero sat.B _ _ (Nat.mod_lt _ (by omega))
      (hcur _ (List.getElem?_mem hcw))

theorem walkIter_tailZero (sat : Instance) (hB1 : 1 ≤ sat.B) (hB2 : sat.B ≤ 256)
    (W : Nat) (duration vscale : ℚ) (st st1 : WalkState)
    (h : walkIter sat W duration vscale st = some st1)
    (hcur : ∀ wk ∈ st.cur, TailZero sat.B wk.bs) (hpro : ∀ wk ∈ st.pro, TailZero sat.B wk.bs) :
    (∀ wk ∈ st1.cur, TailZero sat.B wk.bs) ∧ (∀ wk ∈ st1.pro, TailZero sat.B wk.bs) := by
  obtain ⟨h1, _, _, hrest, hdone⟩ := walkIter_finished sat W duration vscale st st1 h
  refine ⟨?_, by rw [h1]; exact hcur⟩
  intro wk hwk
  obtain ⟨j, hj, hjw⟩ := List.getElem_of_mem hwk
  have hget : st1.cur[j]? = some wk := by rw [List.getElem?_eq_getElem hj, hjw]
  by_cases hjW : j < W
  · obtain ⟨wk1, hwk1, hq⟩ := hdone j hjW
    rw [hget] at hwk1
    have e : wk = wk1 := Option.some.inj hwk1
    subst e
    exact stepOf_tailZero sat hB1 hB2 st.cur hcur j wk hq
  · rw [hrest j (by omega)] at hget
    exact hpro _ (List.getElem?_mem hget)

theorem zero_tailZero (B : Nat) (bs : Bits) : TailZero B (init_bits bs B) := by
  intro j _ _
  exact zeroBits_testBit j

theorem randomize_tailZero (sat : Instance) (hB2 : sat.B ≤ 256) (warray cur : List walker)
    (W : Nat) (g g1 : Rng) (h : randomize warray W sat g = some (cur, g1))
    (hw : ∀ wk ∈ warray, TailZero sat.B wk.bs) : ∀ wk ∈ cur, TailZero sat.B wk.bs := by
  have := forLoop_finished (randomizeWalker sat)
    (fun _ st => ∀ wk ∈ st.1, TailZero sat.B wk.bs) W 0 (warray, g) (cur, g1) h hw
    (by
      rintro k ⟨arr, g0⟩ ⟨arr1, g2⟩ _ _ hI hstep
      simp only at hI
      unfold randomizeWalker at hstep
      simp only at hstep
      split at hstep
      · exact absurd hstep (by simp)
      · rename_i wk0 hwk0
        split at hstep
        · exact absurd hstep (by simp)
        · rename_i bs1 g3 hbits
          split at hstep
          · exact absurd hstep (by simp)
          · rename_i u _
            have e := Option.some.inj hstep
            have e1 : arr1 = arr.set k { bs := bs1, unsat := u } := (congrArg Prod.fst e).symm
            have hb1 : TailZero sat.B bs1 := by
              have := forLoop_finished (randomizeBits sat.B)
                (fun _ st => TailZero sat.B st.1) sat.B 0 (wk0.bs, g0) (bs1, g3) hbits
                (hI _ (List.getElem?_mem hwk0))
                (by
                  rintro b ⟨bs2, g4⟩ ⟨bs3, g5⟩ _ hb hT hrb
                  simp only at hT
                  unfold randomizeBits at hrb
                  simp only at hrb
                  split at hrb
                  · rw [flip_natCast _ _ _ (by omega) (by omega)] at hrb
                    have e := Option.some.inj hrb
                    have e3 : bs3 = bs2.toggle b := (congrArg Prod.fst e).symm
                    simp only
                    rw [e3]
                    exact toggle_tailZero sat.B b bs2 (by omega) hT
                  · have e := Option.some.inj hrb
                    have e3 : bs3 = bs2 := (congrArg Prod.fst e).symm
                    simp only
                    rw [e3]
                    exact hT)
              exact this
            intro wk hwk
            simp only at hwk
            rw [e1] at hwk
            rcases List.mem_or_eq_of_mem_set hwk with hm | rfl
            · exact hI wk hm
            · exact hb1)
  exact this

theorem walkInit_tailZero (sat : Instance) (hB2 : sat.B ≤ 256) (W : Nat)
    (heap1 heap2 : Nat → walker) (g : Rng) (st0 : WalkState)
    (h : walkInit sat W heap1 heap2 g = some st0) :
    (∀ wk ∈ st0.cur, TailZero sat.B wk.bs) ∧ (∀ wk ∈ st0.pro, TailZero sat.B wk.bs) := by
  unfold walkInit at h
  simp only at h
  split at h
  · exact absurd h (by simp)
  · rename_i cur g1 hr
    have e : st0 = _ := (Option.some.inj h).symm
    subst e
    refine ⟨?_, ?_⟩
    · apply randomize_tailZero sat hB2 _ cur W g g1 hr
      intro wk hwk
      rw [List.mem_map] at hwk
      obtain ⟨k, _, rfl⟩ := hwk
      exact zero_tailZero sat.B (heap1 k).bs
    · intro wk hwk
      simp only [List.mem_map] at hwk
      obtain ⟨k, _, rfl⟩ := hwk
      exact zero_tailZero sat.B (heap2 k).bs

theorem loopHead_tailZero (sat : Instance) (hB1 : 1 ≤ sat.B) (hB2 : sat.B ≤ 256)
    (W : Nat) (duration vscale : ℚ) (st0 : WalkState)
    (h0 : (∀ wk ∈ st0.cur, TailZero sat.B wk.bs) ∧ (∀ wk ∈ st0.pro, TailZero sat.B wk.bs)) :
    ∀ (n : Nat) (st : WalkState), loopHead sat W duration vscale st0 n = some st →
      (∀ wk ∈ st.cur, TailZero sat.B wk.bs) ∧ (∀ wk ∈ st.pro, TailZero sat.B wk.bs) := by
  intro n
  induction n with
  | zero =>
    intro st h
    have e : st0 = st := Option.some.inj h
    subst e
    exact h0
  | succ n ih =>
    intro st1 h
    rw [loopHead] at h
    split at h
    · exact absurd h (by simp)
    · rename_i st hst
      split at h
      · exact absurd h (by simp)
      · rename_i st2 hst2
        split at h
        · have e : st2 = st1 := Option.some.inj h
          subst e
          obtain ⟨hc, hp⟩ := ih st hst
          exact walkIter_tailZero sat hB1 hB2 W duration vscale st st2 hst2 hc hp
        · exact absurd h (by simp)

/-- C11. Zero tail bits: for every instance with `1 <= B <= 256`, every walker
bit vector of the current population of `walk` has all bits at positions
`B..255` equal to zero: after `init_bits` and `randomize`, at the head of
every pass of the loop and after every pass, for every stream of draws. -/
theorem zero_tail_bits (sat : Instance) (hB1 : 1 ≤ sat.B) (hB2 : sat.B ≤ 256)
    (W : Nat) (duration vscale : ℚ) (heap1 heap2 : Nat → walker) (g : Rng) (st0 : WalkState)
    (hinit : walkInit sat W heap1 heap2 g = some st0) :
    (∀ wk ∈ st0.cur, TailZero sat.B wk.bs) ∧
    ∀ (n : Nat) (st : WalkState), loopHead sat W duration vscale st0 n = some st →
      (∀ wk ∈ st.cur, TailZero sat.B wk.bs) ∧
      ∀ st1, walkIter sat W duration vscale st = some st1 →
        ∀ wk ∈ st1.cur, TailZero sat.B wk.bs := by
  have h0 := walkInit_tailZero sat hB2 W heap1 heap2 g st0 hinit
  refine ⟨h0.1, ?_⟩
  intro n st hhead
  obtain ⟨hc, hp⟩ := loopHead_tailZero sat hB1 hB2 W duration vscale st0 h0 n st hhead
  refine ⟨hc, ?_⟩
  intro st1 hst1
  exact (walkIter_tailZero sat hB1 hB2 W duration vscale st st1 hst1 hc hp).1

theorem zero_tail_bits_witness :
    ∃ st0, walkInit sampleInstance 2 sampleHeap sampleHeap sampleRng = some st0 ∧
      ((∀ wk ∈ st0.cur, TailZero sampleInstance.B wk.bs) ∧
      ∀ (n : Nat) (st : WalkState), loopHead sampleInstance 2 20 25 st0 n = some st →
        (∀ wk ∈ st.cur, TailZero sampleInstance.B wk.bs) ∧
        ∀ st1, walkIter sampleInstance 2 20 25 st = some st1 →
          ∀ wk ∈ st1.cur, TailZero sampleInstance.B wk.bs) := by
  obtain ⟨st0, h0, _⟩ := walkInit_spec 3 2 sampleLines sampleInstance sample_loaded (by decide)
    2 sampleHeap sampleHeap sampleRng
  exact ⟨st0, h0, zero_tail_bits sampleInstance (by decide) (by decide) 2 20 25
    sampleHeap sampleHeap sampleRng st0 h0⟩

/-! ## The unsatisfiable pair -/

/-- At every loop head of a walk on a loaded instance the arrays have `W`
walkers, the cache is consistent and no winner has been counted. -/
theorem loopHead_cache (B nc : Nat) (lines : List (List Int)) (sat : Instance)
    (h : loadsat (some (B, nc)) lines = .loaded sat) (hB1 : 1 ≤ B) (hB2 : B ≤ 256)
    (hrep : ∀ c ∈ sat.clauses, ∀ v : Int, c.vars.count v ≤ 2)
    (W : Nat) (hW : 1 ≤ W) (duration vscale : ℚ) (st0 : WalkState)
    (hc0 : st0.cur.length = W) (hp0 : st0.pro.length = W) (hinv0 : CacheOk sat st0.cur)
    (hw0 : st0.winners = 0) :
    ∀ (n : Nat) (st : WalkState), loopHead sat W duration vscale st0 n = some st →
      st.cur.length = W ∧ st.pro.length = W ∧ CacheOk sat st.cur ∧ st.winners = 0 := by
  intro n
  induction n with
  | zero =>
    intro st hst
    have e : st0 = st := Option.some.inj hst
    subst e
    exact ⟨hc0, hp0, hinv0, hw0⟩
  | succ n ih =>
    intro st1 hst1
    rw [loopHead] at hst1
    split at hst1
    · exact absurd hst1 (by simp)
    · rename_i st hst
      split at hst1
      · exact absurd hst1 (by simp)
      · rename_i st2 hst2
        split at hst1
        · rename_i hcond
          have e : st2 = st1 := Option.some.inj hst1
          subst e
          obtain ⟨hc, hp, hinv, _⟩ := ih st hst
          obtain ⟨st3, hst3, hc3, hp3, hinv3⟩ :=
            walkIter_cache B nc lines sat h hB1 hB2 hrep W hW duration vscale st hc hp hinv
          rw [hst2] at hst3
          have e : st2 = st3 := Option.some.inj hst3
          subst e
          exact ⟨hc3, hp3, hinv3, hcond.2⟩
        · exact absurd hst1 (by simp)

/-- Relational rule for `forLoop`: two runs whose bodies keep a relation
between their states fault together or end in related states. -/
theorem forLoop_rel {σ : Type} (body : Nat → σ → Option σ) (R : Nat → σ → σ → Prop) :
    ∀ (n lo : Nat) (s t : σ), R lo s t →
    (∀ k s1 t1, lo ≤ k → k < lo + n → R k s1 t1 →
      (body k s1 = none ∧ body k t1 = none) ∨
      ∃ s2 t2, body k s1 = some s2 ∧ body k t1 = some t2 ∧ R (k + 1) s2 t2) →
    (forLoop body lo n s = none ∧ forLoop body lo n t = none) ∨
    ∃ s2 t2, forLoop body lo n s = some s2 ∧ forLoop body lo n t = some t2 ∧ R (lo + n) s2 t2 := by
  intro n
  induction n with
  | zero =>
    intro lo s t h0 _
    exact Or.inr ⟨s, t, rfl, rfl, h0⟩
  | succ n ih =>
    intro lo s t h0 hstep
    rcases hstep lo s t (Nat.le_refl _) (by omega) h0 with ⟨h1, h2⟩ | ⟨s1, t1, h1, h2, hR⟩
    · left
      simp [forLoop, h1, h2]
    · have := ih (lo + 1) s1 t1 hR
        (fun k s3 t3 hk1 hk2 hI => hstep k s3 t3 (by omega) (by omega) hI)
      rw [show lo + (n + 1) = lo + 1 + n by omega]
      simpa [forLoop, h1, h2] using this

theorem walkerLoop_pro_irrelevant (sat : Instance) (W : Nat) (s dt vscale : ℚ) (umin : Int)
    (cur pro pro1 : List walker) (g : Rng) (hp : pro.length = W) (hp1 : pro1.length = W) :
    (forLoop (walkerStep sat W s dt vscale umin) 0 W ⟨cur, pro, g⟩ = none ∧
      forLoop (walkerStep sat W s dt vscale umin) 0 W ⟨cur, pro1, g⟩ = none) ∨
    ∃ P, forLoop (walkerStep sat W s dt vscale umin) 0 W ⟨cur, pro, g⟩ = some P ∧
      forLoop (walkerStep sat W s dt vscale umin) 0 W ⟨cur, pro1, g⟩ = some P := by
  have := forLoop_rel (walkerStep sat W s dt vscale umin)
    (fun k P Q => P.cur = Q.cur ∧ P.g = Q.g ∧ P.pro.length = W ∧ Q.pro.length = W ∧
      ∀ j, j < k → P.pro[j]? = Q.pro[j]?)
    W 0 ⟨cur, pro, g⟩ ⟨cur, pro1, g⟩ ⟨rfl, rfl, hp, hp1, by intro j hj; omega⟩
    (by
      rintro k P Q _ hk ⟨hcur, hg, hlP, hlQ, hsame⟩
      rw [walkerStep_eq sat W s dt vscale umin k P (by omega),
        walkerStep_eq sat W s dt vscale umin k Q (by omega), ← hcur, ← hg]
      cases hv : stepValue sat W s dt vscale umin k P.cur P.g with
      | none => left; exact ⟨rfl, rfl⟩
      | some r =>
        right
        refine ⟨⟨P.cur, P.pro.set k r.1, r.2⟩, ⟨P.cur, Q.pro.set k r.1, r.2⟩, rfl, rfl,
          rfl, rfl, by simp [hlP], by simp [hlQ], ?_⟩
        intro j hj
        by_cases hjk : j = k
        · subst hjk
          simp only
          rw [List.getElem?_set_self (by omega), List.getElem?_set_self (by omega)]
        · simp only
          rw [List.getElem?_set_ne (Ne.symm hjk), List.getElem?_set_ne (Ne.symm hjk)]
          exact hsame j (by omega))
  rcases this with h | ⟨P, Q, hP, hQ, hcur, hg, hlP, hlQ, hsame⟩
  · exact Or.inl h
  · right
    refine ⟨P, hP, ?_⟩
    rw [hQ]
    have hpro : P.pro = Q.pro := by
      apply List.ext_getElem?
      intro j
      by_cases hj : j < W
      · exact hsame j (by omega)
      · rw [List.getElem?_eq_none (by omega), List.getElem?_eq_none (by omega)]
    obtain ⟨c1, p1, g1⟩ := P
    obtain ⟨c2, p2, g2⟩ := Q
    simp only at hcur hg hpro
    rw [hcur, hg, hpro]

/-- One pass of the `do` loop does not depend on what the prospective array held. -/
theorem walkIter_pro_irrelevant (sat : Instance) (W : Nat) (duration vscale : ℚ)
    (cur pro pro1 : List walker) (time : ℚ) (winners : Int) (g : Rng)
    (hp : pro.length = W) (hp1 : pro1.length = W) :
    walkIter sat W duration vscale ⟨cur, pro, time, winners, g⟩ =
      walkIter sat W duration vscale ⟨cur, pro1, time, winners, g⟩ := by
  unfold walkIter
  simp only
  cases hscan : scanMinMax cur W with
  | none => rfl
  | some mm =>
    obtain ⟨umin, umax⟩ := mm
    simp only
    rcases walkerLoop_pro_irrelevant sat W (time / duration)
      (timestep (time / duration) vscale umin umax) vscale umin cur pro pro1 g hp hp1
      with ⟨h1, h2⟩ | ⟨P, h1, h2⟩
    · rw [h1, h2]
    · rw [h1, h2]

theorem randomize_heap_irrelevant (sat : Instance) (W : Nat) (a b : List walker) (g : Rng)
    (ha : a.length = W) (hb : b.length = W)
    (hbs : ∀ j : Nat, (a[j]?).map walker.bs = (b[j]?).map walker.bs) :
    randomize a W sat g = randomize b W sat g := by
  have := forLoop_rel (randomizeWalker sat)
    (fun k s t => s.2 = t.2 ∧ s.1.length = W ∧ t.1.length = W ∧
      (∀ j, j < k → s.1[j]? = t.1[j]?) ∧
      ∀ j : Nat, k ≤ j → (s.1[j]?).map walker.bs = (t.1[j]?).map walker.bs)
    W 0 (a, g) (b, g) ⟨rfl, ha, hb, by intro j hj; omega, fun j _ => hbs j⟩
    (by
      rintro k ⟨arr, g0⟩ ⟨brr, g1⟩ _ hk ⟨hg, hla, hlb, hdone, hrest⟩
      simp only at hg hla hlb hdone hrest
      subst hg
      have hka : arr[k]? = some arr[k] := List.getElem?_eq_getElem (by omega)
      have hkb : brr[k]? = some brr[k] := List.getElem?_eq_getElem (by omega)
      have hsame : (arr[k]).bs = (brr[k]).bs := by
        have := hrest k (Nat.le_refl _)
        rw [hka, hkb] at this
        simpa using this
      unfold randomizeWalker
      simp only [hka, hkb, hsame]
      cases hbits : forLoop (randomizeBits sat.B) 0 sat.B ((brr[k]).bs, g0) with
      | none => left; exact ⟨rfl, rfl⟩
      | some r =>
        obtain ⟨bs1, g2⟩ := r
        simp only
        cases hcount : forLoop (countViolated sat bs1) 0 sat.numclauses 0 with
        | none => left; exact ⟨rfl, rfl⟩
        | some u =>
          right
          refine ⟨_, _, rfl, rfl, rfl, by simp [hla], by simp [hlb], ?_, ?_⟩
          · intro j hj
            by_cases hjk : j = k
            · subst hjk
              simp only
              rw [List.getElem?_set_self (by omega), List.getElem?_set_self (by omega)]
            · simp only
              rw [List.getElem?_set_ne (Ne.symm hjk), List.getElem?_set_ne (Ne.symm hjk)]
              exact hdone j (by omega)
          · intro j hj
            simp only
            rw [List.getElem?_set_ne (by omega), List.getElem?_set_ne (by omega)]
            exact hrest j (by omega))
  unfold randomize
  rcases this with ⟨h1, h2⟩ | ⟨s2, t2, h1, h2, hg, hls, hlt, hdone, _⟩
  · rw [h1, h2]
  · rw [h1, h2]
    have harr : s2.1 = t2.1 := by
      apply List.ext_getElem?
      intro j
      by_cases hj : j < W
      · exact hdone j (by omega)
      · rw [List.getElem?_eq_none (by omega), List.getElem?_eq_none (by omega)]
    obtain ⟨x1, x2⟩ := s2
    obtain ⟨y1, y2⟩ := t2
    simp only at hg harr
    rw [hg, harr]

theorem walkLoop_pro_irrelevant (sat : Instance) (W : Nat) (duration vscale : ℚ)
    (fuel : Nat) (cur pro pro1 : List walker) (time : ℚ) (winners : Int) (g : Rng)
    (hp : pro.length = W) (hp1 : pro1.length = W) :
    walkLoop sat W duration vscale fuel ⟨cur, pro, time, winners, g⟩ =
      walkLoop sat W duration vscale fuel ⟨cur, pro1, time, winners, g⟩ := by
  cases fuel with
  | zero => rfl
  | succ fuel =>
    rw [walkLoop, walkLoop, walkIter_pro_irrelevant sat W duration vscale cur pro pro1 time
      winners g hp hp1]

/-- The whole walk does not depend on what the two arrays held when `malloc` returned them. -/
theorem walk_heap_irrelevant (sat : Instance) (W : Nat) (duration vscale : ℚ) (fuel : Nat)
    (heap1 heap2 heap3 heap4 : Nat → walker) (g : Rng) :
    walk fuel W duration vscale sat heap1 heap2 g =
      walk fuel W duration vscale sat heap3 heap4 g := by
  have hr := randomize_heap_irrelevant sat W
    ((List.range W).map (fun k => { heap1 k with bs := init_bits (heap1 k).bs sat.B }))
    ((List.range W).map (fun k => { heap3 k with bs := init_bits (heap3 k).bs sat.B }))
    g (by simp) (by simp)
    (by
      intro j
      by_cases hj : j < W
      · simp [List.getElem?_map, List.getElem?_range hj, init_bits]
      · rw [List.getElem?_eq_none (by simp; omega), List.getElem?_eq_none (by simp; omega)])
  unfold walk walkInit
  simp only
  rw [hr]
  cases randomize ((List.range W).map
      (fun k => { heap3 k with bs := init_bits (heap3 k).bs sat.B })) W sat g with
  | none => rfl
  | some r =>
    obtain ⟨cur, g1⟩ := r
    simp only
    exact walkLoop_pro_irrelevant sat W duration vscale fuel cur _ _ 0 0 g1 (by simp) (by simp)

/-- Fuel beyond what the loop needs does not change the state it ends in. -/
theorem walkLoop_fuel_mono (sat : Instance) (W : Nat) (duration vscale : ℚ) :
    ∀ (fuel k : Nat) (st st1 : WalkState), walkLoop sat W duration vscale fuel st = some st1 →
      walkLoop sat W duration vscale (fuel + k) st = some st1 := by
  intro fuel
  induction fuel with
  | zero => intro k st st1 h; exact absurd h (by simp [walkLoop])
  | succ fuel ih =>
    intro k st st1 h
    rw [show fuel + 1 + k = (fuel + k) + 1 by omega, walkLoop]
    rw [walkLoop] at h
    cases hst2 : walkIter sat W duration vscale st with
    | none =>
      rw [hst2] at h
      exact absurd h (by simp)
    | some st2 =>
      rw [hst2] at h
      simp only at h ⊢
      by_cases hcond : st2.time < duration ∧ st2.winners = 0
      · rw [if_pos hcond] at h ⊢
        exact ih k st2 st1 h
      · rw [if_neg hcond] at h ⊢
        exact h

/-! ## Determinism and the overwrite of the prospective array -/

/-- C17. Determinism given the seed: two executions of `walk` with the same
instance, `W`, `duration`, `vscale` and the same stream of draws, whatever
`malloc` left in their arrays, behave alike for every bound on the number of
passes (so they make the same number of passes), and end in identical
states: the same walkers word for word with the same cached `unsat`, the
same time, winners and generator position. -/
theorem walk_deterministic (sat : Instance) (W : Nat) (duration vscale : ℚ) (g : Rng)
    (heap1 heap2 heap3 heap4 : Nat → walker) :
    (∀ fuel, walk fuel W duration vscale sat heap1 heap2 g =
      walk fuel W duration vscale sat heap3 heap4 g) ∧
    ∀ fuel1 fuel2 st1 st2, walk fuel1 W duration vscale sat heap1 heap2 g = some st1 →
      walk fuel2 W duration vscale sat heap3 heap4 g = some st2 → st1 = st2 := by
  refine ⟨fun fuel => walk_heap_irrelevant sat W duration vscale fuel heap1 heap2 heap3 heap4 g,
    ?_⟩
  intro fuel1 fuel2 st1 st2 h1 h2
  rw [← walk_heap_irrelevant sat W duration vscale fuel2 heap1 heap2 heap3 heap4 g] at h2
  unfold walk at h1 h2
  cases hinit : walkInit sat W heap1 heap2 g with
  | none => rw [hinit] at h1; exact absurd h1 (by simp)
  | some st0 =>
    rw [hinit] at h1 h2
    simp only at h1 h2
    have e1 := walkLoop_fuel_mono sat W duration vscale fuel1 fuel2 st0 st1 h1
    have e2 := walkLoop_fuel_mono sat W duration vscale fuel2 fuel1 st0 st2 h2
    rw [Nat.add_comm] at e2
    rw [e1] at e2
    exact Option.some.inj e2

theorem walk_deterministic_witness :
    (∀ fuel, walk fuel 2 20 25 sampleInstance sampleHeap sampleHeap sampleRng =
      walk fuel 2 20 25 sampleInstance (fun _ => ⟨⟨0, 0, 0, 0⟩, 0⟩) (fun k => ⟨⟨k, 1, 2, 3⟩, 5⟩)
        sampleRng) ∧
    ∀ fuel1 fuel2 st1 st2,
      walk fuel1 2 20 25 sampleInstance sampleHeap sampleHeap sampleRng = some st1 →
      walk fuel2 2 20 25 sampleInstance (fun _ => ⟨⟨0, 0, 0, 0⟩, 0⟩) (fun k => ⟨⟨k, 1, 2, 3⟩, 5⟩)
        sampleRng = some st2 → st1 = st2 :=
  walk_deterministic sampleInstance 2 20 25 sampleRng sampleHeap sampleHeap
    (fun _ => ⟨⟨0, 0, 0, 0⟩, 0⟩) (fun k => ⟨⟨k, 1, 2, 3⟩, 5⟩)

/-- C18. Population size and full overwrite: `tern` returns exactly one of 0,
1, 2; a pass of the walker loop for walker `w` writes exactly slot `w` of the
prospective array, leaves the current array alone, and the value it writes is
computed from the current array and the generator only (`stepValue`); a pass
of the `do` loop on arrays of `W` walkers leaves, after the swap, two arrays
of `W` walkers, each new current walker being the value written for its slot. -/
theorem population_size_and_overwrite (sat : Instance) (W : Nat) (duration vscale : ℚ) :
    (∀ (p0 p1 : ℚ) (g : Rng),
      (tern p0 p1 g).1 = 0 ∨ (tern p0 p1 g).1 = 1 ∨ (tern p0 p1 g).1 = 2) ∧
    (∀ (s dt : ℚ) (umin : Int) (w : Nat) (P : Pop), w < P.pro.length →
      walkerStep sat W s dt vscale umin w P =
        (stepValue sat W s dt vscale umin w P.cur P.g).map
          (fun r => ⟨P.cur, P.pro.set w r.1, r.2⟩)) ∧
    (∀ (st st1 : WalkState), st.cur.length = W → st.pro.length = W →
      walkIter sat W duration vscale st = some st1 →
        st1.cur.length = W ∧ st1.pro.length = W ∧ st1.pro = st.cur ∧
        ∀ j, j < W → ∃ wk, st1.cur[j]? = some wk ∧ StepOf sat st.cur j wk) := by
  refine ⟨tern_cases, ?_, ?_⟩
  · intro s dt umin w P hw
    exact walkerStep_eq sat W s dt vscale umin w P hw
  · intro st st1 hc hp h
    obtain ⟨h1, h2, _, _, h5⟩ := walkIter_finished sat W duration vscale st st1 h
    exact ⟨by omega, by rw [h1]; exact hc, h1, h5⟩

theorem population_size_and_overwrite_witness :
    (walkerStep sampleInstance 2 0 (99 / 100) 25 0 1 ⟨sampleState.cur, sampleState.pro, sampleRng⟩ =
      (stepValue sampleInstance 2 0 (99 / 100) 25 0 1 sampleState.cur sampleRng).map
        (fun r => ⟨sampleState.cur, sampleState.pro.set 1 r.1, r.2⟩)) ∧
    ∃ st1, walkIter sampleInstance 2 20 25 sampleState = some st1 ∧
      (st1.cur.length = 2 ∧ st1.pro.length = 2 ∧ st1.pro = sampleState.cur ∧
        ∀ j, j < 2 → ∃ wk, st1.cur[j]? = some wk ∧ StepOf sampleInstance sampleState.cur j wk) := by
  refine ⟨(population_size_and_overwrite sampleInstance 2 20 25).2.1 0 (99 / 100) 0 1
    ⟨sampleState.cur, sampleState.pro, sampleRng⟩ (by decide), ?_⟩
  obtain ⟨st1, hst1, _⟩ := walkIter_cache 3 2 sampleLines sampleInstance sample_loaded
    (by decide) (by decide) (count_le_two_of_nodup sampleInstance (by decide)) 2 (by decide)
    20 25 sampleState (by decide) (by decide) (by unfold CacheOk; decide)
  exact ⟨st1, hst1, (population_size_and_overwrite sampleInstance 2 20 25).2.2 sampleState st1
    (by decide) (by decide) hst1⟩

/-! ## The two fitness representations -/

theorem threadsat_scanMinMax_spec (cur : List Threadsat.walker) (W : Nat) (hc : cur.length = W)
    (hW : 1 ≤ W) :
    ∃ vmin vmax, Threadsat.scanMinMax cur W = some (vmin, vmax) ∧ vmin ≤ vmax ∧
      (∀ wk ∈ cur, vmin ≤ wk.potential ∧ wk.potential ≤ vmax) ∧
      (∃ wk ∈ cur, wk.potential = vmin) ∧ (∃ wk ∈ cur, wk.potential = vmax) := by
  have h0 : cur[0]? = some cur[0] := List.getElem?_eq_getElem (by omega)
  have hmem0 : cur[0] ∈ cur := List.getElem_mem _
  obtain ⟨mm, hmm, hle, hall, hmin, hmax⟩ := forLoop_inv (Threadsat.scanStep cur)
    (fun k mm => mm.1 ≤ mm.2 ∧
      (∀ j, j < k → ∀ wk, cur[j]? = some wk → mm.1 ≤ wk.potential ∧ wk.potential ≤ mm.2) ∧
      (∃ wk ∈ cur, wk.potential = mm.1) ∧ (∃ wk ∈ cur, wk.potential = mm.2))
    W 0 ((cur[0]).potential, (cur[0]).potential)
    ⟨le_refl _, by intro j hj; omega, ⟨_, hmem0, rfl⟩, ⟨_, hmem0, rfl⟩⟩
    (by
      rintro k ⟨mn, mx⟩ _ hk ⟨hle, hall, hmin, hmax⟩
      have hk' : cur[k]? = some cur[k] := List.getElem?_eq_getElem (by omega)
      have hmemk : cur[k] ∈ cur := List.getElem_mem _
      refine ⟨_, by rw [Threadsat.scanStep, hk'], ?_, ?_, ?_, ?_⟩
      · simp only at hle ⊢
        split <;> split <;> linarith
      · intro j hj wk hwk
        simp only at hle ⊢
        by_cases hjk : j = k
        · subst hjk
          rw [hk'] at hwk
          have e : wk = cur[j] := (Option.some.inj hwk).symm
          subst e
          split <;> split <;> constructor <;> linarith
        · have := hall j (by omega) wk hwk
          simp only at this
          split <;> split <;> constructor <;> linarith
      · simp only
        split
        · exact ⟨_, hmemk, rfl⟩
        · exact hmin
      · simp only
        split
        · exact ⟨_, hmemk, rfl⟩
        · exact hmax)
  obtain ⟨mn, mx⟩ := mm
  refine ⟨mn, mx, ?_, hle, ?_, hmin, hmax⟩
  · unfold Threadsat.scanMinMax
    rw [h0]
    exact hmm
  · intro wk hwk
    obtain ⟨j, hj, hjw⟩ := List.getElem_of_mem hwk
    exact hall j (by omega) wk (by rw [List.getElem?_eq_getElem hj, hjw])

theorem scan_scaled (W : Nat) (vscale : ℚ) (hv : 0 ≤ vscale) (cur : List walker)
    (tcur : List Threadsat.walker) (hW : 1 ≤ W) (hc : cur.length = W) (ht : tcur.length = W)
    (hpot : ∀ (w : Nat) (cw : walker) (tw : Threadsat.walker),
      cur[w]? = some cw → tcur[w]? = some tw →
      tw.potential = vscale * (cw.unsat : ℚ)) :
    ∃ umin umax vmin vmax, scanMinMax cur W = some (umin, umax) ∧
      Threadsat.scanMinMax tcur W = some (vmin, vmax) ∧
      vmin = vscale * (umin : ℚ) ∧ vmax = vscale * (umax : ℚ) ∧ umin ≤ umax := by
  obtain ⟨umin, umax, hu, hule, huall, ⟨a, ha, hamin⟩, ⟨b, hb, hbmax⟩⟩ :=
    scanMinMax_spec cur W hc hW
  obtain ⟨vmin, vmax, hvs, _, hvall, ⟨c, hcm, hcmin⟩, ⟨d, hd, hdmax⟩⟩ :=
    threadsat_scanMinMax_spec tcur W ht hW
  -- every walker of one array has its partner in the other
  have toT : ∀ cw ∈ cur, ∃ tw ∈ tcur, tw.potential = vscale * (cw.unsat : ℚ) := by
    intro cw hcw
    obtain ⟨j, hj, hjw⟩ := List.getElem_of_mem hcw
    have hjt : j < tcur.length := by omega
    refine ⟨tcur[j], List.getElem_mem _, ?_⟩
    exact hpot j cw tcur[j] (by rw [List.getElem?_eq_getElem hj, hjw])
      (List.getElem?_eq_getElem hjt)
  have toC : ∀ tw ∈ tcur, ∃ cw ∈ cur, tw.potential = vscale * (cw.unsat : ℚ) := by
    intro tw htw
    obtain ⟨j, hj, hjw⟩ := List.getElem_of_mem htw
    have hjc : j < cur.length := by omega
    refine ⟨cur[j], List.getElem_mem _, ?_⟩
    exact hpot j cur[j] tw (List.getElem?_eq_getElem hjc)
      (by rw [List.getElem?_eq_getElem hj, hjw])
  refine ⟨umin, umax, vmin, vmax, hu, hvs, ?_, ?_, hule⟩
  · apply le_antisymm
    · obtain ⟨tw, htw, e⟩ := toT a ha
      rw [← hamin, ← e]
      exact (hvall tw htw).1
    · obtain ⟨cw, hcw, e⟩ := toC c hcm
      rw [← hcmin, e]
      have h1 : (umin : ℚ) ≤ (cw.unsat : ℚ) := by exact_mod_cast (huall cw hcw).1
      exact mul_le_mul_of_nonneg_left h1 hv
  · apply le_antisymm
    · obtain ⟨cw, hcw, e⟩ := toC d hd
      rw [← hdmax, e]
      have h1 : (cw.unsat : ℚ) ≤ (umax : ℚ) := by exact_mod_cast (huall cw hcw).2
      exact mul_le_mul_of_nonneg_left h1 hv
    · obtain ⟨tw, htw, e⟩ := toT b hb
      rw [← hbmax, ← e]
      exact (hvall tw htw).2

/-- C16. The two fitness representations agree up to the scale multiplier:
for `0 <= s < 1`, `vscale >= 0` and a non-empty population whose potentials
are `vscale` times the violated counts, the scan of threadsat's `walk` returns
`vscale*umin` and `vscale*umax`, its denominator is positive, and its `dt`,
`phop` and every `ptel` equal those of dmcsat's `walk` (exact arithmetic). -/
theorem fitness_representations_agree (W : Nat) (s vscale : ℚ) (cur : List walker)
    (tcur : List Threadsat.walker) (hs0 : 0 ≤ s) (hs1 : s < 1) (hv : 0 ≤ vscale)
    (hW : 1 ≤ W) (hc : cur.length = W) (ht : tcur.length = W)
    (hpot : ∀ (w : Nat) (cw : walker) (tw : Threadsat.walker),
      cur[w]? = some cw → tcur[w]? = some tw →
      tw.potential = vscale * (cw.unsat : ℚ)) :
    ∃ umin umax vmin vmax, scanMinMax cur W = some (umin, umax) ∧
      Threadsat.scanMinMax tcur W = some (vmin, vmax) ∧
      0 < 1 - s + s * (vmax - vmin) ∧
      Threadsat.timestep s vmin vmax = timestep s vscale umin umax ∧
      Threadsat.phop s (Threadsat.timestep s vmin vmax) =
        phop s (timestep s vscale umin umax) ∧
      ∀ (w : Nat) (cw : walker) (tw : Threadsat.walker),
        cur[w]? = some cw → tcur[w]? = some tw →
        Threadsat.ptel (Threadsat.timestep s vmin vmax) s tw.potential vmin =
          ptel (timestep s vscale umin umax) s vscale cw.unsat umin := by
  obtain ⟨umin, umax, vmin, vmax, hu, hvs, e1, e2, hle⟩ :=
    scan_scaled W vscale hv cur tcur hW hc ht hpot
  have hdt : Threadsat.timestep s vmin vmax = timestep s vscale umin umax := by
    unfold Threadsat.timestep timestep denom
    rw [e1, e2]
    push_cast
    ring_nf
  refine ⟨umin, umax, vmin, vmax, hu, hvs, ?_, hdt, ?_, ?_⟩
  · rw [e1, e2]
    have h1 : (0 : ℚ) ≤ (umax : ℚ) - (umin : ℚ) := by
      have : (umin : ℚ) ≤ (umax : ℚ) := by exact_mod_cast hle
      linarith
    have h2 : 0 ≤ s * (vscale * (umax : ℚ) - vscale * (umin : ℚ)) := by
      rw [← mul_sub]
      exact mul_nonneg hs0 (mul_nonneg hv h1)
    linarith
  · rw [hdt]
    rfl
  · intro w cw tw hcw htw
    rw [hdt, hpot w cw tw hcw htw, e1]
    unfold Threadsat.ptel ptel
    push_cast
    ring

theorem fitness_representations_agree_witness :
    ∃ umin umax vmin vmax,
      scanMinMax [⟨⟨0, 0, 0, 0⟩, 2⟩, ⟨⟨1, 0, 0, 0⟩, 5⟩] 2 = some (umin, umax) ∧
      Threadsat.scanMinMax [⟨⟨0, 0, 0, 0⟩, 50⟩, ⟨⟨1, 0, 0, 0⟩, 125⟩] 2 = some (vmin, vmax) ∧
      0 < 1 - (1 / 2 : ℚ) + (1 / 2) * (vmax - vmin) ∧
      Threadsat.timestep (1 / 2) vmin vmax = timestep (1 / 2) 25 umin umax ∧
      Threadsat.phop (1 / 2) (Threadsat.timestep (1 / 2) vmin vmax) =
        phop (1 / 2) (timestep (1 / 2) 25 umin umax) ∧
      ∀ (w : Nat) (cw : walker) (tw : Threadsat.walker),
        [(⟨⟨0, 0, 0, 0⟩, 2⟩ : walker), ⟨⟨1, 0, 0, 0⟩, 5⟩][w]? = some cw →
        [(⟨⟨0, 0, 0, 0⟩, 50⟩ : Threadsat.walker), ⟨⟨1, 0, 0, 0⟩, 125⟩][w]? = some tw →
        Threadsat.ptel (Threadsat.timestep (1 / 2) vmin vmax) (1 / 2) tw.potential vmin =
          ptel (timestep (1 / 2) 25 umin umax) (1 / 2) 25 cw.unsat umin :=
  fitness_representations_agree 2 (1 / 2) 25 [⟨⟨0, 0, 0, 0⟩, 2⟩, ⟨⟨1, 0, 0, 0⟩, 5⟩]
    [⟨⟨0, 0, 0, 0⟩, 50⟩, ⟨⟨1, 0, 0, 0⟩, 125⟩] (by norm_num) (by norm_num) (by norm_num)
    (by decide) (by decide) (by decide)
    (by
      intro w cw tw hcw htw
      match w with
      | 0 =>
        have e1 := Option.some.inj hcw
        have e2 := Option.some.inj htw
        rw [← e1, ← e2]
        norm_num
      | 1 =>
        have e1 := Option.some.inj hcw
        have e2 := Option.some.inj htw
        rw [← e1, ← e2]
        norm_num
      | (k + 2) => simp at hcw)

/-! ## The verifier -/

theorem verify_iabs_eq (x : Int) : Verify.iabs x = |x| := by
  unfold Verify.iabs
  split
  · rename_i h
    rw [abs_of_neg h]
  · rename_i h
    rw [abs_of_nonneg (by omega)]

theorem verify_readBit_extract (bs : Bits) (bits : List Int) (B : Nat) (hB : B ≤ 256)
    (hbits : ∀ i : Nat, i < B → (extract bs (i : Int) (B : Int)).val? = bits[i]?)
    (a : Int) (k : Nat) (hk : |a| - 1 = (k : Int)) (h2 : |a| ≤ (B : Int)) :
    Verify.readBit bits (Verify.iabs a - 1) = some (if bs.testBit k then 1 else 0) := by
  have hlt : k < B := by omega
  unfold Verify.readBit
  rw [verify_iabs_eq, hk, if_neg (by omega), Int.toNat_ofNat, ← hbits k hlt,
    extract_natCast bs k (B : Int) (by omega) (by omega)]
  rfl

theorem literalFalse_of_literal (bs : Bits) (a : Int) (k : Nat) (hk : |a| - 1 = (k : Int))
    (h2 : |a| ≤ 256) :
    literalFalse bs (|a| - 1) (if a < 0 then 1 else 0) =
      decide (¬ (a > 0 ∧ (if bs.testBit k then (1 : Int) else 0) = 1) ∧
        ¬ (a < 0 ∧ (if bs.testBit k then (1 : Int) else 0) = 0)) := by
  have ha0 : a ≠ 0 := by
    intro h
    rw [h] at hk
    simp at hk
  unfold literalFalse
  rw [hk, extract_natCast bs k 256 (by omega) (by omega)]
  generalize bs.testBit k = t
  by_cases hneg : a < 0
  · have hpos : ¬ a > 0 := by omega
    cases t <;> simp [hneg, hpos]
  · have hpos : a > 0 := by omega
    cases t <;> simp [hneg, hpos]

theorem verify_violated_eq (x1 x2 x3 a b c : Int) :
    Verify.violated x1 x2 x3 a b c =
      if (decide (¬ (a > 0 ∧ x1 = 1) ∧ ¬ (a < 0 ∧ x1 = 0)) &&
        (decide (¬ (b > 0 ∧ x2 = 1) ∧ ¬ (b < 0 ∧ x2 = 0)) &&
          decide (¬ (c > 0 ∧ x3 = 1) ∧ ¬ (c < 0 ∧ x3 = 0)))) = true then 1 else 0 := by
  unfold Verify.violated
  by_cases h1 : a > 0 ∧ x1 = 1
  · simp [h1]
  · by_cases h2 : a < 0 ∧ x1 = 0
    · simp [h1, h2]
    · by_cases h3 : b > 0 ∧ x2 = 1
      · simp [h1, h2, h3]
      · by_cases h4 : b < 0 ∧ x2 = 0
        · simp [h1, h2, h3, h4]
        · by_cases h5 : c > 0 ∧ x3 = 1
          · simp [h1, h2, h3, h4, h5]
          · by_cases h6 : c < 0 ∧ x3 = 0
            · simp [h1, h2, h3, h4, h5, h6]
            · rw [if_neg h1, if_neg h2, if_neg h3, if_neg h4, if_neg h5, if_neg h6]
              simp only [h1, h2, h3, h4, h5, h6, not_false_eq_true, and_self, decide_True,
                Bool.and_self, if_true]

theorem verify_line_agrees (bs : Bits) (bits : List Int) (B : Nat) (hB : B ≤ 256)
    (hbits : ∀ i : Nat, i < B → (extract bs (i : Int) (B : Int)).val? = bits[i]?)
    (x : List Int) (cl : clause) (vc : Verify.clause) (hlen : x.length = 4)
    (hlits : ∀ l ∈ x.take 3, 1 ≤ |l| ∧ |l| ≤ (B : Int))
    (hdist : ((x.take 3).map (fun xj => |xj| - 1)).Nodup)
    (hload : loadClause x = some cl) (hscan : Verify.scanClause x = some vc) :
    ∃ xa xb xc, Verify.readBit bits (Verify.iabs vc.a - 1) = some xa ∧
      Verify.readBit bits (Verify.iabs vc.b - 1) = some xb ∧
      Verify.readBit bits (Verify.iabs vc.c - 1) = some xc ∧
      Verify.violated xa xb xc vc.a vc.b vc.c = violated bs cl := by
  match x, hlen with
  | [a, b, c, d], _ =>
    have e : vc = ⟨a, b, c⟩ := (Option.some.inj hscan).symm
    subst e
    obtain ⟨hvl, hnl, _, hnv, hvars, hnots, _⟩ := loadClause_shape _ cl hload
    have hnum : cl.numvars = 3 := by
      simp only [List.length_cons, List.length_nil] at hnv
      omega
    rw [hnum] at hvars hnots
    simp only [List.take_succ_cons, List.take_zero, List.map_cons, List.map_nil] at hvars hnots
    have ha := hlits a (by simp)
    have hb := hlits b (by simp)
    have hc := hlits c (by simp)
    obtain ⟨ka, hka⟩ : ∃ k : Nat, |a| - 1 = (k : Int) :=
      ⟨(|a| - 1).toNat, (Int.toNat_of_nonneg (by omega)).symm⟩
    obtain ⟨kb, hkb⟩ : ∃ k : Nat, |b| - 1 = (k : Int) :=
      ⟨(|b| - 1).toNat, (Int.toNat_of_nonneg (by omega)).symm⟩
    obtain ⟨kc, hkc⟩ : ∃ k : Nat, |c| - 1 = (k : Int) :=
      ⟨(|c| - 1).toNat, (Int.toNat_of_nonneg (by omega)).symm⟩
    have hrange : ∀ v ∈ cl.vars, 0 ≤ v ∧ v < 256 := by
      intro v hv
      rw [hvars] at hv
      simp only [List.mem_cons, List.mem_singleton, List.not_mem_nil, or_false] at hv
      rcases hv with rfl | rfl | rfl <;> omega
    have hnd : cl.vars.Nodup := by
      rw [hvars]
      simpa using hdist
    have hviol := violated_literal_lemma _ cl hload hrange hnd bs
    have hcv : clauseViolated bs cl =
        (literalFalse bs (|a| - 1) (if a < 0 then 1 else 0) &&
          (literalFalse bs (|b| - 1) (if b < 0 then 1 else 0) &&
            literalFalse bs (|c| - 1) (if c < 0 then 1 else 0))) := by
      unfold clauseViolated
      rw [hnum, hvars, hnots]
      simp
    rw [hcv, literalFalse_of_literal bs a ka hka (by omega),
      literalFalse_of_literal bs b kb hkb (by omega),
      literalFalse_of_literal bs c kc hkc (by omega)] at hviol
    refine ⟨_, _, _, verify_readBit_extract bs bits B hB hbits a ka hka ha.2,
      verify_readBit_extract bs bits B hB hbits b kb hkb hb.2,
      verify_readBit_extract bs bits B hB hbits c kc hkc hc.2, ?_⟩
    rw [hviol, verify_violated_eq]

theorem loadClauses_index : ∀ (lines : List (List Int)) (cs : List clause),
    loadClauses lines = some cs →
    ∀ (k : Nat) (c : clause), cs[k]? = some c → ∃ x, lines[k]? = some x ∧ loadClause x = some c := by
  intro lines
  induction lines with
  | nil =>
    intro cs h k c hk
    have e : cs = [] := (Option.some.inj h).symm
    subst e
    simp at hk
  | cons x xs ih =>
    intro cs h k c hk
    simp only [loadClauses] at h
    split at h
    · exact absurd h (by simp)
    · rename_i c0 hc0
      split at h
      · exact absurd h (by simp)
      · rename_i cs1 hcs1
        have e : cs = c0 :: cs1 := (Option.some.inj h).symm
        subst e
        cases k with
        | zero =>
          simp only [List.getElem?_cons_zero] at hk
          have e : c0 = c := Option.some.inj hk
          subst e
          exact ⟨x, by simp, hc0⟩
        | succ k =>
          simp only [List.getElem?_cons_succ] at hk ⊢
          exact ih cs1 hcs1 k c hk

theorem scanClauses_index : ∀ (lines : List (List Int)) (vcs : List Verify.clause),
    Verify.scanClauses lines = some vcs →
    vcs.length = lines.length ∧
    ∀ (k : Nat) (x : List Int), lines[k]? = some x →
      ∃ vc, vcs[k]? = some vc ∧ Verify.scanClause x = some vc := by
  intro lines
  induction lines with
  | nil =>
    intro vcs h
    have e : vcs = [] := (Option.some.inj h).symm
    subst e
    refine ⟨rfl, ?_⟩
    intro k x hk
    simp at hk
  | cons y ys ih =>
    intro vcs h
    simp only [Verify.scanClauses] at h
    split at h
    · exact absurd h (by simp)
    · rename_i c0 hc0
      split at h
      · exact absurd h (by simp)
      · rename_i cs1 hcs1
        have e : vcs = c0 :: cs1 := (Option.some.inj h).symm
        subst e
        obtain ⟨hl, hall⟩ := ih cs1 hcs1
        refine ⟨by simp [hl], ?_⟩
        intro k x hk
        cases k with
        | zero =>
          simp only [List.getElem?_cons_zero] at hk ⊢
          have e : y = x := Option.some.inj hk
          subst e
          exact ⟨c0, rfl, hc0⟩
        | succ k =>
          simp only [List.getElem?_cons_succ] at hk ⊢
          exact hall k x hk

theorem scanClauses_total : ∀ (lines : List (List Int)),
    (∀ x ∈ lines, x.length = 4) → ∃ vcs, Verify.scanClauses lines = some vcs := by
  intro lines
  induction lines with
  | nil => intro _; exact ⟨[], rfl⟩
  | cons x xs ih =>
    intro hs
    obtain ⟨vcs, hvcs⟩ := ih (fun y hy => hs y (List.mem_cons_of_mem _ hy))
    have hx := hs x (List.mem_cons_self _ _)
    match x, hx with
    | [a, b, c, d], _ =>
      exact ⟨⟨a, b, c⟩ :: vcs, by simp [Verify.scanClauses, Verify.scanClause, hvcs]⟩

theorem loadsat_clauses (B nc : Nat) (lines : List (List Int)) (sat : Instance)
    (h : loadsat (some (B, nc)) lines = .loaded sat) : loadClauses lines = some sat.clauses := by
  simp only [loadsat] at h
  split at h
  · exact absurd h (by simp)
  · split at h
    · exact absurd h (by simp)
    · rename_i cs hcs
      split at h
      · exact absurd h (by simp)
      · have e : sat = _ := (Loaded.loaded.inj h).symm
        subst e
        exact hcs

theorem sum_violated_eq_countP (bs : Bits) : ∀ cs : List clause,
    (cs.map (fun c => violated bs c)).sum =
      ((cs.countP (fun c => decide (violated bs c = 1)) : Nat) : Int) := by
  intro cs
  induction cs with
  | nil => rfl
  | cons c cs ih =>
    rw [List.map_cons, List.sum_cons, ih, List.countP_cons]
    rcases violated_eq_ite bs c with h | h
    · rw [h]
      simp
    · rw [h]
      simp
      ring

theorem numviolated_agrees (B nc : Nat) (lines : List (List Int)) (sat : Instance)
    (vcs : List Verify.clause) (hB : B ≤ 256)
    (hshape : ∀ x ∈ lines, x.length = 4)
    (hlits : ∀ x ∈ lines, ∀ l ∈ x.take 3, 1 ≤ |l| ∧ |l| ≤ (B : Int))
    (hdist : ∀ x ∈ lines, ((x.take 3).map (fun xj => |xj| - 1)).Nodup)
    (hload : loadsat (some (B, nc)) lines = .loaded sat)
    (hscan : Verify.scanClauses lines = some vcs)
    (bs : Bits) (bits : List Int)
    (hbits : ∀ i : Nat, i < B → (extract bs (i : Int) (B : Int)).val? = bits[i]?) :
    Verify.numviolated bits ⟨vcs, nc, (B : Int)⟩ = some (violatedCount sat bs) := by
  obtain ⟨_, hnc, hcl, _, _, _, _⟩ := loadsat_loaded B nc lines sat hload
  have hcs := loadsat_clauses B nc lines sat hload
  obtain ⟨hvl, hvidx⟩ := scanClauses_index lines vcs hscan
  obtain ⟨x, hx, hI⟩ := forLoop_inv (Verify.numviolatedStep bits ⟨vcs, nc, (B : Int)⟩)
    (fun k x => x = ((sat.clauses.take k).map (fun c => violated bs c)).sum)
    nc 0 0 (by simp)
    (by
      intro k x _ hk hI
      have hk' : sat.clauses[k]? = some sat.clauses[k] := List.getElem?_eq_getElem (by omega)
      obtain ⟨ln, hln, hlc⟩ := loadClauses_index lines sat.clauses hcs k _ hk'
      obtain ⟨vc, hvc, hsc⟩ := hvidx k ln hln
      have hmem : ln ∈ lines := List.getElem?_mem hln
      obtain ⟨xa, xb, xc, ra, rb, rc, hv⟩ := verify_line_agrees bs bits B hB hbits ln
        sat.clauses[k] vc (hshape ln hmem) (hlits ln hmem) (hdist ln hmem) hlc hsc
      refine ⟨x + violated bs sat.clauses[k], ?_, ?_⟩
      · unfold Verify.numviolatedStep
        simp only [hvc, ra, rb, rc, hv]
      · show x + violated bs sat.clauses[k] =
          ((sat.clauses.take (k + 1)).map (fun c => violated bs c)).sum
        rw [List.take_succ, hk', hI, List.map_append, List.sum_append]
        simp)
  unfold Verify.numviolated
  simp only
  rw [hx, hI]
  simp only [zero_add]
  rw [← hcl, List.take_length]
  rfl

/-- C14. The verifier agrees with the core: for clause lines that each hold
three non-zero literals on pairwise distinct variables in `1..B` (and the
terminator), with `B <= 256`, `loadsat` builds an instance, the verifier
reads its clauses, and for every assignment `bs` and every array `bits` with
`bits[i] = extract(bs,i,B)` for `i < B`, `numviolated` of verify.c returns
the number of clauses on which the bitmask test `violated(bs, c)` returns 1. -/
theorem verifier_agrees_with_core (B nc : Nat) (lines : List (List Int)) (hB : B ≤ 256)
    (hn : lines.length = nc) (hshape : ∀ x ∈ lines, x.length = 4)
    (hlits : ∀ x ∈ lines, ∀ l ∈ x.take 3, 1 ≤ |l| ∧ |l| ≤ (B : Int))
    (hdist : ∀ x ∈ lines, ((x.take 3).map (fun xj => |xj| - 1)).Nodup) :
    ∃ sat vcs, loadsat (some (B, nc)) lines = .loaded sat ∧
      Verify.scanClauses lines = some vcs ∧
      ∀ (bs : Bits) (bits : List Int),
        (∀ i : Nat, i < B → (extract bs (i : Int) (B : Int)).val? = bits[i]?) →
        Verify.numviolated bits ⟨vcs, nc, (B : Int)⟩ =
          some ((sat.clauses.countP (fun c => decide (violated bs c = 1)) : Nat) : Int) := by
  obtain ⟨sat, hsat⟩ := loadsat_total B nc lines hn
    (fun x hx => by rw [hshape x hx]; omega)
    (fun x hx l hl => by rw [hshape x hx] at hl; exact hlits x hx l hl)
    (fun x hx => by rw [hshape x hx]; exact hdist x hx)
  obtain ⟨vcs, hvcs⟩ := scanClauses_total lines hshape
  refine ⟨sat, vcs, hsat, hvcs, ?_⟩
  intro bs bits hbits
  rw [numviolated_agrees B nc lines sat vcs hB hshape hlits hdist hsat hvcs bs bits hbits]
  unfold violatedCount
  rw [sum_violated_eq_countP]

theorem verifier_agrees_with_core_witness :
    (∃ sat vcs, loadsat (some (3, 2)) threeSatLines = .loaded sat ∧
      Verify.scanClauses threeSatLines = some vcs ∧
      ∀ (bs : Bits) (bits : List Int),
        (∀ i : Nat, i < 3 → (extract bs (i : Int) ((3 : Nat) : Int)).val? = bits[i]?) →
        Verify.numviolated bits ⟨vcs, 2, ((3 : Nat) : Int)⟩ =
          some ((sat.clauses.countP (fun c => decide (violated bs c = 1)) : Nat) : Int)) ∧
    Verify.numviolated [1, 0, 1] ⟨[⟨1, -2, 3⟩, ⟨-1, 2, -3⟩], 2, 3⟩ = some 1 :=
  ⟨verifier_agrees_with_core 3 2 threeSatLines (by decide) (by decide) (by decide)
    (by decide) (by decide), by decide⟩

/-! ## The output format -/

theorem printInt_bit (t : Bool) :
    printInt (if t = true then 1 else 0) = [if t = true then '1' else '0'] := by
  cases t <;> decide

theorem bitChars_getElem (bs : Bits) (B i : Nat) (hi : i < B) :
    ((List.range B).map (fun j => if bs.testBit j = true then '1' else '0') ++ ['\n'])[i]? =
      some (if bs.testBit i = true then '1' else '0') := by
  rw [List.getElem?_append_left (by simp [hi]), List.getElem?_map, List.getElem?_range hi]
  rfl

theorem printLoop_spec (bs : Bits) (B : Nat) (hB : B ≤ 256) :
    forLoop (printBitsStep bs (B : Int)) 0 B [] =
      some ((List.range B).map (fun j => if bs.testBit j = true then '1' else '0')) := by
  obtain ⟨out, hout, hI⟩ := forLoop_inv (printBitsStep bs (B : Int))
    (fun k out => out = (List.range k).map (fun j => if bs.testBit j = true then '1' else '0'))
    B 0 [] (by simp)
    (by
      intro k out _ hk hI
      refine ⟨out ++ [if bs.testBit k = true then '1' else '0'], ?_, ?_⟩
      · unfold printBitsStep
        rw [extract_natCast bs k (B : Int) (by omega) (by omega)]
        simp only
        rw [printInt_bit]
      · show out ++ [if bs.testBit k = true then '1' else '0'] =
          (List.range (k + 1)).map (fun j => if bs.testBit j = true then '1' else '0')
        rw [List.range_succ, List.map_append, hI]
        rfl)
  rw [hout, hI]
  simp

theorem lineOf_terminated : ∀ body : List Char, (∀ ch ∈ body, ch ≠ '\n') →
    Verify.lineOf (body ++ ['\n']) = body ++ ['\n'] := by
  intro body
  induction body with
  | nil => intro _; rfl
  | cons c cs ih =>
    intro h
    have hc : c ≠ '\n' := h c (List.mem_cons_self _ _)
    show Verify.lineOf (c :: (cs ++ ['\n'])) = c :: (cs ++ ['\n'])
    unfold Verify.lineOf
    rw [if_neg hc, ih (fun ch hch => h ch (List.mem_cons_of_mem _ hch))]

theorem parseLoop_spec (bs : Bits) (B : Nat) :
    forLoop (Verify.parseStep
        ((List.range B).map (fun j => if bs.testBit j = true then '1' else '0') ++ ['\n'])) 0 B [] =
      some ((List.range B).map (fun j => if bs.testBit j = true then (1 : Int) else 0)) := by
  obtain ⟨bits, hbits, hI⟩ := forLoop_inv (Verify.parseStep
      ((List.range B).map (fun j => if bs.testBit j = true then '1' else '0') ++ ['\n']))
    (fun k bits => bits = (List.range k).map (fun j => if bs.testBit j = true then (1 : Int) else 0))
    B 0 [] (by simp)
    (by
      intro k bits _ hk hI
      refine ⟨bits ++ [if bs.testBit k = true then 1 else 0], ?_, ?_⟩
      · unfold Verify.parseStep
        rw [bitChars_getElem bs B k (by omega)]
        cases bs.testBit k
        · simp
        · simp
      · show bits ++ [if bs.testBit k = true then 1 else 0] =
          (List.range (k + 1)).map (fun j => if bs.testBit j = true then (1 : Int) else 0)
        rw [List.range_succ, List.map_append, hI]
        rfl)
  rw [hbits, hI]
  simp

/-- C15. Output format round trip: for `B <= 256`, `print_bits(bs, B)` writes
exactly `B` characters and a newline, character `i` being `1` when bit `i` of
`bs` is set and `0` otherwise (variable 0 first); the bitstring parsing of the
verifier on that line gets `stringlength == B` and `bits[i]` equal to
`extract(bs, i, B)` for every `i < B`. -/
theorem output_format_round_trip (bs : Bits) (B : Nat) (hB : B ≤ 256) :
    ∃ out, print_bits bs (B : Int) = some out ∧ out.length = B + 1 ∧
      (∀ i : Nat, i < B → out[i]? = some (if bs.testBit i = true then '1' else '0')) ∧
      out[B]? = some '\n' ∧
      ∃ bits, Verify.parseBits out = some ((B : Int), bits) ∧ bits.length = B ∧
        ∀ i : Nat, i < B → (extract bs (i : Int) (B : Int)).val? = bits[i]? := by
  refine ⟨(List.range B).map (fun j => if bs.testBit j = true then '1' else '0') ++ ['\n'],
    ?_, by simp, fun i hi => bitChars_getElem bs B i hi, ?_,
    (List.range B).map (fun j => if bs.testBit j = true then (1 : Int) else 0), ?_, by simp, ?_⟩
  · unfold print_bits
    rw [Int.toNat_ofNat, printLoop_spec bs B hB]
    rfl
  · rw [List.getElem?_append_right (by simp)]
    simp
  · unfold Verify.parseBits Verify.getline
    rw [if_neg (by simp), lineOf_terminated _ (by
      intro ch hch
      obtain ⟨j, _, rfl⟩ := List.mem_map.1 hch
      cases bs.testBit j <;> decide)]
    simp only [List.length_append, List.length_map, List.length_range, List.length_singleton]
    have e : (((B + 1 : Nat) : Int) - 1) = (B : Int) := by push_cast; ring
    rw [e, Int.toNat_ofNat, parseLoop_spec bs B]
    rfl
  · intro i hi
    rw [extract_natCast bs i (B : Int) (by omega) (by omega), List.getElem?_map,
      List.getElem?_range hi]
    rfl

theorem output_format_round_trip_witness :
    (∃ out, print_bits ⟨5, 0, 0, 0⟩ ((3 : Nat) : Int) = some out ∧ out.length = 3 + 1 ∧
      (∀ i : Nat, i < 3 →
        out[i]? = some (if (⟨5, 0, 0, 0⟩ : Bits).testBit i = true then '1' else '0')) ∧
      out[3]? = some '\n' ∧
      ∃ bits, Verify.parseBits out = some (((3 : Nat) : Int), bits) ∧ bits.length = 3 ∧
        ∀ i : Nat, i < 3 →
          (extract ⟨5, 0, 0, 0⟩ (i : Int) ((3 : Nat) : Int)).val? = bits[i]?) ∧
    print_bits ⟨5, 0, 0, 0⟩ 3 = some ['1', '0', '1', '\n'] ∧
    Verify.parseBits ['1', '0', '1', '\n'] = some (3, [1, 0, 1]) :=
  ⟨output_format_round_trip ⟨5, 0, 0, 0⟩ 3 (by decide), by decide, by decide⟩

/-! ## The out-of-range policies of bern and tern -/

theorem truncToInt_of_nonneg (x : ℚ) (h : 0 ≤ x) : truncToInt x = ⌊x⌋ := by
  unfold truncToInt
  rw [if_pos h]

theorem rand_le (g : Rng) : (rand g).1 ≤ RAND_MAX := by
  unfold rand
  simp only
  have h : g.draws g.pos % (RAND_MAX + 1) < RAND_MAX + 1 := Nat.mod_lt _ (Nat.succ_pos RAND_MAX)
  omega

/-- C21. The out-of-range policy of `bern`: for every `p < 0` it returns 1,
for every `p > 1` it returns 0, in both cases whatever the state of the
generator and leaving that state as it was (no draw is consumed). -/
theorem bern_out_of_range (p : ℚ) (g : Rng) :
    (p < 0 → bern p g = (1, g)) ∧ (p > 1 → bern p g = (0, g)) := by
  constructor
  · intro h
    unfold bern
    rw [if_pos h]
  · intro h
    unfold bern
    rw [if_neg (by linarith), if_pos h]

theorem bern_out_of_range_witness :
    bern (-1) sampleRng = (1, sampleRng) ∧ bern 2 sampleRng = (0, sampleRng) :=
  ⟨(bern_out_of_range (-1) sampleRng).1 (by norm_num),
    (bern_out_of_range 2 sampleRng).2 (by norm_num)⟩

/-- The contract of `tern` in exact arithmetic: on invalid arguments (`p0 < 0`, `p1 < 0`
or `p0 + p1 > 1`) it returns 0 and consumes no draw; on valid arguments it
consumes one draw `r` in `[0, RAND_MAX]` and returns 0 when
`r < floor(p0*RAND_MAX)`, 1 when `floor(p0*RAND_MAX) <= r <
floor((p0+p1)*RAND_MAX)`, and 2 otherwise. -/
theorem tern_contract (p0 p1 : ℚ) (g : Rng) :
    (p0 < 0 ∨ p1 < 0 ∨ p0 + p1 > 1 → tern p0 p1 g = (0, g)) ∧
    (0 ≤ p0 → 0 ≤ p1 → p0 + p1 ≤ 1 →
      (rand g).1 ≤ RAND_MAX ∧ (rand g).2.pos = g.pos + 1 ∧
      (((rand g).1 : Int) < ⌊p0 * (RAND_MAX : ℚ)⌋ → tern p0 p1 g = (0, (rand g).2)) ∧
      (⌊p0 * (RAND_MAX : ℚ)⌋ ≤ ((rand g).1 : Int) →
        ((rand g).1 : Int) < ⌊(p0 + p1) * (RAND_MAX : ℚ)⌋ → tern p0 p1 g = (1, (rand g).2)) ∧
      (¬ (((rand g).1 : Int) < ⌊p0 * (RAND_MAX : ℚ)⌋) →
        ¬ (⌊p0 * (RAND_MAX : ℚ)⌋ ≤ ((rand g).1 : Int) ∧
          ((rand g).1 : Int) < ⌊(p0 + p1) * (RAND_MAX : ℚ)⌋) →
        tern p0 p1 g = (2, (rand g).2))) := by
  constructor
  · intro h
    have hinv : ternInvalid p0 p1 := h
    unfold tern
    rw [if_pos hinv]
  · intro h0 h1 h01
    have hvalid : ¬ ternInvalid p0 p1 := by
      unfold ternInvalid
      intro h
      rcases h with h | h | h <;> linarith
    have hR : (0 : ℚ) ≤ (RAND_MAX : ℚ) := by exact_mod_cast Nat.zero_le _
    have t1 : truncToInt (p0 * (RAND_MAX : ℚ)) = ⌊p0 * (RAND_MAX : ℚ)⌋ :=
      truncToInt_of_nonneg _ (mul_nonneg h0 hR)
    have t2 : truncToInt ((p0 + p1) * (RAND_MAX : ℚ)) = ⌊(p0 + p1) * (RAND_MAX : ℚ)⌋ :=
      truncToInt_of_nonneg _ (mul_nonneg (by linarith) hR)
    refine ⟨rand_le g, rfl, ?_, ?_, ?_⟩
    · intro hr
      unfold tern
      rw [if_neg hvalid]
      simp only [t1, t2]
      rw [if_pos hr]
    · intro hr1 hr2
      unfold tern
      rw [if_neg hvalid]
      simp only [t1, t2]
      rw [if_neg (by omega), if_pos hr2]
    · intro hr1 hr2
      unfold tern
      rw [if_neg hvalid]
      simp only [t1, t2]
      rw [if_neg hr1, if_neg (by
        intro hlt
        exact hr2 ⟨by omega, hlt⟩)]

theorem tern_contract_witness :
    tern (-1) (1 / 2) sampleRng = (0, sampleRng) ∧
    tern 1 0 ⟨fun _ => 5, 0⟩ = (0, (rand ⟨fun _ => 5, 0⟩).2) :=
  ⟨(tern_contract (-1) (1 / 2) sampleRng).1 (Or.inl (by norm_num)),
    ((tern_contract 1 0 ⟨fun _ => 5, 0⟩).2 (by norm_num) (by norm_num) (by norm_num)).2.2.1
      (by
        have e : ⌊(1 : ℚ) * (RAND_MAX : ℚ)⌋ = (RAND_MAX : Int) := by
          rw [one_mul]
          exact Int.floor_natCast _
        rw [e]
        decide)⟩

/-! ## Full-capacity copy and zero; in-range accesses; the frame of flip -/

/-- C23. Copy and zero act on the full physical capacity: for every `src`,
`dest` and every `B`, the loop of `copy_bits` runs inside both arrays, leaves
`src` as it was and makes all four words of `dest` those of `src`; the loop
of `init_bits` sets all four words to zero. -/
theorem copy_and_zero_full_capacity (src dest bs : Bits) (B : Int) :
    copyBitsLoop src dest = some (src, copy_bits src dest B) ∧
    (copy_bits src dest B).w0 = src.w0 ∧ (copy_bits src dest B).w1 = src.w1 ∧
    (copy_bits src dest B).w2 = src.w2 ∧ (copy_bits src dest B).w3 = src.w3 ∧
    initBitsLoop bs = some (init_bits bs B) ∧
    (init_bits bs B).w0 = 0 ∧ (init_bits bs B).w1 = 0 ∧
    (init_bits bs B).w2 = 0 ∧ (init_bits bs B).w3 = 0 := by
  refine ⟨?_, rfl, rfl, rfl, rfl, ?_, rfl, rfl, rfl, rfl⟩
  · obtain ⟨s0, s1, s2, s3⟩ := src
    obtain ⟨d0, d1, d2, d3⟩ := dest
    rfl
  · obtain ⟨b0, b1, b2, b3⟩ := bs
    rfl

/-- C29. In-range accesses stay inside the four words: for `B <= 256` and
`0 <= i < B` the word index `i>>6` is in `{0,1,2,3}`, the shift
`i - 64*(i>>6)` is in `[0,63]`, the guard `i >= B` does not fire, and both
`extract` and `flip` take their normal path, reading (and, for `flip`,
writing) a word inside the array. -/
theorem in_range_access (bs : Bits) (i B : Int) (h0 : 0 ≤ i) (hi : i < B) (hB : B ≤ 256) :
    0 ≤ wordIndex i ∧ wordIndex i < 4 ∧ 0 ≤ bitShift i ∧ bitShift i ≤ 63 ∧
    bitShift i = i - 64 * wordIndex i ∧ ¬ (i ≥ B) ∧
    (∃ w, bs.read (wordIndex i) = some w ∧
      extract bs i B = .ok (if w &&& (1 <<< (bitShift i).toNat) ≠ 0 then 1 else 0)) ∧
    ∃ w bs1, bs.read (wordIndex i) = some w ∧
      bs.write (wordIndex i) (w ^^^ (1 <<< (bitShift i).toNat)) = some bs1 ∧
      flip bs i B = .ok bs1 := by
  have hw : wordIndex i = i / 64 := wordIndex_eq i
  have hs : bitShift i = i % 64 := bitShift_eq i
  have hw0 : 0 ≤ wordIndex i := by rw [hw]; omega
  have hw4 : wordIndex i < 4 := by rw [hw]; omega
  have hread : bs.read (wordIndex i) = some (bs.word (wordIndex i).toNat) := by
    unfold Bits.read
    rw [if_pos ⟨hw0, hw4⟩]
  have hwrite : ∀ v, bs.write (wordIndex i) v = some (bs.setWord (wordIndex i).toNat v) := by
    intro v
    unfold Bits.write
    rw [if_pos ⟨hw0, hw4⟩]
  refine ⟨hw0, hw4, by rw [hs]; omega, by rw [hs]; omega, by rw [hs, hw]; omega, by omega,
    ⟨_, hread, ?_⟩, ⟨_, _, hread, hwrite _, ?_⟩⟩
  · unfold extract
    rw [if_neg (by omega), hread]
    simp only
    split <;> rfl
  · unfold flip
    rw [if_neg (by omega), hread]
    simp only [hwrite]

theorem in_range_access_witness :
    wordIndex 200 < 4 ∧ bitShift 200 ≤ 63 ∧
      ∃ w bs1, (⟨1, 2, 3, 4⟩ : Bits).read (wordIndex 200) = some w ∧
        (⟨1, 2, 3, 4⟩ : Bits).write (wordIndex 200) (w ^^^ (1 <<< (bitShift 200).toNat)) =
          some bs1 ∧ flip ⟨1, 2, 3, 4⟩ 200 256 = .ok bs1 :=
  ⟨(in_range_access ⟨1, 2, 3, 4⟩ 200 256 (by decide) (by decide) (by decide)).2.1,
    (in_range_access ⟨1, 2, 3, 4⟩ 200 256 (by decide) (by decide) (by decide)).2.2.2.1,
    (in_range_access ⟨1, 2, 3, 4⟩ 200 256 (by decide) (by decide) (by decide)).2.2.2.2.2.2.2⟩

theorem extract_toggle (bs : Bits) (n j : Nat) (hn : n < 256) (hj : j < 256) :
    extract (bs.toggle n) (j : Int) 256 =
      .ok (if (bs.testBit j ^^ decide (j = n)) = true then 1 else 0) := by
  rw [extract_natCast _ j 256 hj (by omega), Bits.testBit_toggle bs n j hn]

/-- C25. The call `flip(bs, i, B)` toggles exactly one bit: for
`0 <= i < B <= 256` it takes its normal path, the bit that `extract` (with
capacity 256) reads at position `i` is negated, and at every other position
`0 <= j < 256` it reads the old value. -/
theorem flip_toggles_one_bit (bs : Bits) (i B : Int) (h0 : 0 ≤ i) (hi : i < B) (hB : B ≤ 256) :
    ∃ bs1, flip bs i B = .ok bs1 ∧
      (∃ v, extract bs i 256 = .ok v ∧ (v = 0 ∨ v = 1) ∧ extract bs1 i 256 = .ok (1 - v)) ∧
      ∀ j : Int, 0 ≤ j → j < 256 → j ≠ i → extract bs1 j 256 = extract bs j 256 := by
  obtain ⟨n, rfl⟩ : ∃ n : Nat, i = (n : Int) := ⟨i.toNat, (Int.toNat_of_nonneg h0).symm⟩
  have hn : n < 256 := by omega
  refine ⟨bs.toggle n, flip_natCast bs n B hn hi, ?_, ?_⟩
  · refine ⟨if bs.testBit n = true then 1 else 0, extract_natCast bs n 256 hn (by omega), ?_, ?_⟩
    · cases bs.testBit n <;> simp
    · rw [extract_toggle bs n n hn hn]
      cases bs.testBit n <;> simp
  · intro j hj0 hj hne
    obtain ⟨m, rfl⟩ : ∃ m : Nat, j = (m : Int) := ⟨j.toNat, (Int.toNat_of_nonneg hj0).symm⟩
    have hm : m < 256 := by omega
    have hmn : m ≠ n := by
      intro e
      exact hne (by rw [e])
    rw [extract_toggle bs n m hn hm, extract_natCast bs m 256 hm (by omega)]
    simp [hmn]

theorem flip_toggles_one_bit_witness :
    ∃ bs1, flip ⟨5, 0, 0, 0⟩ 2 3 = .ok bs1 ∧
      (∃ v, extract ⟨5, 0, 0, 0⟩ 2 256 = .ok v ∧ (v = 0 ∨ v = 1) ∧
        extract bs1 2 256 = .ok (1 - v)) ∧
      ∀ j : Int, 0 ≤ j → j < 256 → j ≠ 2 → extract bs1 j 256 = extract ⟨5, 0, 0, 0⟩ j 256 :=
  flip_toggles_one_bit ⟨5, 0, 0, 0⟩ 2 3 (by decide) (by decide) (by decide)

/-! ## The loader has no capacity check -/

/-- C24 fails on the header `p cnf 257 1` with the clause line `1 2 3 0`:
`loadsat` returns success with `B = 257`, and a `flip` of bit 256 of a walker
(as `randomize` and `hop` issue for this `B`) indexes word 4 of a four-word
array. The arity part of the claim holds: every clause of a loaded instance
has at most three literals. -/
theorem loadsat_accepts_oversized_header :
    (∃ sat, loadsat (some (257, 1)) [[1, 2, 3, 0]] = .loaded sat ∧ sat.B = 257 ∧
      ∀ bs : Bits, flip bs 256 (sat.B : Int) = .fault) ∧
    ∀ (B nc : Nat) (lines : List (List Int)) (sat : Instance),
      loadsat (some (B, nc)) lines = .loaded sat → ∀ c ∈ sat.clauses, c.numvars ≤ 3 := by
  constructor
  · obtain ⟨sat, hsat⟩ := loadsat_total 257 1 [[1, 2, 3, 0]] rfl (by decide) (by decide)
      (by decide)
    obtain ⟨hB, _⟩ := loadsat_loaded 257 1 _ sat hsat
    refine ⟨sat, hsat, hB, ?_⟩
    intro bs
    rw [hB]
    rfl
  · intro B nc lines sat h c hc
    obtain ⟨_, _, _, _, hall, _, _⟩ := loadsat_loaded B nc lines sat h
    obtain ⟨x, _, hx⟩ := hall c hc
    obtain ⟨_, _, h3, _⟩ := loadClause_shape x c hx
    exact h3

/-! ## The hop is a single-bit move -/

/-- C26. The hop is a single-bit move: on an instance with `1 <= B <= 256`,
whenever `hop(cur, pro, sat)` returns, `cur` is as it was (bit vector and
`unsat`) and `pro->bs` is `cur->bs` with one bit `b` in `[0,B)` flipped, so
the two differ in position `b` and in no other; on an instance built by
`loadsat` the call always returns. -/
theorem hop_single_bit_move (sat : Instance) (hB1 : 1 ≤ sat.B) (hB2 : sat.B ≤ 256)
    (cur pro : walker) (g : Rng) :
    (∀ r, hop cur pro sat g = some r →
      r.1 = cur ∧ ∃ b : Nat, b < sat.B ∧ flip cur.bs (b : Int) (sat.B : Int) = .ok r.2.1.bs ∧
        ∀ j : Nat, j < 256 → (r.2.1.bs.testBit j ≠ cur.bs.testBit j ↔ j = b)) ∧
    (∀ (B nc : Nat) (lines : List (List Int)), loadsat (some (B, nc)) lines = .loaded sat →
      ∃ r, hop cur pro sat g = some r) := by
  constructor
  · intro r h
    obtain ⟨hbs, _⟩ := hop_bits cur pro sat g r h hB1 hB2
    have hb : (rand g).1 % sat.B < sat.B := Nat.mod_lt _ (by omega)
    refine ⟨hop_fst cur pro sat g r h, (rand g).1 % sat.B, hb, ?_, ?_⟩
    · rw [hbs]
      exact flip_natCast cur.bs _ _ (by omega) (by exact_mod_cast hb)
    · intro j _
      rw [hbs, Bits.testBit_toggle cur.bs _ j (by omega)]
      by_cases hj : j = (rand g).1 % sat.B
      · simp [hj]
      · simp [hj]
  · intro B nc lines h
    obtain ⟨hB, _⟩ := loadsat_loaded B nc lines sat h
    obtain ⟨p1, g1, hp⟩ := hop_total B nc lines sat h (by omega) (by omega) cur pro g
    exact ⟨_, hp⟩

theorem hop_single_bit_move_witness :
    ∃ r, hop ⟨⟨5, 0, 0, 0⟩, 1⟩ ⟨⟨7, 7, 7, 7⟩, 9⟩ sampleInstance sampleRng = some r ∧
      r.1 = ⟨⟨5, 0, 0, 0⟩, 1⟩ ∧ ∃ b : Nat, b < sampleInstance.B ∧
        flip (⟨5, 0, 0, 0⟩ : Bits) (b : Int) (sampleInstance.B : Int) = .ok r.2.1.bs ∧
        ∀ j : Nat, j < 256 →
          (r.2.1.bs.testBit j ≠ (⟨5, 0, 0, 0⟩ : Bits).testBit j ↔ j = b) := by
  obtain ⟨r, hr⟩ := (hop_single_bit_move sampleInstance (by decide) (by decide)
    ⟨⟨5, 0, 0, 0⟩, 1⟩ ⟨⟨7, 7, 7, 7⟩, 9⟩ sampleRng).2 3 2 sampleLines sample_loaded
  exact ⟨r, hr, (hop_single_bit_move sampleInstance (by decide) (by decide)
    ⟨⟨5, 0, 0, 0⟩, 1⟩ ⟨⟨7, 7, 7, 7⟩, 9⟩ sampleRng).1 r hr⟩

/-! ## Initialisation establishes the cache -/

theorem ite_pair_snd {α β : Type} (c : Prop) [Decidable c] (a b : α) (x : β) :
    (if c then (a, x) else (b, x)).2 = x := by
  split <;> rfl

theorem bern_rng (p : ℚ) (h0 : 0 ≤ p) (h1 : p ≤ 1) (g : Rng) :
    (bern p g).2 = ⟨g.draws, g.pos + 1⟩ := by
  unfold bern
  rw [if_neg (not_lt.2 h0), if_neg (not_lt.2 h1)]
  exact ite_pair_snd _ _ _ _

theorem half_nonneg : (0 : ℚ) ≤ 1 / 2 := by norm_num

theorem half_le_one : (1 / 2 : ℚ) ≤ 1 := by norm_num

theorem bern_half_rng (g : Rng) : (bern (1 / 2) g).2 = ⟨g.draws, g.pos + 1⟩ :=
  bern_rng (1 / 2) half_nonneg half_le_one g

theorem xor_step_true (a e : Bool) (j k : Nat) (hjk : decide (j = k) = true → e = true) :
    ((a ^^ (decide (j < k) && e)) ^^ decide (j = k)) = (a ^^ (decide (j < k + 1) && e)) := by
  by_cases h1 : j < k
  · have h2 : j ≠ k := by omega
    have h3 : j < k + 1 := by omega
    simp [h1, h2, h3]
  · by_cases h2 : j = k
    · have h3 : j < k + 1 := by omega
      have he : e = true := hjk (by simp [h2])
      simp [h1, h2, he]
    · have h3 : ¬ j < k + 1 := by omega
      simp [h1, h2, h3]

theorem xor_step_false (a e : Bool) (j k : Nat) (hjk : j = k → e = false) :
    (a ^^ (decide (j < k) && e)) = (a ^^ (decide (j < k + 1) && e)) := by
  by_cases h1 : j < k
  · have h3 : j < k + 1 := by omega
    simp [h1, h3]
  · by_cases h2 : j = k
    · have he : e = false := hjk h2
      simp [h1, he]
    · have h3 : ¬ j < k + 1 := by omega
      simp [h1, h3]

theorem randomizeBits_spec (B : Nat) (hB : B ≤ 256) (bs0 : Bits) (g : Rng) :
    ∃ bs1, forLoop (randomizeBits B) 0 B (bs0, g) = some (bs1, ⟨g.draws, g.pos + B⟩) ∧
      ∀ j : Nat, bs1.testBit j = (bs0.testBit j ^^
        (decide (j < B) && decide ((bern (1 / 2) ⟨g.draws, g.pos + j⟩).1 = 1))) := by
  obtain ⟨r, hr, hg, hbits⟩ := forLoop_inv (randomizeBits B)
    (fun k st => st.2 = ⟨g.draws, g.pos + k⟩ ∧
      ∀ j : Nat, st.1.testBit j = (bs0.testBit j ^^
        (decide (j < k) && decide ((bern (1 / 2) ⟨g.draws, g.pos + j⟩).1 = 1))))
    B 0 (bs0, g) ⟨rfl, by intro j; simp⟩
    (by
      rintro k ⟨bs, g0⟩ _ hk ⟨hg, hbits⟩
      simp only at hg hbits
      subst hg
      by_cases hval : (bern (1 / 2) ⟨g.draws, g.pos + k⟩).1 = 1
      · refine ⟨(bs.toggle k, ⟨g.draws, g.pos + (k + 1)⟩), ?_, rfl, ?_⟩
        · unfold randomizeBits
          simp only
          rw [if_pos hval, flip_natCast _ _ _ (by omega) (by omega), bern_half_rng]
          rfl
        · intro j
          show (bs.toggle k).testBit j = _
          rw [Bits.testBit_toggle bs k j (by omega), hbits j]
          apply xor_step_true
          intro hjk
          have e : j = k := of_decide_eq_true hjk
          rw [e]
          exact decide_eq_true hval
      · refine ⟨(bs, ⟨g.draws, g.pos + (k + 1)⟩), ?_, rfl, ?_⟩
        · unfold randomizeBits
          simp only
          rw [if_neg hval, bern_half_rng]
          rfl
        · intro j
          show bs.testBit j = _
          rw [hbits j]
          apply xor_step_false
          intro e
          rw [e]
          exact decide_eq_false hval)
  obtain ⟨bs1, g1⟩ := r
  simp only at hg hbits
  subst hg
  refine ⟨bs1, ?_, ?_⟩
  · rw [hr]
    simp
  · intro j
    rw [hbits j]
    simp

theorem randomize_bits_and_cache (sat : Instance) (hB : sat.B ≤ 256)
    (hn : sat.numclauses = sat.clauses.length) (W : Nat) (warray : List walker)
    (hl : warray.length = W) (hz : ∀ wk ∈ warray, wk.bs = zeroBits) (g : Rng) :
    ∃ cur, randomize warray W sat g = some (cur, ⟨g.draws, g.pos + W * sat.B⟩) ∧
      cur.length = W ∧
      ∀ w : Nat, w < W → ∃ wk, cur[w]? = some wk ∧ wk.unsat = violatedCount sat wk.bs ∧
        ∀ b : Nat, wk.bs.testBit b = (decide (b < sat.B) &&
          decide ((bern (1 / 2) ⟨g.draws, g.pos + w * sat.B + b⟩).1 = 1)) := by
  obtain ⟨r, hr, hg, hlen, hrest, hall⟩ := forLoop_inv (randomizeWalker sat)
    (fun k st => st.2 = ⟨g.draws, g.pos + k * sat.B⟩ ∧ st.1.length = W ∧
      (∀ j : Nat, k ≤ j → st.1[j]? = warray[j]?) ∧
      ∀ w : Nat, w < k → ∃ wk, st.1[w]? = some wk ∧ wk.unsat = violatedCount sat wk.bs ∧
        ∀ b : Nat, wk.bs.testBit b = (decide (b < sat.B) &&
          decide ((bern (1 / 2) ⟨g.draws, g.pos + w * sat.B + b⟩).1 = 1)))
    W 0 (warray, g) ⟨by simp, hl, fun _ _ => rfl, by intro w hw; omega⟩
    (by
      rintro k ⟨arr, g0⟩ _ hk ⟨hg, hlen, hrest, hall⟩
      simp only at hg hlen hrest hall
      subst hg
      have hk' : arr[k]? = some arr[k] := List.getElem?_eq_getElem (by omega)
      have hkw : warray[k]? = some arr[k] := by rw [← hrest k (le_refl k), hk']
      have hzero : (arr[k]).bs = zeroBits := hz _ (List.getElem?_mem hkw)
      obtain ⟨bs1, hloop, hbits⟩ := randomizeBits_spec sat.B hB (arr[k]).bs
        ⟨g.draws, g.pos + k * sat.B⟩
      have hcount := countLoop_spec sat bs1 hn
      refine ⟨(arr.set k { bs := bs1, unsat := violatedCount sat bs1 },
        ⟨g.draws, g.pos + k * sat.B + sat.B⟩), ?_, ?_, ?_, ?_, ?_⟩
      · unfold randomizeWalker
        simp only [hk', hloop, hcount]
      · show (⟨g.draws, g.pos + k * sat.B + sat.B⟩ : Rng) = ⟨g.draws, g.pos + (k + 1) * sat.B⟩
        congr 1
        ring
      · simp [hlen]
      · intro j hj
        show (arr.set k _)[j]? = warray[j]?
        rw [List.getElem?_set_ne (by omega)]
        exact hrest j (by omega)
      · intro w hw
        show ∃ wk, (arr.set k _)[w]? = some wk ∧ _
        by_cases hwk : w = k
        · subst hwk
          refine ⟨_, List.getElem?_set_self (by omega), rfl, ?_⟩
          intro b
          show bs1.testBit b = _
          rw [hbits b, hzero, zeroBits_testBit]
          simp
        · rw [List.getElem?_set_ne (Ne.symm hwk)]
          exact hall w (by omega))
  obtain ⟨cur, g1⟩ := r
  simp only at hg hlen hrest hall
  subst hg
  refine ⟨cur, ?_, hlen, fun w hw => hall w (by omega)⟩
  unfold randomize
  rw [hr]
  simp

/-- C27. Initialisation establishes the cache: on an instance with `B <= 256`
(whose clause array has `numclauses` entries) and an array of `W` walkers
with all-zero bit vectors, `randomize` returns after `W*B` draws; every
walker's `unsat` is then the number of clauses on which `violated` returns 1
for its bit vector, and bit `b < B` of walker `w` is set exactly when the
`bern(0.5)` call for that bit (draw number `w*B + b`) returned 1. -/
theorem randomize_establishes_cache (sat : Instance) (hB : sat.B ≤ 256)
    (hn : sat.numclauses = sat.clauses.length) (W : Nat) (warray : List walker)
    (hl : warray.length = W) (hz : ∀ wk ∈ warray, wk.bs = ⟨0, 0, 0, 0⟩) (g : Rng) :
    ∃ cur, randomize warray W sat g = some (cur, ⟨g.draws, g.pos + W * sat.B⟩) ∧
      cur.length = W ∧
      ∀ w : Nat, w < W → ∃ wk, cur[w]? = some wk ∧
        wk.unsat = ((sat.clauses.countP (fun c => decide (violated wk.bs c = 1)) : Nat) : Int) ∧
        ∀ b : Nat, b < sat.B →
          (wk.bs.testBit b = true ↔
            (bern (1 / 2) ⟨g.draws, g.pos + w * sat.B + b⟩).1 = 1) := by
  obtain ⟨cur, hr, hlen, hall⟩ := randomize_bits_and_cache sat hB hn W warray hl hz g
  refine ⟨cur, hr, hlen, ?_⟩
  intro w hw
  obtain ⟨wk, hwk, hu, hbits⟩ := hall w hw
  refine ⟨wk, hwk, ?_, ?_⟩
  · rw [hu]
    unfold violatedCount
    exact sum_violated_eq_countP wk.bs sat.clauses
  · intro b hb
    rw [hbits b]
    simp [hb]

theorem randomize_establishes_cache_witness :
    ∃ cur, randomize [⟨⟨0, 0, 0, 0⟩, 7⟩, ⟨⟨0, 0, 0, 0⟩, 9⟩] 2 sampleInstance sampleRng =
        some (cur, ⟨sampleRng.draws, sampleRng.pos + 2 * sampleInstance.B⟩) ∧
      cur.length = 2 ∧
      ∀ w : Nat, w < 2 → ∃ wk, cur[w]? = some wk ∧
        wk.unsat = ((sampleInstance.clauses.countP
          (fun c => decide (violated wk.bs c = 1)) : Nat) : Int) ∧
        ∀ b : Nat, b < sampleInstance.B →
          (wk.bs.testBit b = true ↔
            (bern (1 / 2) ⟨sampleRng.draws, sampleRng.pos + w * sampleInstance.B + b⟩).1 = 1) :=
  randomize_establishes_cache sampleInstance (by decide) (by decide) 2
    [⟨⟨0, 0, 0, 0⟩, 7⟩, ⟨⟨0, 0, 0, 0⟩, 9⟩] (by decide) (by decide) sampleRng

/-! ## Termination of the walk loop, with its bound -/

theorem loopHead_pass_time (B nc : Nat) (lines : List (List Int)) (sat : Instance)
    (h : loadsat (some (B, nc)) lines = .loaded sat) (hB1 : 1 ≤ B) (hB2 : B ≤ 256)
    (hrep : ∀ c ∈ sat.clauses, ∀ v : Int, c.vars.count v ≤ 2)
    (W : Nat) (hW : 1 ≤ W) (duration vscale : ℚ) (hd : 0 < duration) (hv : 0 ≤ vscale)
    (st0 : WalkState) (hc0 : st0.cur.length = W) (hp0 : st0.pro.length = W)
    (hinv0 : CacheOk sat st0.cur) (ht0 : st0.time = 0) (hw0 : st0.winners = 0) :
    ∀ (n : Nat) (st : WalkState), loopHead sat W duration vscale st0 n = some st →
      ∃ st1, walkIter sat W duration vscale st = some st1 ∧
        st.time + (99 / 100) / max 1 (vscale * (nc : ℚ)) ≤ st1.time := by
  intro n st hst
  obtain ⟨hc, hp, hinv, _⟩ := loopHead_cache B nc lines sat h hB1 hB2 hrep W hW duration vscale
    st0 hc0 hp0 hinv0 hw0 n st hst
  obtain ⟨t0, t1⟩ := loopHead_time sat W duration vscale hd hv st0 ht0 n st hst
  obtain ⟨st1, umin, umax, hit, _, _, _, htime, hmm, hspread⟩ :=
    walkIter_full B nc lines sat h hB1 hB2 hrep W hW duration vscale st hc hp hinv
  have hs0 : 0 ≤ st.time / duration := div_nonneg t0 (le_of_lt hd)
  have hs1 : st.time / duration < 1 := (div_lt_one hd).2 t1
  have hlow := timestep_lower (st.time / duration) vscale umin umax nc hs0 hs1 hv hmm hspread
  exact ⟨st1, hit, by rw [htime]; linarith⟩

theorem loopHead_time_lower (sat : Instance) (W : Nat) (duration vscale δ : ℚ)
    (st0 : WalkState) (ht0 : st0.time = 0)
    (hstep : ∀ (n : Nat) (st : WalkState), loopHead sat W duration vscale st0 n = some st →
      ∃ st1, walkIter sat W duration vscale st = some st1 ∧ st.time + δ ≤ st1.time) :
    ∀ (n : Nat) (st : WalkState), loopHead sat W duration vscale st0 n = some st →
      (n : ℚ) * δ ≤ st.time := by
  intro n
  induction n with
  | zero =>
    intro st hst
    have e : st0 = st := Option.some.inj hst
    subst e
    rw [ht0]
    simp
  | succ n ih =>
    intro st1 h1
    have h := h1
    rw [loopHead] at h
    split at h
    · exact absurd h (by simp)
    · rename_i st hst
      split at h
      · exact absurd h (by simp)
      · rename_i st2 hst2
        split at h
        · have e : st2 = st1 := Option.some.inj h
          subst e
          obtain ⟨st3, hst3, hle⟩ := hstep n st hst
          rw [hst2] at hst3
          have e : st2 = st3 := Option.some.inj hst3
          subst e
          have := ih st hst
          push_cast
          linarith
        · exact absurd h (by simp)

/-- C28. The walk loop terminates: on an instance built by `loadsat` with
`1 <= B <= 256` whose clauses each mention pairwise distinct variables, for
`W >= 1`, `duration > 0`, `vscale >= 0`, every heap content and every stream
of draws, each pass of the `do` loop completes and adds at least
`0.99/max(1, vscale*numclauses)` to the elapsed time, the loop exits within
`ceil(duration*max(1, vscale*numclauses)/0.99)` passes, and no pass beyond
that number is ever started (exact arithmetic). -/
theorem walk_loop_terminates (B nc : Nat) (lines : List (List Int)) (sat : Instance)
    (h : loadsat (some (B, nc)) lines = .loaded sat) (hB1 : 1 ≤ B) (hB2 : B ≤ 256)
    (hdistinct : ∀ c ∈ sat.clauses, c.vars.Nodup)
    (W : Nat) (hW : 1 ≤ W) (duration vscale : ℚ) (hd : 0 < duration) (hv : 0 ≤ vscale)
    (heap1 heap2 : Nat → walker) (g : Rng) :
    ∃ st0, walkInit sat W heap1 heap2 g = some st0 ∧
      (∀ (n : Nat) (st : WalkState), loopHead sat W duration vscale st0 n = some st →
        ∃ st1, walkIter sat W duration vscale st = some st1 ∧ st.time < st1.time ∧
          st.time + (99 / 100) / max 1 (vscale * (nc : ℚ)) ≤ st1.time) ∧
      (∃ st, walkLoop sat W duration vscale
        ⌈duration * max 1 (vscale * (nc : ℚ)) / (99 / 100)⌉₊ st0 = some st) ∧
      ∀ n : Nat, ⌈duration * max 1 (vscale * (nc : ℚ)) / (99 / 100)⌉₊ ≤ n →
        loopHead sat W duration vscale st0 n = none := by
  have hrep := count_le_two_of_nodup sat hdistinct
  obtain ⟨st0, hst0, hc0, hp0, hinv0, ht0, hw0⟩ :=
    walkInit_spec B nc lines sat h hB2 W heap1 heap2 g
  have hM : (0 : ℚ) < max 1 (vscale * (nc : ℚ)) := lt_of_lt_of_le one_pos (le_max_left _ _)
  have hδ : (0 : ℚ) < (99 / 100) / max 1 (vscale * (nc : ℚ)) := div_pos (by norm_num) hM
  have hN : duration * max 1 (vscale * (nc : ℚ)) / (99 / 100) =
      duration / ((99 / 100) / max 1 (vscale * (nc : ℚ))) := by
    field_simp
    ring
  have hceil := Nat.le_ceil (duration * max 1 (vscale * (nc : ℚ)) / (99 / 100))
  rw [hN, div_le_iff₀ hδ] at hceil
  have hstep := loopHead_pass_time B nc lines sat h hB1 hB2 hrep W hW duration vscale hd hv
    st0 hc0 hp0 hinv0 ht0 hw0
  refine ⟨st0, hst0, ?_, ?_, ?_⟩
  · intro n st hst
    obtain ⟨st1, hit, hle⟩ := hstep n st hst
    exact ⟨st1, hit, by linarith, hle⟩
  · exact walkLoop_terminates B nc lines sat h hB1 hB2 hrep W hW duration vscale hd hv _ st0
      hc0 hp0 hinv0 (by rw [ht0]) (by rw [ht0]; exact hd) (by rw [ht0]; linarith)
  · intro n hn
    cases hh : loopHead sat W duration vscale st0 n with
    | none => rfl
    | some st =>
      exfalso
      have hlow := loopHead_time_lower sat W duration vscale _ st0 ht0 hstep n st hh
      obtain ⟨_, t1⟩ := loopHead_time sat W duration vscale hd hv st0 ht0 n st hh
      have hcast : ((⌈duration * max 1 (vscale * (nc : ℚ)) / (99 / 100)⌉₊ : Nat) : ℚ) ≤ (n : ℚ) := by
        exact_mod_cast hn
      have := mul_le_mul_of_nonneg_right hcast (le_of_lt hδ)
      linarith

theorem walk_loop_terminates_witness :
    ∃ st0, walkInit sampleInstance 2 sampleHeap sampleHeap sampleRng = some st0 ∧
      (∀ (n : Nat) (st : WalkState), loopHead sampleInstance 2 20 25 st0 n = some st →
        ∃ st1, walkIter sampleInstance 2 20 25 st = some st1 ∧ st.time < st1.time ∧
          st.time + (99 / 100) / max 1 ((25 : ℚ) * ((2 : Nat) : ℚ)) ≤ st1.time) ∧
      (∃ st, walkLoop sampleInstance 2 20 25
        ⌈(20 : ℚ) * max 1 ((25 : ℚ) * ((2 : Nat) : ℚ)) / (99 / 100)⌉₊ st0 = some st) ∧
      ∀ n : Nat, ⌈(20 : ℚ) * max 1 ((25 : ℚ) * ((2 : Nat) : ℚ)) / (99 / 100)⌉₊ ≤ n →
        loopHead sampleInstance 2 20 25 st0 n = none :=
  walk_loop_terminates 3 2 sampleLines sampleInstance sample_loaded (by decide) (by decide)
    (by decide) 2 (by decide) 20 25 (by norm_num) (by norm_num) sampleHeap sampleHeap sampleRng

/-! ## `tern` in binary64 -/

theorem roundEven_ge_floor (y : ℚ) : ⌊y⌋ ≤ roundEven y := by
  unfold roundEven
  split
  · exact le_refl _
  · split
    · omega
    · split <;> omega

theorem roundEven_le_ceil (y : ℚ) : roundEven y ≤ ⌈y⌉ := by
  unfold roundEven
  split
  · exact Int.floor_le_ceil y
  · rename_i h
    have hne : (⌊y⌋ : ℚ) ≠ y := by
      intro e
      rw [e] at h
      norm_num at h
    have hlt : (⌊y⌋ : ℚ) < y := lt_of_le_of_ne (Int.floor_le y) hne
    have hc : ⌊y⌋ + 1 ≤ ⌈y⌉ := by
      have : ⌊y⌋ < ⌈y⌉ := by
        rw [Int.lt_ceil]
        exact hlt
      omega
    split
    · exact hc
    · split
      · omega
      · exact hc

theorem roundEven_intCast (n : Int) : roundEven (n : ℚ) = n := by
  unfold roundEven
  rw [Int.floor_intCast]
  simp


theorem two_zpow_pos (k : Int) : (0 : ℚ) < 2 ^ k := zpow_pos (by norm_num) k

theorem dyadic_as_multiple (m e u : Int) (h : u ≤ e) :
    (m : ℚ) * 2 ^ e = ((m * 2 ^ (e - u).toNat : Int) : ℚ) * 2 ^ u := by
  have h2 : (2 : ℚ) ≠ 0 := by norm_num
  have he : e = ((e - u).toNat : Int) + u := by
    rw [Int.toNat_of_nonneg (by omega)]
    ring
  push_cast
  rw [mul_assoc, ← zpow_natCast, ← zpow_add₀ h2, ← he]

theorem roundRaw_zero : roundRaw 0 = 0 := by
  unfold roundRaw
  rw [zero_div]
  have : roundEven (0 : ℚ) = 0 := by
    have := roundEven_intCast 0
    simpa using this
  rw [this]
  simp

theorem log_bounds (x : ℚ) (hx : 0 < x) :
    (2 : ℚ) ^ Int.log 2 x ≤ x ∧ x < (2 : ℚ) ^ (Int.log 2 x + 1) := by
  have h1 := Int.zpow_log_le_self (b := 2) (r := x) (by norm_num) hx
  have h2 := Int.lt_zpow_succ_log_self (b := 2) (by norm_num) x
  simp only [Nat.cast_ofNat] at h1 h2
  exact ⟨h1, h2⟩

theorem double_lt_pow (m e : Int) (hm : |m| < 2 ^ 53) :
    (m : ℚ) * 2 ^ e < 2 ^ (53 + e) := by
  have h2 : (2 : ℚ) ≠ 0 := by norm_num
  have hm1 : (m : ℚ) < 2 ^ 53 := by
    have : m < 2 ^ 53 := lt_of_le_of_lt (le_abs_self m) hm
    exact_mod_cast this
  rw [zpow_add₀ h2]
  have : ((2 : ℚ) ^ (53 : Int)) = 2 ^ 53 := by norm_num
  rw [this]
  exact mul_lt_mul_of_pos_right hm1 (two_zpow_pos e)

theorem roundRaw_le_of_le (x c : ℚ) (hx : 0 ≤ x) (hc : IsDouble c) (hxc : x ≤ c) :
    roundRaw x ≤ c := by
  rcases eq_or_lt_of_le hx with h0 | hpos
  · rw [← h0, roundRaw_zero]
    rw [← h0] at hxc
    exact hxc
  obtain ⟨m, e, hm, he1, _, hce⟩ := hc
  obtain ⟨hL1, hL2⟩ := log_bounds x hpos
  have habs : |x| = x := abs_of_pos hpos
  by_cases hu : ulpExp x ≤ e
  · have hmul := dyadic_as_multiple m e (ulpExp x) hu
    have hy : x / 2 ^ ulpExp x ≤ ((m * 2 ^ (e - ulpExp x).toNat : Int) : ℚ) := by
      rw [div_le_iff₀ (two_zpow_pos _), ← hmul, ← hce]
      exact hxc
    have hr : roundEven (x / 2 ^ ulpExp x) ≤ m * 2 ^ (e - ulpExp x).toNat :=
      le_trans (roundEven_le_ceil _) (Int.ceil_le.2 hy)
    unfold roundRaw
    rw [hce, hmul]
    exact mul_le_mul_of_nonneg_right (by exact_mod_cast hr) (le_of_lt (two_zpow_pos _))
  · exfalso
    have hue : ulpExp x = Int.log 2 x - 52 := by
      unfold ulpExp at hu ⊢
      rw [habs] at hu ⊢
      rcases max_cases (Int.log 2 x - 52) (-1074) with ⟨h1, _⟩ | ⟨h1, _⟩
      · exact h1
      · rw [h1] at hu
        omega
    have hlt := double_lt_pow m e hm
    have hle : (2 : ℚ) ^ (53 + e) ≤ 2 ^ Int.log 2 x :=
      zpow_le_zpow_right₀ (by norm_num) (by omega)
    rw [← hce] at hlt
    linarith

theorem roundRaw_ge_of_ge (x c : ℚ) (hx : 0 ≤ x) (hc : IsDouble c) (hcx : c ≤ x) :
    c ≤ roundRaw x := by
  rcases eq_or_lt_of_le hx with h0 | hpos
  · rw [← h0, roundRaw_zero]
    rw [← h0] at hcx
    exact hcx
  obtain ⟨m, e, hm, he1, _, hce⟩ := hc
  obtain ⟨hL1, hL2⟩ := log_bounds x hpos
  have habs : |x| = x := abs_of_pos hpos
  have h2 : (2 : ℚ) ≠ 0 := by norm_num
  by_cases hu : ulpExp x ≤ e
  · have hmul := dyadic_as_multiple m e (ulpExp x) hu
    have hy : ((m * 2 ^ (e - ulpExp x).toNat : Int) : ℚ) ≤ x / 2 ^ ulpExp x := by
      rw [le_div_iff₀ (two_zpow_pos _), ← hmul, ← hce]
      exact hcx
    have hr : m * 2 ^ (e - ulpExp x).toNat ≤ roundEven (x / 2 ^ ulpExp x) :=
      le_trans (Int.le_floor.2 hy) (roundEven_ge_floor _)
    unfold roundRaw
    rw [hce, hmul]
    exact mul_le_mul_of_nonneg_right (by exact_mod_cast hr) (le_of_lt (two_zpow_pos _))
  · have hue : ulpExp x = Int.log 2 x - 52 := by
      unfold ulpExp at hu ⊢
      rw [habs] at hu ⊢
      rcases max_cases (Int.log 2 x - 52) (-1074) with ⟨h1, _⟩ | ⟨h1, _⟩
      · exact h1
      · rw [h1] at hu
        omega
    have hlt := double_lt_pow m e hm
    have hle : (2 : ℚ) ^ (53 + e) ≤ 2 ^ Int.log 2 x :=
      zpow_le_zpow_right₀ (by norm_num) (by omega)
    rw [← hce] at hlt
    have hy : (((2 : Int) ^ 52 : Int) : ℚ) ≤ x / 2 ^ ulpExp x := by
      rw [le_div_iff₀ (two_zpow_pos _), hue]
      have e1 : (((2 : Int) ^ 52 : Int) : ℚ) * 2 ^ (Int.log 2 x - 52) = 2 ^ Int.log 2 x := by
        have : (((2 : Int) ^ 52 : Int) : ℚ) = (2 : ℚ) ^ (52 : Int) := by norm_num
        rw [this, ← zpow_add₀ h2]
        congr 1
        ring
      rw [e1]
      exact hL1
    have hr : (2 : Int) ^ 52 ≤ roundEven (x / 2 ^ ulpExp x) :=
      le_trans (Int.le_floor.2 hy) (roundEven_ge_floor _)
    have hfin : (2 : ℚ) ^ Int.log 2 x ≤ roundRaw x := by
      unfold roundRaw
      have e1 : (2 : ℚ) ^ Int.log 2 x = (((2 : Int) ^ 52 : Int) : ℚ) * 2 ^ ulpExp x := by
        have : (((2 : Int) ^ 52 : Int) : ℚ) = (2 : ℚ) ^ (52 : Int) := by norm_num
        rw [this, hue, ← zpow_add₀ h2]
        congr 1
        ring
      rw [e1]
      exact mul_le_mul_of_nonneg_right (by exact_mod_cast hr) (le_of_lt (two_zpow_pos _))
    linarith

theorem roundRaw_exact (x : ℚ) (hx : IsDouble x) : roundRaw x = x := by
  obtain ⟨m, e, hm, he1, _, hxe⟩ := hx
  by_cases h0 : x = 0
  · rw [h0, roundRaw_zero]
  have hpos : 0 < |x| := abs_pos.2 h0
  have hu : ulpExp x ≤ e := by
    unfold ulpExp
    apply max_le _ he1
    have hlt : |x| < (2 : ℚ) ^ (53 + e) := by
      have h1 := double_lt_pow |m| e (by rw [abs_abs]; exact hm)
      have h2 : |x| = ((|m| : Int) : ℚ) * 2 ^ e := by
        rw [hxe, abs_mul, abs_of_pos (two_zpow_pos e)]
        push_cast
        rfl
      rw [h2]
      exact h1
    have := (Int.lt_zpow_iff_log_lt (b := 2) (by norm_num) hpos).1 (by simpa using hlt)
    omega
  have hmul := dyadic_as_multiple m e (ulpExp x) hu
  unfold roundRaw
  have hq : x / 2 ^ ulpExp x = ((m * 2 ^ (e - ulpExp x).toNat : Int) : ℚ) := by
    rw [div_eq_iff (ne_of_gt (two_zpow_pos _)), ← hmul, hxe]
  rw [hq, roundEven_intCast, ← hmul, hxe]

theorem double_abs_lt (x : ℚ) (hx : IsDouble x) : |x| < 2 ^ 1024 := by
  obtain ⟨m, e, hm, _, he2, hxe⟩ := hx
  have h1 := double_lt_pow |m| e (by rw [abs_abs]; exact hm)
  have h2 : |x| = ((|m| : Int) : ℚ) * 2 ^ e := by
    rw [hxe, abs_mul, abs_of_pos (two_zpow_pos e)]
    push_cast
    rfl
  rw [h2]
  have h3 : (2 : ℚ) ^ (53 + e) ≤ 2 ^ (1024 : Int) := zpow_le_zpow_right₀ (by norm_num) (by omega)
  have h4 : (2 : ℚ) ^ (1024 : Int) = 2 ^ 1024 := by norm_num
  linarith

theorem round64_exact (x : ℚ) (hx : IsDouble x) : round64 x = some x := by
  unfold round64
  rw [roundRaw_exact x hx, if_pos (double_abs_lt x hx)]

theorem randMax_cast : (RAND_MAX : ℚ) = 2147483647 := by
  unfold RAND_MAX
  norm_num

theorem isDouble_intCast (n : Int) (h : |n| < 2 ^ 53) : IsDouble (n : ℚ) :=
  ⟨n, 0, h, by omega, by omega, by simp⟩

theorem isDouble_randMax : IsDouble (RAND_MAX : ℚ) := by
  rw [randMax_cast]
  have := isDouble_intCast 2147483647 (by norm_num)
  simpa using this

theorem isDouble_zero : IsDouble 0 := by
  have := isDouble_intCast 0 (by norm_num)
  simpa using this

theorem isDouble_one : IsDouble 1 := by
  have := isDouble_intCast 1 (by norm_num)
  simpa using this

theorem round64_of_bounds (x : ℚ) (h0 : 0 ≤ roundRaw x) (h1 : roundRaw x ≤ 2147483647) :
    round64 x = some (roundRaw x) := by
  unfold round64
  rw [if_pos]
  rw [abs_of_nonneg h0]
  have : (2147483647 : ℚ) < 2 ^ 1024 := by norm_num
  linarith

theorem castInt_of_range (y : ℚ) (h0 : 0 ≤ y) (h1 : y ≤ 2147483647) :
    castInt y = some ⌊y⌋ ∧ 0 ≤ ⌊y⌋ ∧ ⌊y⌋ ≤ 2147483647 := by
  have hf0 : 0 ≤ ⌊y⌋ := Int.floor_nonneg.2 h0
  have hf1 : ⌊y⌋ ≤ 2147483647 := by
    have : (⌊y⌋ : ℚ) ≤ 2147483647 := le_trans (Int.floor_le y) h1
    exact_mod_cast this
  refine ⟨?_, hf0, hf1⟩
  unfold castInt
  rw [truncToInt_of_nonneg y h0, if_pos ⟨by omega, hf1⟩]

theorem threshold_defined (q : ℚ) (h0 : 0 ≤ q) (h1 : q ≤ 1) :
    (round64 (q * (RAND_MAX : ℚ))).bind castInt = some ⌊roundRaw (q * (RAND_MAX : ℚ))⌋ ∧
      0 ≤ ⌊roundRaw (q * (RAND_MAX : ℚ))⌋ ∧
      ⌊roundRaw (q * (RAND_MAX : ℚ))⌋ ≤ (RAND_MAX : Int) := by
  have hR : (0 : ℚ) ≤ (RAND_MAX : ℚ) := by exact_mod_cast Nat.zero_le _
  have hx0 : 0 ≤ q * (RAND_MAX : ℚ) := mul_nonneg h0 hR
  have hx1 : q * (RAND_MAX : ℚ) ≤ (RAND_MAX : ℚ) := by
    have := mul_le_mul_of_nonneg_right h1 hR
    linarith
  have hr0 : 0 ≤ roundRaw (q * (RAND_MAX : ℚ)) := roundRaw_ge_of_ge _ 0 hx0 isDouble_zero hx0
  have hr1 : roundRaw (q * (RAND_MAX : ℚ)) ≤ (RAND_MAX : ℚ) :=
    roundRaw_le_of_le _ _ hx0 isDouble_randMax hx1
  rw [randMax_cast] at hr1
  obtain ⟨hc, hf0, hf1⟩ := castInt_of_range _ hr0 hr1
  refine ⟨?_, hf0, ?_⟩
  · rw [round64_of_bounds _ hr0 hr1]
    exact hc
  · unfold RAND_MAX
    exact_mod_cast hf1

theorem round64_sum_bounds (p0 p1 s : ℚ) (hd0 : IsDouble p0) (h0 : 0 ≤ p0) (h1 : 0 ≤ p1)
    (hs : round64 (p0 + p1) = some s) : p0 ≤ s ∧ s = roundRaw (p0 + p1) := by
  have e : s = roundRaw (p0 + p1) := by
    unfold round64 at hs
    split at hs
    · exact (Option.some.inj hs).symm
    · exact absurd hs (by simp)
  refine ⟨?_, e⟩
  rw [e]
  exact roundRaw_ge_of_ge _ p0 (by linarith) hd0 (by linarith)

theorem round64_valid_sum (p0 p1 : ℚ) (h0 : 0 ≤ p0) (h1 : 0 ≤ p1) (h01 : p0 + p1 ≤ 1) :
    ∃ s, round64 (p0 + p1) = some s ∧ s ≤ 1 := by
  have hr0 : 0 ≤ roundRaw (p0 + p1) :=
    roundRaw_ge_of_ge _ 0 (by linarith) isDouble_zero (by linarith)
  have hr1 : roundRaw (p0 + p1) ≤ 1 := roundRaw_le_of_le _ 1 (by linarith) isDouble_one h01
  exact ⟨_, round64_of_bounds _ hr0 (by linarith), hr1⟩

theorem tern64_valid (p0 p1 s : ℚ) (g : Rng) (h0 : 0 ≤ p0) (h1 : 0 ≤ p1)
    (hs : round64 (p0 + p1) = some s) (hs1 : s ≤ 1) (t1 t2 : Int)
    (ht1 : (round64 (p0 * (RAND_MAX : ℚ))).bind castInt = some t1)
    (ht2 : (round64 (s * (RAND_MAX : ℚ))).bind castInt = some t2) :
    tern64 p0 p1 g =
      if ((rand g).1 : Int) < t1 then some (0, (rand g).2)
      else if ((rand g).1 : Int) < t2 then some (1, (rand g).2)
      else some (2, (rand g).2) := by
  unfold tern64
  rw [if_neg (not_lt.2 h0), if_neg (not_lt.2 h1), hs]
  simp only
  rw [if_neg (not_lt.2 hs1), ht1, ht2]

/-- The contract of `tern` on finite doubles, with the sum and the products
rounded as the binary64 operations round them. -/
theorem tern64_spec (p0 p1 : ℚ) (hd0 : IsDouble p0) (g : Rng) :
    (p0 < 0 ∨ p1 < 0 ∨ (∀ s, round64 (p0 + p1) = some s → 1 < s) →
      tern64 p0 p1 g = some (0, g)) ∧
    (0 ≤ p0 → 0 ≤ p1 → ∀ s, round64 (p0 + p1) = some s → s ≤ 1 →
      ∃ t1 t2 : Int, (round64 (p0 * (RAND_MAX : ℚ))).bind castInt = some t1 ∧
        (round64 (s * (RAND_MAX : ℚ))).bind castInt = some t2 ∧
        0 ≤ t1 ∧ t1 ≤ (RAND_MAX : Int) ∧ 0 ≤ t2 ∧ t2 ≤ (RAND_MAX : Int) ∧
        (rand g).1 ≤ RAND_MAX ∧ (rand g).2.pos = g.pos + 1 ∧
        (((rand g).1 : Int) < t1 → tern64 p0 p1 g = some (0, (rand g).2)) ∧
        (t1 ≤ ((rand g).1 : Int) → ((rand g).1 : Int) < t2 →
          tern64 p0 p1 g = some (1, (rand g).2)) ∧
        (¬ (((rand g).1 : Int) < t1) → ¬ (t1 ≤ ((rand g).1 : Int) ∧ ((rand g).1 : Int) < t2) →
          tern64 p0 p1 g = some (2, (rand g).2))) ∧
    (0 ≤ p0 → 0 ≤ p1 → p0 + p1 ≤ 1 → ∃ s, round64 (p0 + p1) = some s ∧ s ≤ 1) := by
  refine ⟨?_, ?_, round64_valid_sum p0 p1⟩
  · intro h
    unfold tern64
    by_cases h0 : p0 < 0
    · rw [if_pos h0]
    · rw [if_neg h0]
      by_cases h1 : p1 < 0
      · rw [if_pos h1]
      · rw [if_neg h1]
        have hsum : ∀ s, round64 (p0 + p1) = some s → 1 < s := by
          rcases h with h | h | h
          · exact absurd h h0
          · exact absurd h h1
          · exact h
        cases hr : round64 (p0 + p1) with
        | none => rfl
        | some s =>
          simp only
          rw [if_pos (hsum s hr)]
  · intro h0 h1 s hs hs1
    obtain ⟨hp0s, _⟩ := round64_sum_bounds p0 p1 s hd0 h0 h1 hs
    obtain ⟨ht1, a1, b1⟩ := threshold_defined p0 h0 (by linarith)
    obtain ⟨ht2, a2, b2⟩ := threshold_defined s (by linarith) hs1
    have hform := tern64_valid p0 p1 s g h0 h1 hs hs1 _ _ ht1 ht2
    refine ⟨_, _, ht1, ht2, a1, b1, a2, b2, rand_le g, rfl, ?_, ?_, ?_⟩
    · intro hr
      rw [hform, if_pos hr]
    · intro hr1 hr2
      rw [hform, if_neg (by omega), if_pos hr2]
    · intro hr1 hr2
      rw [hform, if_neg hr1, if_neg (by
        intro hlt
        exact hr2 ⟨by omega, hlt⟩)]

theorem tern64_exact (p0 p1 : ℚ) (g : Rng) (hs : IsDouble (p0 + p1))
    (hm1 : IsDouble (p0 * (RAND_MAX : ℚ))) (hm2 : IsDouble ((p0 + p1) * (RAND_MAX : ℚ))) :
    tern64 p0 p1 g = some (tern p0 p1 g) := by
  by_cases hinv : ternInvalid p0 p1
  · have e : tern p0 p1 g = (0, g) := by
      unfold tern
      rw [if_pos hinv]
    rw [e]
    unfold tern64
    by_cases h0 : p0 < 0
    · rw [if_pos h0]
    · rw [if_neg h0]
      by_cases h1 : p1 < 0
      · rw [if_pos h1]
      · rw [if_neg h1, round64_exact _ hs]
        simp only
        have h01 : p0 + p1 > 1 := by
          rcases hinv with h | h | h
          · exact absurd h h0
          · exact absurd h h1
          · exact h
        rw [if_pos h01]
  · have hv : 0 ≤ p0 ∧ 0 ≤ p1 ∧ p0 + p1 ≤ 1 := by
      unfold ternInvalid at hinv
      push_neg at hinv
      exact hinv
    obtain ⟨h0, h1, h01⟩ := hv
    have hR : (0 : ℚ) ≤ (RAND_MAX : ℚ) := by exact_mod_cast Nat.zero_le _
    have hx0 : 0 ≤ p0 * (RAND_MAX : ℚ) := mul_nonneg h0 hR
    have hy0 : 0 ≤ (p0 + p1) * (RAND_MAX : ℚ) := mul_nonneg (by linarith) hR
    have hx1 : p0 * (RAND_MAX : ℚ) ≤ 2147483647 := by
      rw [← randMax_cast]
      have := mul_le_mul_of_nonneg_right (show p0 ≤ 1 by linarith) hR
      linarith
    have hy1 : (p0 + p1) * (RAND_MAX : ℚ) ≤ 2147483647 := by
      rw [← randMax_cast]
      have := mul_le_mul_of_nonneg_right h01 hR
      linarith
    have ht1 : (round64 (p0 * (RAND_MAX : ℚ))).bind castInt =
        some (truncToInt (p0 * (RAND_MAX : ℚ))) := by
      rw [round64_exact _ hm1, truncToInt_of_nonneg _ hx0]
      exact (castInt_of_range _ hx0 hx1).1
    have ht2 : (round64 ((p0 + p1) * (RAND_MAX : ℚ))).bind castInt =
        some (truncToInt ((p0 + p1) * (RAND_MAX : ℚ))) := by
      rw [round64_exact _ hm2, truncToInt_of_nonneg _ hy0]
      exact (castInt_of_range _ hy0 hy1).1
    rw [tern64_valid p0 p1 (p0 + p1) g h0 h1 (round64_exact _ hs) h01 _ _ ht1 ht2]
    unfold tern
    rw [if_neg hinv]
    simp only
    split
    · rfl
    · split <;> rfl

theorem roundEven_of_near (y : ℚ) (n : Int) (h : |y - n| < 1 / 2) : roundEven y = n := by
  rw [abs_lt] at h
  obtain ⟨ha, hb⟩ := h
  by_cases hle : (n : ℚ) ≤ y
  · have hf : ⌊y⌋ = n := Int.floor_eq_iff.2 ⟨hle, by linarith⟩
    unfold roundEven
    rw [hf, if_pos (by linarith)]
  · have hf : ⌊y⌋ = n - 1 := Int.floor_eq_iff.2 ⟨by push_cast; linarith, by push_cast; linarith⟩
    unfold roundEven
    rw [hf, if_neg (by push_cast; linarith), if_pos (by push_cast; linarith)]
    ring

theorem roundRaw_eq (x : ℚ) (L n : Int) (h1 : (2 : ℚ) ^ L ≤ x) (h2 : x < (2 : ℚ) ^ (L + 1))
    (hL : -1022 ≤ L) (hn : |x / 2 ^ (L - 52) - n| < 1 / 2) :
    roundRaw x = (n : ℚ) * 2 ^ (L - 52) := by
  have hpos : 0 < x := lt_of_lt_of_le (two_zpow_pos L) h1
  have hlog : Int.log 2 x = L := by
    have a := (Int.zpow_le_iff_le_log (b := 2) (by norm_num) hpos).1 (by simpa using h1)
    have b := (Int.lt_zpow_iff_log_lt (b := 2) (by norm_num) hpos).1 (by simpa using h2)
    omega
  have hu : ulpExp x = L - 52 := by
    unfold ulpExp
    rw [abs_of_pos hpos, hlog]
    exact max_eq_left (by omega)
  unfold roundRaw
  rw [hu, roundEven_of_near _ n hn]

theorem round64_one_plus_tiny : round64 (1 + 1 / 2 ^ 60) = some 1 := by
  have h := roundRaw_eq (1 + 1 / 2 ^ 60) 0 (2 ^ 52) (by norm_num) (by norm_num) (by norm_num)
    (by
      rw [abs_lt]
      constructor <;> norm_num)
  have e : roundRaw (1 + 1 / 2 ^ 60) = 1 := by
    rw [h]
    norm_num
  unfold round64
  rw [e, if_pos (by norm_num)]

theorem roundRaw_half_product :
    roundRaw ((1 / 2 + 1 / 2 ^ 32) * (RAND_MAX : ℚ)) = 1073741824 := by
  rw [randMax_cast]
  have h := roundRaw_eq ((1 / 2 + 1 / 2 ^ 32) * 2147483647) 29 (2 ^ 53) (by norm_num)
    (by norm_num) (by norm_num)
    (by
      rw [abs_lt]
      constructor <;> norm_num)
  rw [h]
  norm_num

theorem isDouble_tiny : IsDouble (1 / 2 ^ 60) :=
  ⟨1, -60, by norm_num, by norm_num, by norm_num, by norm_num⟩

theorem isDouble_half_plus : IsDouble (1 / 2 + 1 / 2 ^ 32) :=
  ⟨2147483649, -32, by norm_num, by norm_num, by norm_num, by norm_num⟩

theorem threshold_of_intCast (n : Int) (x : ℚ) (hx : round64 x = some (n : ℚ)) (h0 : 0 ≤ n)
    (h1 : n ≤ 2147483647) : (round64 x).bind castInt = some n := by
  rw [hx]
  have a : (0 : ℚ) ≤ (n : ℚ) := by exact_mod_cast h0
  have b : (n : ℚ) ≤ 2147483647 := by exact_mod_cast h1
  have := (castInt_of_range (n : ℚ) a b).1
  rw [Int.floor_intCast] at this
  exact this

/-- C22, as stated, fails in binary64. The doubles `p0 = 1`, `p1 = 2^-60` have
`p0 + p1 > 1`, but the sum the code computes rounds to 1: the guard does not
fire, a draw is consumed, and on the draw `RAND_MAX` the call returns 2. The
valid pair `p0 = 0.5 + 2^-32`, `p1 = 0` has `floor(p0*RAND_MAX) = 1073741823`,
but the product the code computes rounds to `2^30`, so on the draw
`r = 1073741823` the call returns 0 where the claim expects 2. -/
theorem tern_rounds_in_binary64 :
    (IsDouble 1 ∧ IsDouble (1 / 2 ^ 60) ∧ (1 : ℚ) + 1 / 2 ^ 60 > 1 ∧
      tern64 1 (1 / 2 ^ 60) ⟨fun _ => 2147483647, 0⟩ = some (2, ⟨fun _ => 2147483647, 1⟩)) ∧
    (IsDouble (1 / 2 + 1 / 2 ^ 32) ∧ (1 / 2 + 1 / 2 ^ 32 : ℚ) + 0 ≤ 1 ∧
      ⌊(1 / 2 + 1 / 2 ^ 32 : ℚ) * (RAND_MAX : ℚ)⌋ = 1073741823 ∧
      tern64 (1 / 2 + 1 / 2 ^ 32) 0 ⟨fun _ => 1073741823, 0⟩ =
        some (0, ⟨fun _ => 1073741823, 1⟩)) := by
  refine ⟨⟨isDouble_one, isDouble_tiny, by norm_num, ?_⟩,
    ⟨isDouble_half_plus, by norm_num, ?_, ?_⟩⟩
  · have hprod : round64 (1 * (RAND_MAX : ℚ)) = some ((2147483647 : Int) : ℚ) := by
      rw [one_mul, round64_exact _ isDouble_randMax, randMax_cast]
      norm_num
    have ht := threshold_of_intCast 2147483647 _ hprod (by norm_num) (by norm_num)
    rw [tern64_valid 1 (1 / 2 ^ 60) 1 _ (by norm_num) (by norm_num) round64_one_plus_tiny
      (le_refl 1) 2147483647 2147483647 ht ht]
    have hr : (rand ⟨fun _ => 2147483647, 0⟩).1 = 2147483647 := by decide
    rw [hr]
    rfl
  · rw [randMax_cast, Int.floor_eq_iff]
    constructor <;> norm_num
  · have hsum : round64 ((1 / 2 + 1 / 2 ^ 32 : ℚ) + 0) = some (1 / 2 + 1 / 2 ^ 32) := by
      rw [add_zero]
      exact round64_exact _ isDouble_half_plus
    have hraw := roundRaw_half_product
    have hprod : round64 ((1 / 2 + 1 / 2 ^ 32) * (RAND_MAX : ℚ)) =
        some ((1073741824 : Int) : ℚ) := by
      unfold round64
      rw [hraw, if_pos (by norm_num)]
      norm_num
    have ht := threshold_of_intCast 1073741824 _ hprod (by norm_num) (by norm_num)
    rw [tern64_valid (1 / 2 + 1 / 2 ^ 32) 0 (1 / 2 + 1 / 2 ^ 32) _ (by norm_num) (by norm_num)
      hsum (by norm_num) 1073741824 1073741824 ht ht]
    have hr : (rand ⟨fun _ => 1073741823, 0⟩).1 = 1073741823 := by decide
    rw [hr]
    rfl

/-- C22, amended. The contract of `tern` on finite doubles, in binary64: when
`p0 < 0`, `p1 < 0` or the rounded sum `p0 + p1` the code computes exceeds 1
(an infinite sum included), the call returns 0 and consumes no draw; for
every other pair it consumes one draw `r` in `[0, RAND_MAX]` and returns 0
when `r < t1`, 1 when `t1 <= r < t2`, and 2 otherwise, where `t1` and `t2`
are the casts to `int` of the rounded products `p0*RAND_MAX` and
`(p0+p1)*RAND_MAX`, both defined and in `[0, RAND_MAX]`; a pair that is
valid in exact arithmetic is never rejected; and when the sum and the two
products are representable, the call agrees with exact arithmetic (`tern`). -/
theorem tern64_contract (p0 p1 : ℚ) (hd0 : IsDouble p0) (_hd1 : IsDouble p1) (g : Rng) :
    (p0 < 0 ∨ p1 < 0 ∨ (∀ s, round64 (p0 + p1) = some s → 1 < s) →
      tern64 p0 p1 g = some (0, g)) ∧
    (0 ≤ p0 → 0 ≤ p1 → ∀ s, round64 (p0 + p1) = some s → s ≤ 1 →
      ∃ t1 t2 : Int, (round64 (p0 * (RAND_MAX : ℚ))).bind castInt = some t1 ∧
        (round64 (s * (RAND_MAX : ℚ))).bind castInt = some t2 ∧
        0 ≤ t1 ∧ t1 ≤ (RAND_MAX : Int) ∧ 0 ≤ t2 ∧ t2 ≤ (RAND_MAX : Int) ∧
        (rand g).1 ≤ RAND_MAX ∧ (rand g).2.pos = g.pos + 1 ∧
        (((rand g).1 : Int) < t1 → tern64 p0 p1 g = some (0, (rand g).2)) ∧
        (t1 ≤ ((rand g).1 : Int) → ((rand g).1 : Int) < t2 →
          tern64 p0 p1 g = some (1, (rand g).2)) ∧
        (¬ (((rand g).1 : Int) < t1) → ¬ (t1 ≤ ((rand g).1 : Int) ∧ ((rand g).1 : Int) < t2) →
          tern64 p0 p1 g = some (2, (rand g).2))) ∧
    (0 ≤ p0 → 0 ≤ p1 → p0 + p1 ≤ 1 → ∃ s, round64 (p0 + p1) = some s ∧ s ≤ 1) ∧
    (IsDouble (p0 + p1) → IsDouble (p0 * (RAND_MAX : ℚ)) →
      IsDouble ((p0 + p1) * (RAND_MAX : ℚ)) → tern64 p0 p1 g = some (tern p0 p1 g)) := by
  obtain ⟨hA, hB, hD⟩ := tern64_spec p0 p1 hd0 g
  exact ⟨hA, hB, hD, tern64_exact p0 p1 g⟩

theorem tern64_contract_witness :
    tern64 (-1) (1 / 2) sampleRng = some (0, sampleRng) ∧
    (∃ s, round64 ((1 / 2 : ℚ) + 1 / 4) = some s ∧ s ≤ 1) ∧
    tern64 (1 / 2) (1 / 4) sampleRng = some (tern (1 / 2) (1 / 4) sampleRng) :=
  ⟨(tern64_contract (-1) (1 / 2) ⟨-1, 0, by norm_num, by norm_num, by norm_num, by norm_num⟩
      ⟨1, -1, by norm_num, by norm_num, by norm_num, by norm_num⟩ sampleRng).1
      (Or.inl (by norm_num)),
    (tern64_contract (1 / 2) (1 / 4) ⟨1, -1, by norm_num, by norm_num, by norm_num, by norm_num⟩
      ⟨1, -2, by norm_num, by norm_num, by norm_num, by norm_num⟩ sampleRng).2.2.1
      (by norm_num) (by norm_num) (by norm_num),
    (tern64_contract (1 / 2) (1 / 4) ⟨1, -1, by norm_num, by norm_num, by norm_num, by norm_num⟩
      ⟨1, -2, by norm_num, by norm_num, by norm_num, by norm_num⟩ sampleRng).2.2.2
      ⟨3, -2, by norm_num, by norm_num, by norm_num, by norm_num⟩
      ⟨2147483647, -1, by norm_num, by norm_num, by norm_num, by rw [randMax_cast]; norm_num⟩
      ⟨6442450941, -2, by norm_num, by norm_num, by norm_num,
        by rw [randMax_cast]; norm_num⟩⟩

end Satsolve
